import Mathlib

/-!
# Verification of the terraview graph-preparation pipeline

Shallow embedding of the graph-transformation core of terraview
(package `graph`, together with `internal/tfstatereader` and
`internal/config`) and proofs about the claims of its specification.

Modelling conventions:
* Go maps are modelled as association lists (`List (String × α)`); all map
  reads use `lookupD` (first binding) and all writes use `setA`
  (update-first-or-append), mirroring the single-binding behaviour of a Go
  map.  Go's map iteration order is nondeterministic; where a claim depends
  on it the iteration order is an explicit parameter, otherwise the
  association-list order stands for one admissible Go execution and the
  proved properties are insensitive to that choice.
* Go strings are byte strings; all labels handled by the code are ASCII, so
  `List Char` indexing coincides with Go's byte indexing.
* Go runtime panics (out-of-range slice, nil-pointer dereference) are
  modelled with `Except String`; recursion through the (finite) graph uses
  an explicit fuel that provably exceeds the recursion depth of the Go
  original, so the fuel branch is never reached on the inputs considered.
-/

namespace Terraview

/-- Read a key from an association list (a Go map read), with default. -/
def lookupD {α : Type} (l : List (String × α)) (k : String) (d : α) : α :=
  match l.find? (fun p => p.1 = k) with
  | some p => p.2
  | none => d

/-- Write a key into an association list (a Go map write): replace the first
binding of the key, or append a new binding. -/
def setA {α : Type} (l : List (String × α)) (k : String) (v : α) : List (String × α) :=
  match l with
  | [] => [(k, v)]
  | p :: rest => if p.1 = k then (k, v) :: rest else p :: setA rest k v

/-- Go `strings.Trim(s, "\"")`: remove all leading and trailing quote
characters. -/
def trimQuotes (s : String) : String :=
  String.mk (((s.toList.dropWhile (· = '"')).reverse.dropWhile (· = '"')).reverse)

/-- Index of the first occurrence of a character in a character list
(Go `strings.Index` on an ASCII string, which is byte = char indexed). -/
def charIdx (l : List Char) (c : Char) : Nat :=
  match l with
  | [] => 0
  | x :: rest => if x = c then 0 else charIdx rest c + 1

/-- Go slice expression `s[lo:hi]`: panics unless `lo ≤ hi ≤ len s`. -/
def goSlice (l : List Char) (lo hi : Nat) : Except String (List Char) :=
  if lo ≤ hi ∧ hi ≤ l.length then .ok ((l.drop lo).take (hi - lo))
  else .error "slice bounds out of range"

/-- The index/key-marker extraction of `CleanUpEdges`: when the label
contains both `[` and `]` the marker is `label[Index(label,"[")+1 : Index(label,"]")]`,
otherwise the marker stays the empty string.  The slice can panic. -/
def extractIndexMarker (label : String) : Except String String :=
  let l := label.toList
  if l.contains '[' && l.contains ']' then
    (goSlice l (charIdx l '[' + 1) (charIdx l ']')).map fun cs => String.mk cs
  else .ok ""

/-- Go `strings.HasPrefix`. -/
def strStartsWith (s p : String) : Bool :=
  p.toList.isPrefixOf s.toList

/-- Go `strings.Split(s, ".")` on the character level: split at every dot
(the resulting list is always nonempty). -/
def splitDotChars : List Char → List (List Char)
  | [] => [[]]
  | c :: rest =>
    if c = '.' then [] :: splitDotChars rest
    else
      match splitDotChars rest with
      | [] => [[c]]
      | s :: ss => (c :: s) :: ss

/-- Go `strings.Split(s, ".")` (split on a single dot; always nonempty). -/
def splitDot (s : String) : List String :=
  (splitDotChars s.toList).map String.mk

/-- Go `strings.Join(elems, sep)`. -/
def strJoin (sep : String) : List String → String
  | [] => ""
  | [x] => x
  | x :: xs => x ++ sep ++ strJoin sep xs

/-- Go `strings.Replace(s, old, new, 1)`: replace the first occurrence. -/
def replaceFirstChars (s pat rep : List Char) : List Char :=
  match s with
  | [] => if pat.isEmpty then rep else []
  | c :: rest =>
    if pat.isPrefixOf (c :: rest) then rep ++ (c :: rest).drop pat.length
    else c :: replaceFirstChars rest pat rep

def replaceFirst (s pat rep : String) : String :=
  String.mk (replaceFirstChars s.toList pat.toList rep.toList)

/-! ## The graph data model

Mirror of `gographviz.Graph` as the terraview code uses it: the node list
(`Nodes.Nodes` together with `Nodes.Lookup`, which gographviz keeps
consistent, collapsed into one list), the flat edge list `Edges.Edges`, the
two nested edge indices `Edges.SrcToDsts` / `Edges.DstToSrcs`, the subgraph
map, and the containment `Relations` maps.  Edge attribute maps are omitted:
no modelled operation reads them, and no claim mentions them. -/

structure GoEdge where
  src : String
  dst : String
deriving DecidableEq, Repr

structure GoNode where
  name : String
  attrs : List (String × String)
deriving DecidableEq, Repr

abbrev EdgeIdx := List (String × List (String × List GoEdge))

structure GoGraph where
  nodes : List GoNode
  edges : List GoEdge
  srcToDsts : EdgeIdx
  dstToSrcs : EdgeIdx
  subGraphs : List (String × List (String × String))
  parentToChildren : List (String × List String)
  childToParents : List (String × List String)
  graphAttrs : List (String × String)
deriving DecidableEq, Repr

/-- `graph.Nodes.Lookup[n]` (nil when absent). -/
def findNode? (g : GoGraph) (n : String) : Option GoNode :=
  g.nodes.find? (fun nd => nd.name = n)

/-- The trimmed label attribute of a node (Go map read defaults to ""). -/
def nodeLabelOf (nd : GoNode) : String :=
  trimQuotes (lookupD nd.attrs "label" "")

/-! ## Edge reconciliation: `CleanUpEdges` / `removeEdgeFromGraph` -/

/-- The removal loop of `removeEdgeFromGraph` on one slice: scan for the
first edge whose endpoints match and splice it out (`break` afterwards). -/
def removeFirstMatch (src dst : String) : List GoEdge → List GoEdge
  | [] => []
  | e :: rest => if e.src = src && e.dst = dst then rest else e :: removeFirstMatch src dst rest

/-- Removal from one nested edge index: read `m[k1][k2]` (missing entries
read as nil slices), and write back the spliced slice only when a matching
edge was found (the Go assignment sits inside the scan loop). -/
def idxRemove (m : EdgeIdx) (k1 k2 : String) (src dst : String) : EdgeIdx :=
  if (lookupD (lookupD m k1 []) k2 []).any (fun e => e.src = src && e.dst = dst) then
    setA m k1 (setA (lookupD m k1 []) k2
      (removeFirstMatch src dst (lookupD (lookupD m k1 []) k2 [])))
  else m

/-- `removeEdgeFromGraph`: remove the edge from `SrcToDsts`, from
`DstToSrcs` and from the flat `Edges` list, matching by endpoints. -/
def removeEdgeFromGraph (g : GoGraph) (e : GoEdge) : GoGraph :=
  { g with
    srcToDsts := idxRemove g.srcToDsts e.src e.dst e.src e.dst
    dstToSrcs := idxRemove g.dstToSrcs e.dst e.src e.src e.dst
    edges := removeFirstMatch e.src e.dst g.edges }

/-- All outgoing edges of a node in the order the Go code ranges over
`graph.Edges.SrcToDsts[node]` (entries of the inner map, then each slice). -/
def edgesAt (g : GoGraph) (node : String) : List GoEdge :=
  (lookupD g.srcToDsts node []).foldr (fun p acc => p.2 ++ acc) []

/-- All edges the reverse index `DstToSrcs` records into `node` (the slices
the expansion's incoming-edge loop walks). -/
def edgesInAt (g : GoGraph) (node : String) : List GoEdge :=
  (lookupD g.dstToSrcs node []).foldr (fun p acc => p.2 ++ acc) []

/-- The per-edge test of `CleanUpEdges`: look up the destination node
(nil dereference when absent), extract its marker (the slice can panic) and
keep the edge for removal when both markers are nonempty and differ. -/
def badEdgeCheck (g : GoGraph) (currentIndex : String) (e : GoEdge) : Except String Bool :=
  match findNode? g e.dst with
  | none => .error "nil node lookup"
  | some nd =>
    (extractIndexMarker (nodeLabelOf nd)).map fun dstIndex =>
      decide (currentIndex ≠ "" ∧ dstIndex ≠ "" ∧ currentIndex ≠ dstIndex)

/-- The `edgesToRemove` collection loop of `CleanUpEdges`. -/
def collectBadEdges (g : GoGraph) (currentIndex : String) : List GoEdge → Except String (List GoEdge)
  | [] => .ok []
  | e :: rest => do
    let b ← badEdgeCheck g currentIndex e
    let r ← collectBadEdges g currentIndex rest
    pure (if b then e :: r else r)

/-- Run a per-node traversal step over a worklist, threading the graph and
the visited set (the `for … { dfs(dst) }` loops of the Go code). -/
def cleanStepList (step : GoGraph → List String → String → Except String (GoGraph × List String)) :
    GoGraph → List String → List String → Except String (GoGraph × List String)
  | g, visited, [] => .ok (g, visited)
  | g, visited, node :: rest =>
    match step g visited node with
    | .error e => .error e
    | .ok (g2, v2) => cleanStepList step g2 v2 rest

/-- The recursive `dfs` closure of `CleanUpEdges`: an unvisited node is
marked, its mismatched outgoing edges are removed, and the traversal
descends into the destinations of its remaining outgoing edges.  `fuel`
bounds the recursion depth; it is chosen strictly larger than the number of
nodes, so the Go recursion (whose depth is bounded by the number of
distinct marked names) never exceeds it. -/
def cleanDfsNode : Nat → GoGraph → List String → String → Except String (GoGraph × List String)
  | 0, _, _, _ => .error "out of fuel"
  | fuel+1, g, visited, node =>
    if visited.contains node then .ok (g, visited)
    else
      match findNode? g node with
      | none => .error "nil node lookup"
      | some nd =>
        match extractIndexMarker (nodeLabelOf nd) with
        | .error e => .error e
        | .ok currentIndex =>
          match collectBadEdges g currentIndex (edgesAt g node) with
          | .error e => .error e
          | .ok toRemove =>
            cleanStepList (cleanDfsNode fuel) (toRemove.foldl removeEdgeFromGraph g)
              (node :: visited)
              ((edgesAt (toRemove.foldl removeEdgeFromGraph g) node).map (·.dst))

/-- `CleanUpEdges`: run the depth-first removal pass from every node of the
graph in node-list order. -/
def CleanUpEdges (g : GoGraph) : Except String GoGraph :=
  match cleanStepList (cleanDfsNode (g.nodes.length + 2)) g [] (g.nodes.map (·.name)) with
  | .error e => .error e
  | .ok (g', _) => .ok g'

/-! ## Edge counting and the reconciliation specification -/

/-- Number of edges with the given endpoints in a slice. -/
def matchCount (src dst : String) (l : List GoEdge) : Nat :=
  (l.filter fun e => e.src = src && e.dst = dst).length

/-- Number of `(u,v)` edges in the flat edge list. -/
def flatCount (g : GoGraph) (u v : String) : Nat :=
  matchCount u v g.edges

/-- Number of `(u,v)` edges in the forward index `SrcToDsts`. -/
def s2dCount (g : GoGraph) (u v : String) : Nat :=
  matchCount u v (lookupD (lookupD g.srcToDsts u []) v [])

/-- Number of `(u,v)` edges in the reverse index `DstToSrcs`. -/
def d2sCount (g : GoGraph) (u v : String) : Nat :=
  matchCount u v (lookupD (lookupD g.dstToSrcs v []) u [])

/-- The marker of a node as `CleanUpEdges` computes it: `some m` when the
node exists and the extraction does not panic (`m = ""` when the label has
no bracket pair), `none` otherwise. -/
def markerAt (g : GoGraph) (n : String) : Option String :=
  match findNode? g n with
  | none => none
  | some nd =>
    match extractIndexMarker (nodeLabelOf nd) with
    | .ok m => some m
    | .error _ => none

/-- A pair of node names whose edges `CleanUpEdges` removes: both markers
extract successfully, both are nonempty, and they differ. -/
def badPairB (g : GoGraph) (u v : String) : Bool :=
  match markerAt g u, markerAt g v with
  | some mu, some mv => decide (mu ≠ "" ∧ mv ≠ "" ∧ mu ≠ mv)
  | _, _ => false

/-! ### Association list lemmas -/

theorem lookupD_nil {α : Type} (k : String) (d : α) : lookupD ([] : List (String × α)) k d = d := rfl

theorem lookupD_cons {α : Type} (p : String × α) (t : List (String × α)) (k : String) (d : α) :
    lookupD (p :: t) k d = if p.1 = k then p.2 else lookupD t k d := by
  by_cases h : p.1 = k <;> simp [lookupD, List.find?, h]

theorem lookupD_setA_self {α : Type} (l : List (String × α)) (k : String) (v d : α) :
    lookupD (setA l k v) k d = v := by
  induction l with
  | nil => simp [setA, lookupD_cons, lookupD_nil]
  | cons p rest ih =>
    by_cases h : p.1 = k
    · simp [setA, h, lookupD_cons]
    · simp [setA, h, lookupD_cons, ih]

theorem setA_nil {α : Type} (k : String) (v : α) : setA ([] : List (String × α)) k v = [(k, v)] := rfl

theorem setA_cons {α : Type} (p : String × α) (t : List (String × α)) (k : String) (v : α) :
    setA (p :: t) k v = if p.1 = k then (k, v) :: t else p :: setA t k v := rfl

theorem lookupD_setA_ne {α : Type} (l : List (String × α)) (k k' : String) (v : α) (d : α)
    (h : k' ≠ k) : lookupD (setA l k v) k' d = lookupD l k' d := by
  induction l with
  | nil =>
    rw [setA_nil, lookupD_cons, lookupD_nil, if_neg (fun hh => h hh.symm)]
  | cons p rest ih =>
    rw [setA_cons]
    by_cases hp : p.1 = k
    · rw [if_pos hp, lookupD_cons, lookupD_cons, if_neg (fun hh => h hh.symm),
        if_neg (fun hh : p.1 = k' => h (hp ▸ hh).symm)]
    · rw [if_neg hp, lookupD_cons, lookupD_cons, ih]

/-- A nonempty `lookupD` result is the value of a binding of the list. -/
theorem lookupD_mem {α : Type} (l : List (String × α)) (k : String) (d : α)
    (h : lookupD l k d ≠ d) : (k, lookupD l k d) ∈ l := by
  induction l with
  | nil => simp [lookupD_nil] at h
  | cons p rest ih =>
    rw [lookupD_cons] at h ⊢
    by_cases hp : p.1 = k
    · rw [if_pos hp] at h ⊢
      have : p = (k, p.2) := by rw [← hp]
      rw [this]
      exact List.mem_cons_self _ _
    · rw [if_neg hp] at h ⊢
      exact List.mem_cons_of_mem _ (ih h)

/-- With nodup keys, every binding is the `lookupD` view of its key. -/
theorem lookupD_of_mem_nodup {α : Type} (l : List (String × α)) (k : String) (v : α) (d : α)
    (hnd : (l.map (·.1)).Nodup) (hm : (k, v) ∈ l) : lookupD l k d = v := by
  induction l with
  | nil => simp at hm
  | cons p rest ih =>
    simp only [List.map_cons, List.nodup_cons] at hnd
    rw [lookupD_cons]
    rcases List.mem_cons.mp hm with hm | hm
    · rw [← hm, if_pos rfl]
    · have hk : p.1 ≠ k := by
        intro he
        exact hnd.1 (he ▸ (List.mem_map.mpr ⟨(k, v), hm, rfl⟩))
      rw [if_neg hk, ih hnd.2 hm]

theorem setA_mem_keys {α : Type} (l : List (String × α)) (k k' : String) (v : α)
    (h : k' ∈ (setA l k v).map (·.1)) : k' ∈ l.map (·.1) ∨ k' = k := by
  induction l with
  | nil =>
    rw [setA_nil] at h
    simp at h
    right; exact h
  | cons p rest ih =>
    rw [setA_cons] at h
    by_cases hp : p.1 = k
    · rw [if_pos hp] at h
      simp only [List.map_cons, List.mem_cons] at h
      rcases h with h | h
      · right; exact h
      · left; simp only [List.map_cons, List.mem_cons]; right; exact h
    · rw [if_neg hp] at h
      simp only [List.map_cons, List.mem_cons] at h
      rcases h with h | h
      · left; simp only [List.map_cons, List.mem_cons]; left; exact h
      · rcases ih h with hh | hh
        · left; simp only [List.map_cons, List.mem_cons]; right; exact hh
        · right; exact hh

theorem setA_nodup_keys {α : Type} (l : List (String × α)) (k : String) (v : α)
    (h : (l.map (·.1)).Nodup) : ((setA l k v).map (·.1)).Nodup := by
  induction l with
  | nil => simp [setA_nil]
  | cons p rest ih =>
    simp only [List.map_cons, List.nodup_cons] at h
    rw [setA_cons]
    by_cases hp : p.1 = k
    · rw [if_pos hp]
      simp only [List.map_cons, List.nodup_cons]
      exact ⟨hp ▸ h.1, h.2⟩
    · rw [if_neg hp]
      simp only [List.map_cons, List.nodup_cons]
      refine ⟨fun hmem => ?_, ih h.2⟩
      rcases setA_mem_keys rest k p.1 v hmem with hh | hh
      · exact h.1 hh
      · exact hp hh

theorem lookupD_not_mem_keys {α : Type} (l : List (String × α)) (k : String) (d : α)
    (h : k ∉ l.map (·.1)) : lookupD l k d = d := by
  induction l with
  | nil => rfl
  | cons p rest ih =>
    simp only [List.map_cons, List.mem_cons] at h
    push_neg at h
    rw [lookupD_cons, if_neg (fun hh => h.1 hh.symm), ih h.2]

/-! ### Counting lemmas -/

theorem matchCount_nil (u v : String) : matchCount u v [] = 0 := rfl

theorem matchCount_cons (u v : String) (e : GoEdge) (l : List GoEdge) :
    matchCount u v (e :: l) =
      if e.src = u ∧ e.dst = v then matchCount u v l + 1 else matchCount u v l := by
  by_cases h : e.src = u ∧ e.dst = v
  · simp [matchCount, List.filter, h.1, h.2]
  · rw [if_neg h]
    rcases not_and_or.mp h with h1 | h1 <;> simp [matchCount, List.filter, h1]

theorem matchCount_append (u v : String) (l1 l2 : List GoEdge) :
    matchCount u v (l1 ++ l2) = matchCount u v l1 + matchCount u v l2 := by
  induction l1 with
  | nil => simp [matchCount_nil]
  | cons e t ih =>
    rw [List.cons_append, matchCount_cons, matchCount_cons, ih]
    by_cases h : e.src = u ∧ e.dst = v
    · rw [if_pos h, if_pos h]; omega
    · rw [if_neg h, if_neg h]

theorem matchCount_eq_zero (u v : String) (l : List GoEdge)
    (h : ∀ e ∈ l, ¬(e.src = u ∧ e.dst = v)) : matchCount u v l = 0 := by
  induction l with
  | nil => rfl
  | cons e t ih =>
    rw [matchCount_cons, if_neg (h e (List.mem_cons_self _ _))]
    exact ih fun e' he' => h e' (List.mem_cons_of_mem _ he')

theorem matchCount_filter_uniform (u v : String) (l : List GoEdge) (f : GoEdge → Bool) (b : Bool)
    (h : ∀ e ∈ l, e.src = u → e.dst = v → f e = b) :
    matchCount u v (l.filter f) = if b then matchCount u v l else 0 := by
  induction l with
  | nil => cases b <;> simp [matchCount_nil]
  | cons e t ih =>
    have ht : matchCount u v (t.filter f) = if b then matchCount u v t else 0 :=
      ih fun e' he' => h e' (List.mem_cons_of_mem _ he')
    rw [List.filter_cons]
    by_cases hm : e.src = u ∧ e.dst = v
    · have hfe : f e = b := h e (List.mem_cons_self _ _) hm.1 hm.2
      cases b with
      | true =>
        rw [if_pos rfl] at ht
        rw [if_pos hfe, matchCount_cons, if_pos hm, ht, if_pos rfl, matchCount_cons, if_pos hm]
      | false =>
        have hne : ¬(f e = true) := by rw [hfe]; exact Bool.false_ne_true
        rw [if_neg Bool.false_ne_true] at ht
        rw [if_neg hne, ht, if_neg Bool.false_ne_true]
    · have hdrop : matchCount u v (if f e = true then e :: t.filter f else t.filter f) =
          matchCount u v (t.filter f) := by
        by_cases hfe : f e = true
        · rw [if_pos hfe, matchCount_cons, if_neg hm]
        · rw [if_neg hfe]
      rw [hdrop, ht]
      cases b
      · simp
      · rw [if_pos rfl, if_pos rfl, matchCount_cons, if_neg hm]

/-! ### `removeFirstMatch` lemmas -/

theorem removeFirstMatch_count_self (u v : String) (l : List GoEdge) :
    matchCount u v (removeFirstMatch u v l) = matchCount u v l - 1 := by
  induction l with
  | nil => rfl
  | cons e t ih =>
    by_cases h : e.src = u ∧ e.dst = v
    · have hb : (e.src = u && e.dst = v) = true := by simp [h.1, h.2]
      rw [removeFirstMatch, if_pos hb, matchCount_cons, if_pos h, Nat.add_sub_cancel]
    · have hb : ¬((e.src = u && e.dst = v) = true) := by
        simp only [Bool.and_eq_true, decide_eq_true_eq]
        exact h
      rw [removeFirstMatch, if_neg hb, matchCount_cons, if_neg h, matchCount_cons, if_neg h, ih]

theorem removeFirstMatch_count_ne (u v u' v' : String) (l : List GoEdge)
    (h : ¬(u = u' ∧ v = v')) :
    matchCount u' v' (removeFirstMatch u v l) = matchCount u' v' l := by
  induction l with
  | nil => rfl
  | cons e t ih =>
    by_cases hb : (e.src = u && e.dst = v) = true
    · rw [removeFirstMatch, if_pos hb, matchCount_cons]
      simp only [Bool.and_eq_true, decide_eq_true_eq] at hb
      have : ¬(e.src = u' ∧ e.dst = v') := by
        intro hc
        exact h ⟨hb.1 ▸ hc.1, hb.2 ▸ hc.2⟩
      rw [if_neg this]
    · rw [removeFirstMatch, if_neg hb, matchCount_cons, matchCount_cons, ih]

theorem removeFirstMatch_subset (u v : String) (l : List GoEdge) (e : GoEdge)
    (h : e ∈ removeFirstMatch u v l) : e ∈ l := by
  induction l with
  | nil => simp [removeFirstMatch] at h
  | cons x t ih =>
    rw [removeFirstMatch] at h
    by_cases hb : (x.src = u && x.dst = v) = true
    · rw [if_pos hb] at h
      exact List.mem_cons_of_mem _ h
    · rw [if_neg hb] at h
      rcases List.mem_cons.mp h with h | h
      · exact h ▸ List.mem_cons_self _ _
      · exact List.mem_cons_of_mem _ (ih h)

theorem any_false_matchCount {u v : String} {l : List GoEdge}
    (h : l.any (fun e => e.src = u && e.dst = v) = false) : matchCount u v l = 0 := by
  induction l with
  | nil => rfl
  | cons e t ih =>
    rw [List.any_cons, Bool.or_eq_false_iff] at h
    rw [matchCount_cons, if_neg, ih h.2]
    intro hc
    have := h.1
    rw [hc.1, hc.2] at this
    simp at this

/-! ### `idxRemove` and `removeEdgeFromGraph` count lemmas -/

theorem idxRemove_count_self (m : EdgeIdx) (k1 k2 src dst : String) :
    matchCount src dst (lookupD (lookupD (idxRemove m k1 k2 src dst) k1 []) k2 []) =
      matchCount src dst (lookupD (lookupD m k1 []) k2 []) - 1 := by
  rw [idxRemove]
  by_cases h : (lookupD (lookupD m k1 []) k2 []).any (fun e => e.src = src && e.dst = dst) = true
  · rw [if_pos h, lookupD_setA_self, lookupD_setA_self, removeFirstMatch_count_self]
  · rw [if_neg h]
    have h0 := any_false_matchCount ((Bool.not_eq_true _).mp h)
    rw [h0]

theorem idxRemove_lookup_outer_ne (m : EdgeIdx) (k1 k2 src dst k1' : String) (h : k1' ≠ k1) :
    lookupD (idxRemove m k1 k2 src dst) k1' [] = lookupD m k1' [] := by
  rw [idxRemove]
  by_cases hb : (lookupD (lookupD m k1 []) k2 []).any (fun e => e.src = src && e.dst = dst) = true
  · rw [if_pos hb, lookupD_setA_ne _ _ _ _ _ h]
  · rw [if_neg hb]

theorem idxRemove_lookup_inner_ne (m : EdgeIdx) (k1 k2 src dst k2' : String) (h : k2' ≠ k2) :
    lookupD (lookupD (idxRemove m k1 k2 src dst) k1 []) k2' [] =
      lookupD (lookupD m k1 []) k2' [] := by
  rw [idxRemove]
  by_cases hb : (lookupD (lookupD m k1 []) k2 []).any (fun e => e.src = src && e.dst = dst) = true
  · rw [if_pos hb, lookupD_setA_self, lookupD_setA_ne _ _ _ _ _ h]
  · rw [if_neg hb]

theorem idxRemove_count_preserve (m : EdgeIdx) (k1 k2 src dst a b s' d' : String)
    (h : ¬(a = k1 ∧ b = k2) ∨ ¬(src = s' ∧ dst = d')) :
    matchCount s' d' (lookupD (lookupD (idxRemove m k1 k2 src dst) a []) b []) =
      matchCount s' d' (lookupD (lookupD m a []) b []) := by
  by_cases ha : a = k1
  · by_cases hbk : b = k2
    · subst ha; subst hbk
      rcases h with h | h
      · exact absurd ⟨rfl, rfl⟩ h
      · rw [idxRemove]
        by_cases hb : (lookupD (lookupD m a []) b []).any
            (fun e => e.src = src && e.dst = dst) = true
        · rw [if_pos hb, lookupD_setA_self, lookupD_setA_self,
            removeFirstMatch_count_ne _ _ _ _ _ h]
        · rw [if_neg hb]
    · subst ha
      rw [idxRemove_lookup_inner_ne _ _ _ _ _ _ hbk]
  · rw [idxRemove_lookup_outer_ne _ _ _ _ _ _ ha]

theorem removeEdge_nodes (g : GoGraph) (e : GoEdge) :
    (removeEdgeFromGraph g e).nodes = g.nodes := rfl

theorem removeEdge_flat (g : GoGraph) (e : GoEdge) (u v : String) :
    flatCount (removeEdgeFromGraph g e) u v =
      if e.src = u ∧ e.dst = v then flatCount g u v - 1 else flatCount g u v := by
  show matchCount u v (removeFirstMatch e.src e.dst g.edges) = _
  by_cases h : e.src = u ∧ e.dst = v
  · rw [if_pos h, h.1, h.2, removeFirstMatch_count_self]; rfl
  · rw [if_neg h, removeFirstMatch_count_ne _ _ _ _ _ h]; rfl

theorem removeEdge_s2d (g : GoGraph) (e : GoEdge) (u v : String) :
    s2dCount (removeEdgeFromGraph g e) u v =
      if e.src = u ∧ e.dst = v then s2dCount g u v - 1 else s2dCount g u v := by
  show matchCount u v (lookupD (lookupD (idxRemove g.srcToDsts e.src e.dst e.src e.dst) u []) v []) = _
  by_cases h : e.src = u ∧ e.dst = v
  · rw [if_pos h, ← h.1, ← h.2]
    exact idxRemove_count_self _ _ _ _ _
  · rw [if_neg h, idxRemove_count_preserve]
    · rfl
    · exact Or.inr h

theorem removeEdge_d2s (g : GoGraph) (e : GoEdge) (u v : String) :
    d2sCount (removeEdgeFromGraph g e) u v =
      if e.src = u ∧ e.dst = v then d2sCount g u v - 1 else d2sCount g u v := by
  show matchCount u v (lookupD (lookupD (idxRemove g.dstToSrcs e.dst e.src e.src e.dst) v []) u []) = _
  by_cases h : e.src = u ∧ e.dst = v
  · rw [if_pos h, ← h.1, ← h.2]
    exact idxRemove_count_self _ _ _ _ _
  · rw [if_neg h, idxRemove_count_preserve]
    · rfl
    · exact Or.inr h

/-! ### Well-formedness of the forward index -/

/-- The forward index is structurally sound: every slice entry carries the
endpoints its two keys announce, and the inner key lists are duplicate-free
(they model Go maps, which cannot repeat a key). -/
def S2dWF (m : EdgeIdx) : Prop :=
  (∀ u v e, e ∈ lookupD (lookupD m u []) v [] → e.src = u ∧ e.dst = v) ∧
  (∀ u, ((lookupD m u []).map (·.1)).Nodup)

theorem idxRemove_s2dwf (m : EdgeIdx) (k1 k2 src dst : String) (h : S2dWF m) :
    S2dWF (idxRemove m k1 k2 src dst) := by
  constructor
  · intro u v e he
    by_cases ha : u = k1
    · subst ha
      by_cases hb2 : v = k2
      · subst hb2
        rw [idxRemove] at he
        by_cases hany : (lookupD (lookupD m u []) v []).any
            (fun e => e.src = src && e.dst = dst) = true
        · rw [if_pos hany, lookupD_setA_self, lookupD_setA_self] at he
          exact h.1 _ _ _ (removeFirstMatch_subset _ _ _ _ he)
        · rw [if_neg hany] at he
          exact h.1 _ _ _ he
      · rw [idxRemove_lookup_inner_ne _ _ _ _ _ _ hb2] at he
        exact h.1 _ _ _ he
    · rw [idxRemove_lookup_outer_ne _ _ _ _ _ _ ha] at he
      exact h.1 _ _ _ he
  · intro u
    by_cases ha : u = k1
    · subst ha
      rw [idxRemove]
      by_cases hany : (lookupD (lookupD m u []) k2 []).any
          (fun e => e.src = src && e.dst = dst) = true
      · rw [if_pos hany, lookupD_setA_self]
        exact setA_nodup_keys _ _ _ (h.2 u)
      · rw [if_neg hany]
        exact h.2 u
    · rw [idxRemove_lookup_outer_ne _ _ _ _ _ _ ha]
      exact h.2 u

theorem removeEdge_s2dwf (g : GoGraph) (e : GoEdge) (h : S2dWF g.srcToDsts) :
    S2dWF (removeEdgeFromGraph g e).srcToDsts :=
  idxRemove_s2dwf _ _ _ _ _ h

/-! ### Folding removal over a list of edges -/

theorem foldRemove_flat (R : List GoEdge) (g : GoGraph) (u v : String) :
    flatCount (R.foldl removeEdgeFromGraph g) u v = flatCount g u v - matchCount u v R := by
  induction R generalizing g with
  | nil => rw [List.foldl_nil, matchCount_nil, Nat.sub_zero]
  | cons e t ih =>
    rw [List.foldl_cons, ih, removeEdge_flat, matchCount_cons]
    by_cases h : e.src = u ∧ e.dst = v
    · rw [if_pos h, if_pos h]
      omega
    · rw [if_neg h, if_neg h]

theorem foldRemove_s2d (R : List GoEdge) (g : GoGraph) (u v : String) :
    s2dCount (R.foldl removeEdgeFromGraph g) u v = s2dCount g u v - matchCount u v R := by
  induction R generalizing g with
  | nil => rw [List.foldl_nil, matchCount_nil, Nat.sub_zero]
  | cons e t ih =>
    rw [List.foldl_cons, ih, removeEdge_s2d, matchCount_cons]
    by_cases h : e.src = u ∧ e.dst = v
    · rw [if_pos h, if_pos h]
      omega
    · rw [if_neg h, if_neg h]

theorem foldRemove_d2s (R : List GoEdge) (g : GoGraph) (u v : String) :
    d2sCount (R.foldl removeEdgeFromGraph g) u v = d2sCount g u v - matchCount u v R := by
  induction R generalizing g with
  | nil => rw [List.foldl_nil, matchCount_nil, Nat.sub_zero]
  | cons e t ih =>
    rw [List.foldl_cons, ih, removeEdge_d2s, matchCount_cons]
    by_cases h : e.src = u ∧ e.dst = v
    · rw [if_pos h, if_pos h]
      omega
    · rw [if_neg h, if_neg h]

theorem foldRemove_nodes (R : List GoEdge) (g : GoGraph) :
    (R.foldl removeEdgeFromGraph g).nodes = g.nodes := by
  induction R generalizing g with
  | nil => rfl
  | cons e t ih => rw [List.foldl_cons, ih, removeEdge_nodes]

theorem foldRemove_s2dwf (R : List GoEdge) (g : GoGraph) (h : S2dWF g.srcToDsts) :
    S2dWF (R.foldl removeEdgeFromGraph g).srcToDsts := by
  induction R generalizing g with
  | nil => exact h
  | cons e t ih => exact ih _ (removeEdge_s2dwf _ _ h)

/-! ### Characterizing the edges considered at one node -/

theorem concat_matchCount (node : String) (inner : List (String × List GoEdge)) (u v : String)
    (hstruct : ∀ p ∈ inner, ∀ e ∈ p.2, e.src = node ∧ e.dst = p.1)
    (hnd : (inner.map (·.1)).Nodup) :
    matchCount u v (inner.foldr (fun p acc => p.2 ++ acc) []) =
      if u = node then matchCount u v (lookupD inner v []) else 0 := by
  induction inner with
  | nil =>
    rw [lookupD_nil]
    by_cases h : u = node <;> simp [matchCount_nil, h]
  | cons p rest ih =>
    simp only [List.map_cons, List.nodup_cons] at hnd
    have hrest : ∀ q ∈ rest, ∀ e ∈ q.2, e.src = node ∧ e.dst = q.1 :=
      fun q hq => hstruct q (List.mem_cons_of_mem _ hq)
    have hp := hstruct p (List.mem_cons_self _ _)
    rw [List.foldr_cons, matchCount_append, ih hrest hnd.2, lookupD_cons]
    by_cases hu : u = node
    · rw [if_pos hu, if_pos hu]
      by_cases hv : p.1 = v
      · rw [if_pos hv]
        have hz : lookupD rest v [] = ([] : List GoEdge) :=
          lookupD_not_mem_keys _ _ _ (hv ▸ hnd.1)
        rw [hz, matchCount_nil, Nat.add_zero]
      · rw [if_neg hv]
        have hz : matchCount u v p.2 = 0 := by
          apply matchCount_eq_zero
          intro e he hc
          exact hv ((hp e he).2 ▸ hc.2)
        rw [hz, Nat.zero_add]
    · rw [if_neg hu, if_neg hu]
      have hz : matchCount u v p.2 = 0 := by
        apply matchCount_eq_zero
        intro e he hc
        apply hu
        rw [← hc.1]
        exact (hp e he).1
      rw [hz, Nat.zero_add]

theorem edgesAt_matchCount (g : GoGraph) (node : String) (hwf : S2dWF g.srcToDsts) (u v : String) :
    matchCount u v (edgesAt g node) = if u = node then s2dCount g node v else 0 := by
  have hstruct : ∀ p ∈ lookupD g.srcToDsts node [], ∀ e ∈ p.2, e.src = node ∧ e.dst = p.1 := by
    intro p hpm e he
    have hl : lookupD (lookupD g.srcToDsts node []) p.1 [] = p.2 :=
      lookupD_of_mem_nodup _ _ _ _ (hwf.2 node) (by
        have : p = (p.1, p.2) := rfl
        rw [← this]
        exact hpm)
    exact hwf.1 node p.1 e (hl ▸ he)
  rw [edgesAt, concat_matchCount node _ u v hstruct (hwf.2 node)]
  by_cases hu : u = node
  · rw [if_pos hu, if_pos hu, hu]
    rfl
  · rw [if_neg hu, if_neg hu]

/-! ### Characterizing the collected removal list -/

/-- The removal predicate of `CleanUpEdges` as a pure function of the
destination's marker. -/
def badFilter (g : GoGraph) (ci : String) (e : GoEdge) : Bool :=
  match markerAt g e.dst with
  | some m => decide (ci ≠ "" ∧ m ≠ "" ∧ ci ≠ m)
  | none => false

theorem markerAt_some (g : GoGraph) (n : String) (nd : GoNode) (m : String)
    (hfn : findNode? g n = some nd) (hm : extractIndexMarker (nodeLabelOf nd) = .ok m) :
    markerAt g n = some m := by
  simp [markerAt, hfn, hm]

theorem markerAt_congr (g g0 : GoGraph) (hn : g.nodes = g0.nodes) (x : String) :
    markerAt g x = markerAt g0 x := by
  rw [markerAt, markerAt, findNode?, findNode?, hn]

theorem badEdgeCheck_ok (g : GoGraph) (ci : String) (e : GoEdge) (b : Bool)
    (h : badEdgeCheck g ci e = .ok b) :
    ∃ m, markerAt g e.dst = some m ∧ b = decide (ci ≠ "" ∧ m ≠ "" ∧ ci ≠ m) := by
  cases hf : findNode? g e.dst with
  | none =>
    rw [badEdgeCheck, hf] at h
    exact absurd h (by simp)
  | some nd =>
    cases hm : extractIndexMarker (nodeLabelOf nd) with
    | error s =>
      simp [badEdgeCheck, hf, hm, Except.map] at h
    | ok m =>
      simp only [badEdgeCheck, hf, hm, Except.map, Except.ok.injEq] at h
      exact ⟨m, markerAt_some g e.dst nd m hf hm, h.symm⟩

theorem collectBadEdges_ok (g : GoGraph) (ci : String) (l : List GoEdge) (r : List GoEdge)
    (h : collectBadEdges g ci l = .ok r) :
    r = l.filter (badFilter g ci) := by
  induction l generalizing r with
  | nil =>
    simp only [collectBadEdges, Except.ok.injEq] at h
    rw [← h, List.filter_nil]
  | cons e t ih =>
    rw [collectBadEdges] at h
    cases hb : badEdgeCheck g ci e with
    | error s =>
      rw [hb] at h
      exact absurd h (by simp [Bind.bind, Except.bind])
    | ok b =>
      rw [hb] at h
      cases hr : collectBadEdges g ci t with
      | error s =>
        rw [hr] at h
        exact absurd h (by simp [Bind.bind, Except.bind])
      | ok r' =>
        rw [hr] at h
        simp only [Bind.bind, Except.bind, pure, Except.pure, Except.ok.injEq] at h
        obtain ⟨m, hm, hbv⟩ := badEdgeCheck_ok g ci e b hb
        have hfe : badFilter g ci e = b := by
          rw [badFilter, hm, hbv]
        rw [← h, List.filter_cons, hfe, ih r' hr]

theorem matchCount_filter_le (u v : String) (l : List GoEdge) (f : GoEdge → Bool) :
    matchCount u v (l.filter f) ≤ matchCount u v l := by
  induction l with
  | nil => exact Nat.le_refl _
  | cons e t ih =>
    rw [List.filter_cons, matchCount_cons]
    by_cases hf : f e = true
    · rw [if_pos hf, matchCount_cons]
      by_cases h : e.src = u ∧ e.dst = v
      · rw [if_pos h, if_pos h]
        omega
      · rw [if_neg h, if_neg h]
        exact ih
    · rw [if_neg hf]
      by_cases h : e.src = u ∧ e.dst = v
      · rw [if_pos h]
        omega
      · rw [if_neg h]
        exact ih

theorem badFilter_eq_badPair (g g0 : GoGraph) (hn : g.nodes = g0.nodes) (node ci : String)
    (hciM : markerAt g node = some ci) (e : GoEdge) (v : String) (hdst : e.dst = v) :
    badFilter g ci e = badPairB g0 node v := by
  have hci0 : markerAt g0 node = some ci := by
    rw [← markerAt_congr g g0 hn]
    exact hciM
  rw [badFilter, badPairB, hdst, markerAt_congr g g0 hn v, hci0]
  cases markerAt g0 v with
  | none => rfl
  | some m => rfl

/-! ### List-contains helpers -/

theorem contains_cons_self (a : String) (l : List String) : (a :: l).contains a = true := by
  simp [List.contains_cons]

theorem contains_cons_ne (a x : String) (l : List String) (h : x ≠ a) :
    (a :: l).contains x = l.contains x := by
  simp [List.contains_cons, h]

theorem contains_cons_of (a x : String) (l : List String) (h : l.contains x = true) :
    (a :: l).contains x = true := by
  simp only [List.contains_cons, h, Bool.or_true]

/-! ### The traversal invariant of `CleanUpEdges` -/

/-- Index consistency of a graph, as gographviz maintains it: the two nested
indices agree with the flat edge list on every endpoint pair, and the
forward index is structurally sound. -/
def EdgesWF (g : GoGraph) : Prop :=
  (∀ u v, s2dCount g u v = flatCount g u v) ∧
  (∀ u v, d2sCount g u v = flatCount g u v) ∧
  S2dWF g.srcToDsts

/-- Invariant of the `CleanUpEdges` traversal: nodes and labels are
untouched, and an endpoint pair has been emptied out of each of the three
edge stores exactly when its source has been visited and the pair is
marker-mismatched; every other pair still has its original count. -/
def Pruned (g0 g : GoGraph) (visited : List String) : Prop :=
  g.nodes = g0.nodes ∧
  S2dWF g.srcToDsts ∧
  (∀ u v, flatCount g u v =
    if visited.contains u && badPairB g0 u v then 0 else flatCount g0 u v) ∧
  (∀ u v, s2dCount g u v =
    if visited.contains u && badPairB g0 u v then 0 else s2dCount g0 u v) ∧
  (∀ u v, d2sCount g u v =
    if visited.contains u && badPairB g0 u v then 0 else d2sCount g0 u v)

theorem prune_step (g0 g : GoGraph) (visited : List String) (node : String) (nd : GoNode)
    (ci : String) (R : List GoEdge)
    (hwf0 : EdgesWF g0) (hp : Pruned g0 g visited)
    (hnv : visited.contains node = false)
    (hfn : findNode? g node = some nd)
    (hci : extractIndexMarker (nodeLabelOf nd) = .ok ci)
    (hR : collectBadEdges g ci (edgesAt g node) = .ok R) :
    Pruned g0 (R.foldl removeEdgeFromGraph g) (node :: visited) := by
  obtain ⟨hn, hwf, hflat, hs2d, hd2s⟩ := hp
  have hciM : markerAt g node = some ci := markerAt_some g node nd ci hfn hci
  have hRfilter : R = (edgesAt g node).filter (badFilter g ci) := collectBadEdges_ok _ _ _ _ hR
  have hcount : ∀ u v, matchCount u v R =
      if u = node then (if badPairB g0 node v then s2dCount g node v else 0) else 0 := by
    intro u v
    rw [hRfilter]
    by_cases hu : u = node
    · subst hu
      rw [if_pos rfl,
        matchCount_filter_uniform u v _ _ (badPairB g0 u v)
          (fun e _ _ hdst => badFilter_eq_badPair g g0 hn u ci hciM e v hdst),
        edgesAt_matchCount g u hwf u v, if_pos rfl]
    · rw [if_neg hu]
      have hle := matchCount_filter_le u v (edgesAt g node) (badFilter g ci)
      rw [edgesAt_matchCount g node hwf u v, if_neg hu] at hle
      omega
  -- the per-pair count of `g` at an unvisited source is the original count
  have hs2dg : ∀ v, s2dCount g node v = s2dCount g0 node v := by
    intro v
    rw [hs2d node v, hnv]
    rfl
  refine ⟨?_, ?_, ?_, ?_, ?_⟩
  · rw [foldRemove_nodes]
    exact hn
  · exact foldRemove_s2dwf _ _ hwf
  · intro u v
    rw [foldRemove_flat, hflat u v, hcount u v]
    by_cases hu : u = node
    · subst hu
      rw [if_pos rfl, hnv, contains_cons_self]
      by_cases hb : badPairB g0 u v = true
      · rw [if_pos hb, hs2dg v, hwf0.1 u v, hb]
        simp
      · rw [if_neg hb, (Bool.not_eq_true _).mp hb]
        simp
    · rw [if_neg hu, contains_cons_ne node u visited hu, Nat.sub_zero]
  · intro u v
    rw [foldRemove_s2d, hs2d u v, hcount u v]
    by_cases hu : u = node
    · subst hu
      rw [if_pos rfl, hnv, contains_cons_self]
      by_cases hb : badPairB g0 u v = true
      · rw [if_pos hb, hs2dg v, hb]
        simp
      · rw [if_neg hb, (Bool.not_eq_true _).mp hb]
        simp
    · rw [if_neg hu, contains_cons_ne node u visited hu, Nat.sub_zero]
  · intro u v
    rw [foldRemove_d2s, hd2s u v, hcount u v]
    by_cases hu : u = node
    · subst hu
      rw [if_pos rfl, hnv, contains_cons_self]
      by_cases hb : badPairB g0 u v = true
      · rw [if_pos hb, hs2dg v, hwf0.1 u v, ← hwf0.2.1 u v, hb]
        simp
      · rw [if_neg hb, (Bool.not_eq_true _).mp hb]
        simp
    · rw [if_neg hu, contains_cons_ne node u visited hu, Nat.sub_zero]

theorem cleanStepList_spec (g0 : GoGraph)
    (step : GoGraph → List String → String → Except String (GoGraph × List String))
    (Hstep : ∀ g visited node g' visited', Pruned g0 g visited →
      step g visited node = .ok (g', visited') →
      Pruned g0 g' visited' ∧
        (∀ x, visited.contains x = true → visited'.contains x = true) ∧
        visited'.contains node = true) :
    ∀ (l : List String) (g : GoGraph) (visited : List String)
      (g' : GoGraph) (visited' : List String),
      Pruned g0 g visited →
      cleanStepList step g visited l = .ok (g', visited') →
      Pruned g0 g' visited' ∧
      (∀ x, visited.contains x = true → visited'.contains x = true) ∧
      (∀ x ∈ l, visited'.contains x = true) := by
  intro l
  induction l with
  | nil =>
    intro g visited g' visited' hp hok
    rw [cleanStepList] at hok
    simp only [Except.ok.injEq, Prod.mk.injEq] at hok
    obtain ⟨h1, h2⟩ := hok
    subst h1
    subst h2
    exact ⟨hp, fun x hx => hx, fun x hx => absurd hx (List.not_mem_nil x)⟩
  | cons node rest ihl =>
    intro g visited g' visited' hp hok
    rw [cleanStepList] at hok
    cases hstep : step g visited node with
    | error s =>
      simp only [hstep] at hok
      exact absurd hok (by simp)
    | ok p =>
      obtain ⟨g2, v2⟩ := p
      simp only [hstep] at hok
      obtain ⟨hp2, hm2, hc2⟩ := Hstep g visited node g2 v2 hp hstep
      obtain ⟨hp3, hm3, hall3⟩ := ihl g2 v2 g' visited' hp2 hok
      refine ⟨hp3, fun x hx => hm3 x (hm2 x hx), fun x hx => ?_⟩
      rcases List.mem_cons.mp hx with hx | hx
      · exact hx ▸ hm3 node hc2
      · exact hall3 x hx

theorem cleanDfsNode_spec (g0 : GoGraph) (hwf0 : EdgesWF g0) :
    ∀ (fuel : Nat) (g : GoGraph) (visited : List String) (node : String)
      (g' : GoGraph) (visited' : List String),
      Pruned g0 g visited →
      cleanDfsNode fuel g visited node = .ok (g', visited') →
      Pruned g0 g' visited' ∧
      (∀ x, visited.contains x = true → visited'.contains x = true) ∧
      visited'.contains node = true := by
  intro fuel
  induction fuel with
  | zero =>
    intro g visited node g' visited' _ hok
    rw [cleanDfsNode] at hok
    exact absurd hok (by simp)
  | succ fuel ih =>
    intro g visited node g' visited' hp hok
    rw [cleanDfsNode] at hok
    by_cases hv : visited.contains node = true
    · rw [if_pos hv] at hok
      simp only [Except.ok.injEq, Prod.mk.injEq] at hok
      obtain ⟨h1, h2⟩ := hok
      subst h1
      subst h2
      exact ⟨hp, fun x hx => hx, hv⟩
    · rw [if_neg hv] at hok
      cases hfn : findNode? g node with
      | none =>
        simp only [hfn] at hok
        exact absurd hok (by simp)
      | some nd =>
        simp only [hfn] at hok
        cases hci : extractIndexMarker (nodeLabelOf nd) with
        | error s =>
          simp only [hci] at hok
          exact absurd hok (by simp)
        | ok ci =>
          simp only [hci] at hok
          cases hcb : collectBadEdges g ci (edgesAt g node) with
          | error s =>
            simp only [hcb] at hok
            exact absurd hok (by simp)
          | ok R =>
            simp only [hcb] at hok
            have hp1 : Pruned g0 (R.foldl removeEdgeFromGraph g) (node :: visited) :=
              prune_step g0 g visited node nd ci R hwf0 hp
                ((Bool.not_eq_true _).mp hv) hfn hci hcb
            obtain ⟨hp3, hm3, _⟩ :=
              cleanStepList_spec g0 (cleanDfsNode fuel) ih _ _ _ _ _ hp1 hok
            exact ⟨hp3, fun x hx => hm3 x (contains_cons_of node x visited hx),
              hm3 node (contains_cons_self node visited)⟩

/-! ### Totality of `CleanUpEdges` on panic-free inputs -/

theorem setA_mem_entries {α : Type} (l : List (String × α)) (k : String) (v : α)
    (p : String × α) (h : p ∈ setA l k v) : p ∈ l ∨ p = (k, v) := by
  induction l with
  | nil =>
    rw [setA_nil] at h
    rcases List.mem_cons.mp h with h | h
    · exact Or.inr h
    · exact absurd h (List.not_mem_nil p)
  | cons q rest ih =>
    rw [setA_cons] at h
    by_cases hq : q.1 = k
    · rw [if_pos hq] at h
      rcases List.mem_cons.mp h with h | h
      · exact Or.inr h
      · exact Or.inl (List.mem_cons_of_mem _ h)
    · rw [if_neg hq] at h
      rcases List.mem_cons.mp h with h | h
      · exact Or.inl (h ▸ List.mem_cons_self _ _)
      · rcases ih h with hh | hh
        · exact Or.inl (List.mem_cons_of_mem _ hh)
        · exact Or.inr hh

theorem mem_foldr_concat (inner : List (String × List GoEdge)) (e : GoEdge)
    (h : e ∈ inner.foldr (fun p acc => p.2 ++ acc) []) : ∃ q ∈ inner, e ∈ q.2 := by
  induction inner with
  | nil => exact absurd h (List.not_mem_nil e)
  | cons p rest ih =>
    rw [List.foldr_cons] at h
    rcases List.mem_append.mp h with h | h
    · exact ⟨p, List.mem_cons_self _ _, h⟩
    · obtain ⟨q, hq, hqe⟩ := ih h
      exact ⟨q, List.mem_cons_of_mem _ hq, hqe⟩

theorem mem_names_findNode (g : GoGraph) (x : String) (h : x ∈ g.nodes.map (·.name)) :
    ∃ nd, findNode? g x = some nd ∧ nd ∈ g.nodes ∧ nd.name = x := by
  obtain ⟨nd0, hmem, hname⟩ := List.mem_map.mp h
  have hsome : (g.nodes.find? (fun nd => nd.name = x)).isSome := by
    rw [List.find?_isSome]
    exact ⟨nd0, hmem, by simp [hname]⟩
  cases hf : g.nodes.find? (fun nd => nd.name = x) with
  | none => rw [hf] at hsome; exact absurd hsome (by simp)
  | some nd =>
    refine ⟨nd, hf, List.mem_of_find?_eq_some hf, ?_⟩
    have := List.find?_some hf
    simpa using this

theorem findNode?_some_mem (g : GoGraph) (x : String) (nd : GoNode)
    (h : findNode? g x = some nd) : nd ∈ g.nodes ∧ nd.name = x := by
  refine ⟨List.mem_of_find?_eq_some h, ?_⟩
  have := List.find?_some h
  simpa using this

/-- Every label in the graph extracts without a panic. -/
def LabelsOk (nodes : List GoNode) : Prop :=
  ∀ nd ∈ nodes, ∃ m, extractIndexMarker (nodeLabelOf nd) = .ok m

/-- Every destination recorded in the forward index names an existing node. -/
def DstsOk (nodes : List GoNode) (m : EdgeIdx) : Prop :=
  ∀ p ∈ m, ∀ q ∈ p.2, ∀ e ∈ q.2, e.dst ∈ nodes.map (·.name)

theorem idxRemove_dstsOk (nodes : List GoNode) (m : EdgeIdx) (k1 k2 src dst : String)
    (h : DstsOk nodes m) : DstsOk nodes (idxRemove m k1 k2 src dst) := by
  rw [idxRemove]
  by_cases hany : (lookupD (lookupD m k1 []) k2 []).any
      (fun e => e.src = src && e.dst = dst) = true
  · rw [if_pos hany]
    intro p hp q hq e he
    rcases setA_mem_entries m k1 _ p hp with hp' | hp'
    · exact h p hp' q hq e he
    · subst hp'
      rcases setA_mem_entries _ k2 _ q hq with hq' | hq'
      · -- q is an entry of lookupD m k1 []
        by_cases hz : lookupD m k1 [] = ([] : List (String × List GoEdge))
        · rw [hz] at hq'
          exact absurd hq' (List.not_mem_nil q)
        · have hmem : (k1, lookupD m k1 []) ∈ m := lookupD_mem m k1 [] hz
          exact h _ hmem q hq' e he
      · subst hq'
        have he' := removeFirstMatch_subset _ _ _ _ he
        by_cases hz : lookupD (lookupD m k1 []) k2 [] = ([] : List GoEdge)
        · rw [hz] at he'
          exact absurd he' (List.not_mem_nil e)
        · by_cases hz2 : lookupD m k1 [] = ([] : List (String × List GoEdge))
          · rw [hz2, lookupD_nil] at hz
            exact absurd rfl hz
          · have hmem1 : (k1, lookupD m k1 []) ∈ m := lookupD_mem m k1 [] hz2
            have hmem2 : (k2, lookupD (lookupD m k1 []) k2 []) ∈ lookupD m k1 [] :=
              lookupD_mem _ k2 [] hz
            exact h _ hmem1 _ hmem2 e he'
  · rw [if_neg hany]
    exact h

theorem removeEdge_dstsOk (g : GoGraph) (e : GoEdge)
    (h : DstsOk g.nodes g.srcToDsts) :
    DstsOk (removeEdgeFromGraph g e).nodes (removeEdgeFromGraph g e).srcToDsts :=
  idxRemove_dstsOk _ _ _ _ _ _ h

theorem foldRemove_dstsOk (R : List GoEdge) (g : GoGraph)
    (h : DstsOk g.nodes g.srcToDsts) :
    DstsOk (R.foldl removeEdgeFromGraph g).nodes (R.foldl removeEdgeFromGraph g).srcToDsts := by
  induction R generalizing g with
  | nil => exact h
  | cons e t ih => exact ih _ (removeEdge_dstsOk _ _ h)

/-- Destinations reachable from one node's current outgoing slices. -/
theorem edgesAt_dst_names (g : GoGraph) (node : String)
    (h : DstsOk g.nodes g.srcToDsts) (e : GoEdge) (he : e ∈ edgesAt g node) :
    e.dst ∈ g.nodes.map (·.name) := by
  obtain ⟨q, hq, hqe⟩ := mem_foldr_concat _ _ he
  by_cases hz : lookupD g.srcToDsts node [] = ([] : List (String × List GoEdge))
  · rw [hz] at hq
    exact absurd hq (List.not_mem_nil q)
  · exact h _ (lookupD_mem _ node [] hz) q hq e hqe

theorem collectBadEdges_total (g : GoGraph) (ci : String) (l : List GoEdge)
    (h : ∀ e ∈ l, e.dst ∈ g.nodes.map (·.name))
    (hlab : LabelsOk g.nodes) :
    ∃ r, collectBadEdges g ci l = .ok r := by
  induction l with
  | nil => exact ⟨[], rfl⟩
  | cons e t ih =>
    obtain ⟨nd, hfn, hmem, _⟩ := mem_names_findNode g e.dst (h e (List.mem_cons_self _ _))
    obtain ⟨m, hm⟩ := hlab nd hmem
    obtain ⟨r, hr⟩ := ih fun e' he' => h e' (List.mem_cons_of_mem _ he')
    refine ⟨if decide (ci ≠ "" ∧ m ≠ "" ∧ ci ≠ m) then e :: r else r, ?_⟩
    rw [collectBadEdges]
    simp [badEdgeCheck, hfn, hm, Except.map, Bind.bind, Except.bind, hr, pure, Except.pure]

/-- Number of node names not yet marked visited. -/
def unvisited (nodes : List GoNode) (visited : List String) : Nat :=
  ((nodes.map (·.name)).filter (fun n => !(visited.contains n))).length

theorem filter_length_mono {α : Type} (l : List α) (p q : α → Bool)
    (h : ∀ x, q x = true → p x = true) : (l.filter q).length ≤ (l.filter p).length := by
  induction l with
  | nil => exact Nat.le_refl _
  | cons a t ih =>
    rw [List.filter_cons, List.filter_cons]
    by_cases hq : q a = true
    · rw [if_pos hq, if_pos (h a hq)]
      simpa using ih
    · rw [if_neg hq]
      by_cases hp : p a = true
      · rw [if_pos hp]
        exact Nat.le_succ_of_le ih
      · rw [if_neg hp]
        exact ih

theorem unvisited_mono (nodes : List GoNode) (v1 v2 : List String)
    (h : ∀ x, v1.contains x = true → v2.contains x = true) :
    unvisited nodes v2 ≤ unvisited nodes v1 := by
  apply filter_length_mono
  intro x hx
  rw [Bool.not_eq_true'] at hx ⊢
  cases hv : v1.contains x with
  | false => rfl
  | true =>
    rw [h x hv] at hx
    exact absurd hx (by simp)

theorem unvisited_strict (nodes : List GoNode) (visited : List String) (x : String)
    (hmem : x ∈ nodes.map (·.name)) (hnv : visited.contains x = false) :
    unvisited nodes (x :: visited) < unvisited nodes visited := by
  rw [unvisited, unvisited]
  induction nodes with
  | nil => exact absurd hmem (by simp)
  | cons nd rest ih =>
    rw [List.map_cons, List.filter_cons, List.filter_cons]
    by_cases hx : nd.name = x
    · rw [hx]
      rw [hnv, contains_cons_self]
      simp only [Bool.not_false, Bool.not_true, if_pos rfl]
      show ((rest.map (·.name)).filter (fun n => !((x :: visited).contains n))).length <
        ((rest.map (·.name)).filter (fun n => !(visited.contains n))).length + 1
      have := unvisited_mono rest visited (x :: visited)
        (fun y hy => contains_cons_of x y visited hy)
      rw [unvisited, unvisited] at this
      omega
    · rcases List.mem_cons.mp hmem with hc | hc
      · exact absurd hc.symm hx
      · have hrec := ih hc
        by_cases hv : visited.contains nd.name = true
        · have hv2 : (x :: visited).contains nd.name = true := contains_cons_of _ _ _ hv
          rw [hv, hv2]
          simpa using hrec
        · have hv' : visited.contains nd.name = false := (Bool.not_eq_true _).mp hv
          have hv2 : (x :: visited).contains nd.name = false := by
            rw [contains_cons_ne x nd.name visited hx]
            exact hv'
          rw [hv', hv2]
          simp only [Bool.not_false, if_pos rfl]
          simpa using Nat.succ_lt_succ hrec

/-- With panic-free labels and a closed forward index, the worklist loop
of `CleanUpEdges` runs to completion when every step does. -/
theorem cleanStepList_total (fuel : Nat)
    (step : GoGraph → List String → String → Except String (GoGraph × List String))
    (Hstep : ∀ g visited node, LabelsOk g.nodes → DstsOk g.nodes g.srcToDsts →
      (node ∈ g.nodes.map (·.name) ∨ visited.contains node = true) →
      unvisited g.nodes visited < fuel →
      ∃ g' visited', step g visited node = .ok (g', visited') ∧ g'.nodes = g.nodes ∧
        DstsOk g'.nodes g'.srcToDsts ∧
        (∀ x, visited.contains x = true → visited'.contains x = true)) :
    ∀ (l : List String) (g : GoGraph) (visited : List String),
      LabelsOk g.nodes → DstsOk g.nodes g.srcToDsts →
      (∀ x ∈ l, x ∈ g.nodes.map (·.name) ∨ visited.contains x = true) →
      unvisited g.nodes visited < fuel →
      ∃ g' visited', cleanStepList step g visited l = .ok (g', visited') ∧ g'.nodes = g.nodes ∧
        DstsOk g'.nodes g'.srcToDsts ∧
        (∀ x, visited.contains x = true → visited'.contains x = true) := by
  intro l
  induction l with
  | nil =>
    intro g visited hlab hdst _ _
    exact ⟨g, visited, rfl, rfl, hdst, fun x hx => hx⟩
  | cons node rest ihl =>
    intro g visited hlab hdst hl hfuel
    obtain ⟨g2, v2, hstep, hn2, hd2, hm2⟩ :=
      Hstep g visited node hlab hdst (hl node (List.mem_cons_self _ _)) hfuel
    have hlab2 : LabelsOk g2.nodes := by
      rw [hn2]
      exact hlab
    have hl2 : ∀ x ∈ rest, x ∈ g2.nodes.map (·.name) ∨ v2.contains x = true := by
      intro x hx
      rcases hl x (List.mem_cons_of_mem _ hx) with h | h
      · left
        rw [hn2]
        exact h
      · right
        exact hm2 x h
    have hfuel2 : unvisited g2.nodes v2 < fuel := by
      rw [hn2]
      have := unvisited_mono g.nodes visited v2 hm2
      omega
    obtain ⟨g', visited', hok, hn3, hd3, hm3⟩ := ihl g2 v2 hlab2 hd2 hl2 hfuel2
    refine ⟨g', visited', ?_, hn3.trans hn2, hd3, fun x hx => hm3 x (hm2 x hx)⟩
    rw [cleanStepList]
    simp only [hstep]
    exact hok

/-- With panic-free labels and a closed forward index, one `dfs` call of
`CleanUpEdges` runs to completion whenever the fuel exceeds the number of
unvisited node names (which `CleanUpEdges`'s choice of fuel always does). -/
theorem cleanDfsNode_total :
    ∀ (fuel : Nat) (g : GoGraph) (visited : List String) (node : String),
      LabelsOk g.nodes → DstsOk g.nodes g.srcToDsts →
      (node ∈ g.nodes.map (·.name) ∨ visited.contains node = true) →
      unvisited g.nodes visited < fuel →
      ∃ g' visited', cleanDfsNode fuel g visited node = .ok (g', visited') ∧ g'.nodes = g.nodes ∧
        DstsOk g'.nodes g'.srcToDsts ∧
        (∀ x, visited.contains x = true → visited'.contains x = true) := by
  intro fuel
  induction fuel with
  | zero =>
    intro g visited node _ _ _ hfuel
    omega
  | succ fuel ih =>
    intro g visited node hlab hdst hnode hfuel
    by_cases hv : visited.contains node = true
    · exact ⟨g, visited, by rw [cleanDfsNode, if_pos hv], rfl, hdst, fun x hx => hx⟩
    · have hmem : node ∈ g.nodes.map (·.name) := by
        rcases hnode with h | h
        · exact h
        · exact absurd h hv
      obtain ⟨nd, hfn, hndmem, _⟩ := mem_names_findNode g node hmem
      obtain ⟨ci, hci⟩ := hlab nd hndmem
      obtain ⟨R, hR⟩ := collectBadEdges_total g ci (edgesAt g node)
        (fun e he => edgesAt_dst_names g node hdst e he) hlab
      have hn1 : (R.foldl removeEdgeFromGraph g).nodes = g.nodes := foldRemove_nodes R g
      have hd1 : DstsOk (R.foldl removeEdgeFromGraph g).nodes
          (R.foldl removeEdgeFromGraph g).srcToDsts := foldRemove_dstsOk R g hdst
      have hlab1 : LabelsOk (R.foldl removeEdgeFromGraph g).nodes := by
        rw [hn1]
        exact hlab
      have hchild : ∀ x ∈ (edgesAt (R.foldl removeEdgeFromGraph g) node).map (·.dst),
          x ∈ (R.foldl removeEdgeFromGraph g).nodes.map (·.name) ∨
            ((node :: visited).contains x = true) := by
        intro x hx
        obtain ⟨e, he, hex⟩ := List.mem_map.mp hx
        left
        exact hex ▸ edgesAt_dst_names _ node hd1 e he
      have hfuel1 : unvisited (R.foldl removeEdgeFromGraph g).nodes (node :: visited) < fuel := by
        rw [hn1]
        have := unvisited_strict g.nodes visited node hmem ((Bool.not_eq_true _).mp hv)
        omega
      obtain ⟨g', visited', hok, hn2, hd2, hm2⟩ :=
        cleanStepList_total fuel (cleanDfsNode fuel) ih
          ((edgesAt (R.foldl removeEdgeFromGraph g) node).map (·.dst))
          (R.foldl removeEdgeFromGraph g) (node :: visited) hlab1 hd1 hchild hfuel1
      refine ⟨g', visited', ?_, hn2.trans hn1, hd2,
        fun x hx => hm2 x (contains_cons_of node x visited hx)⟩
      rw [cleanDfsNode, if_neg hv]
      simp only [hfn, hci, hR]
      exact hok

/-! ### A decidable sufficient condition for `EdgesWF` -/

/-- All (outer key, inner key) pairs of a nested edge index. -/
def idxPairs (m : EdgeIdx) : List (String × String) :=
  m.foldr (fun p acc => (p.2.map fun q => (p.1, q.1)) ++ acc) []

/-- The endpoint pairs a graph's edge stores mention anywhere. -/
def allPairs (g : GoGraph) : List (String × String) :=
  (g.edges.map fun e => (e.src, e.dst)) ++ idxPairs g.srcToDsts ++
    (idxPairs g.dstToSrcs).map fun p => (p.2, p.1)

/-- Executable check implying `EdgesWF` (gographviz maintains all of this
by construction; a concrete witness graph verifies it by computation). -/
def edgesWFb (g : GoGraph) : Bool :=
  ((allPairs g).all fun p =>
      s2dCount g p.1 p.2 = flatCount g p.1 p.2 && d2sCount g p.1 p.2 = flatCount g p.1 p.2) &&
  (g.srcToDsts.all fun p => p.2.all fun q => q.2.all fun e => e.src = p.1 && e.dst = q.1) &&
  (g.srcToDsts.all fun p => decide ((p.2.map (·.1)).Nodup))

theorem idxPairs_cons (a : String × List (String × List GoEdge))
    (rest : EdgeIdx) :
    idxPairs (a :: rest) = (a.2.map fun q => (a.1, q.1)) ++ idxPairs rest := rfl

theorem matchCount_ne_zero_mem (u v : String) (l : List GoEdge) (h : matchCount u v l ≠ 0) :
    ∃ e ∈ l, e.src = u ∧ e.dst = v := by
  induction l with
  | nil => exact absurd rfl h
  | cons e t ih =>
    rw [matchCount_cons] at h
    by_cases hc : e.src = u ∧ e.dst = v
    · exact ⟨e, List.mem_cons_self _ _, hc⟩
    · rw [if_neg hc] at h
      obtain ⟨e', he', hc'⟩ := ih h
      exact ⟨e', List.mem_cons_of_mem _ he', hc'⟩

theorem mem_idxPairs (m : EdgeIdx) (p : String × List (String × List GoEdge)) (hp : p ∈ m)
    (q : String × List GoEdge) (hq : q ∈ p.2) : (p.1, q.1) ∈ idxPairs m := by
  induction m with
  | nil => exact absurd hp (List.not_mem_nil p)
  | cons a rest ih =>
    rw [idxPairs_cons]
    rcases List.mem_cons.mp hp with hp' | hp'
    · subst hp'
      exact List.mem_append_left _ (List.mem_map.mpr ⟨q, hq, rfl⟩)
    · exact List.mem_append_right _ (ih hp')

theorem s2dCount_pair_mem (g : GoGraph) (u v : String) (h : s2dCount g u v ≠ 0) :
    (u, v) ∈ idxPairs g.srcToDsts := by
  have hlst : lookupD (lookupD g.srcToDsts u []) v [] ≠ ([] : List GoEdge) := by
    intro hz
    apply h
    rw [s2dCount, hz, matchCount_nil]
  have hinner : lookupD g.srcToDsts u [] ≠ ([] : List (String × List GoEdge)) := by
    intro hz
    rw [hz, lookupD_nil] at hlst
    exact hlst rfl
  exact mem_idxPairs _ _ (lookupD_mem _ u [] hinner) _ (lookupD_mem _ v [] hlst)

theorem d2sCount_pair_mem (g : GoGraph) (u v : String) (h : d2sCount g u v ≠ 0) :
    (u, v) ∈ (idxPairs g.dstToSrcs).map fun p => (p.2, p.1) := by
  have hlst : lookupD (lookupD g.dstToSrcs v []) u [] ≠ ([] : List GoEdge) := by
    intro hz
    apply h
    rw [d2sCount, hz, matchCount_nil]
  have hinner : lookupD g.dstToSrcs v [] ≠ ([] : List (String × List GoEdge)) := by
    intro hz
    rw [hz, lookupD_nil] at hlst
    exact hlst rfl
  exact List.mem_map.mpr
    ⟨(v, u), mem_idxPairs _ _ (lookupD_mem _ v [] hinner) _ (lookupD_mem _ u [] hlst), rfl⟩

theorem flatCount_pair_mem (g : GoGraph) (u v : String) (h : flatCount g u v ≠ 0) :
    (u, v) ∈ g.edges.map fun e => (e.src, e.dst) := by
  obtain ⟨e, he, h1, h2⟩ := matchCount_ne_zero_mem u v g.edges h
  exact List.mem_map.mpr ⟨e, he, by rw [h1, h2]⟩

theorem edgesWFb_sound (g : GoGraph) (h : edgesWFb g = true) : EdgesWF g := by
  rw [edgesWFb, Bool.and_eq_true, Bool.and_eq_true] at h
  obtain ⟨⟨hcnt, hstruct⟩, hnodup⟩ := h
  rw [List.all_eq_true] at hcnt hstruct hnodup
  have hcnt' : ∀ p ∈ allPairs g,
      s2dCount g p.1 p.2 = flatCount g p.1 p.2 ∧ d2sCount g p.1 p.2 = flatCount g p.1 p.2 := by
    intro p hp
    have := hcnt p hp
    rw [Bool.and_eq_true, decide_eq_true_eq, decide_eq_true_eq] at this
    exact this
  refine ⟨?_, ?_, ?_, ?_⟩
  · intro u v
    by_cases hmem : (u, v) ∈ allPairs g
    · exact (hcnt' _ hmem).1
    · have hs : s2dCount g u v = 0 := by
        by_contra hs
        exact hmem (List.mem_append_left _ (List.mem_append_right _ (s2dCount_pair_mem g u v hs)))
      have hf : flatCount g u v = 0 := by
        by_contra hf
        exact hmem (List.mem_append_left _ (List.mem_append_left _ (flatCount_pair_mem g u v hf)))
      rw [hs, hf]
  · intro u v
    by_cases hmem : (u, v) ∈ allPairs g
    · exact (hcnt' _ hmem).2
    · have hs : d2sCount g u v = 0 := by
        by_contra hs
        exact hmem (List.mem_append_right _ (d2sCount_pair_mem g u v hs))
      have hf : flatCount g u v = 0 := by
        by_contra hf
        exact hmem (List.mem_append_left _ (List.mem_append_left _ (flatCount_pair_mem g u v hf)))
      rw [hs, hf]
  · intro u v e he
    have hlst : lookupD (lookupD g.srcToDsts u []) v [] ≠ ([] : List GoEdge) := by
      intro hz
      rw [hz] at he
      exact absurd he (List.not_mem_nil e)
    have hinner : lookupD g.srcToDsts u [] ≠ ([] : List (String × List GoEdge)) := by
      intro hz
      rw [hz, lookupD_nil] at hlst
      exact hlst rfl
    have h1 := hstruct _ (lookupD_mem _ u [] hinner)
    rw [List.all_eq_true] at h1
    have h2 := h1 _ (lookupD_mem _ v [] hlst)
    rw [List.all_eq_true] at h2
    have h3 := h2 e he
    rw [Bool.and_eq_true, decide_eq_true_eq, decide_eq_true_eq] at h3
    exact h3
  · intro u
    by_cases hz : lookupD g.srcToDsts u [] = ([] : List (String × List GoEdge))
    · rw [hz]
      simp
    · have := hnodup _ (lookupD_mem _ u [] hz)
      rw [decide_eq_true_eq] at this
      exact this

/-! ### Whole-pass correctness of `CleanUpEdges` -/

theorem badPair_mem_names (g : GoGraph) (u v : String) (hb : badPairB g u v = true) :
    u ∈ g.nodes.map (·.name) := by
  rw [badPairB] at hb
  cases hm : markerAt g u with
  | none =>
    rw [hm] at hb
    cases markerAt g v <;> simp at hb
  | some m =>
    rw [markerAt] at hm
    cases hf : findNode? g u with
    | none =>
      rw [hf] at hm
      exact absurd hm (by simp)
    | some nd =>
      obtain ⟨hmem, hname⟩ := findNode?_some_mem g u nd hf
      exact List.mem_map.mpr ⟨nd, hmem, hname⟩

/-- Net effect of `CleanUpEdges` on a well-formed graph: every endpoint
pair whose two markers are nonempty and different is emptied out of all
three edge stores; every other pair keeps its exact counts; nodes and
labels are untouched. -/
theorem cleanUpEdges_spec (g g' : GoGraph) (hwf : EdgesWF g)
    (hok : CleanUpEdges g = .ok g') :
    g'.nodes = g.nodes ∧
    (∀ u v, flatCount g' u v = if badPairB g u v then 0 else flatCount g u v) ∧
    (∀ u v, s2dCount g' u v = if badPairB g u v then 0 else s2dCount g u v) ∧
    (∀ u v, d2sCount g' u v = if badPairB g u v then 0 else d2sCount g u v) := by
  rw [CleanUpEdges] at hok
  cases hrun : cleanStepList (cleanDfsNode (g.nodes.length + 2)) g [] (g.nodes.map (·.name)) with
  | error s =>
    rw [hrun] at hok
    exact absurd hok (by simp)
  | ok p =>
    obtain ⟨g1, visited'⟩ := p
    rw [hrun] at hok
    simp only [Except.ok.injEq] at hok
    subst hok
    have hp0 : Pruned g g [] := by
      refine ⟨rfl, hwf.2.2, ?_, ?_, ?_⟩ <;>
        · intro u v
          simp [List.contains]
    obtain ⟨hp', _, hall⟩ :=
      cleanStepList_spec g (cleanDfsNode (g.nodes.length + 2))
        (fun g2 v2 n g3 v3 hp h => cleanDfsNode_spec g hwf (g.nodes.length + 2) g2 v2 n g3 v3 hp h)
        (g.nodes.map (·.name)) g [] g1 visited' hp0 hrun
    obtain ⟨hn, _, hflat, hs2d, hd2s⟩ := hp'
    have hcond : ∀ u v, (visited'.contains u && badPairB g u v) = badPairB g u v := by
      intro u v
      by_cases hb : badPairB g u v = true
      · rw [hb, hall u (badPair_mem_names g u v hb), Bool.true_and]
      · rw [(Bool.not_eq_true _).mp hb, Bool.and_false]
    refine ⟨hn, ?_, ?_, ?_⟩ <;>
      · intro u v
        first
        | rw [hflat u v, hcond u v]
        | rw [hs2d u v, hcond u v]
        | rw [hd2s u v, hcond u v]

/-- `gographviz.Edges.Add` on one nested index: append the edge to the
`m[a][b]` slice. -/
def addEdgeIdx (m : EdgeIdx) (a b : String) (e : GoEdge) : EdgeIdx :=
  setA m a (setA (lookupD m a []) b (lookupD (lookupD m a []) b [] ++ [e]))

/-- Test-fixture constructor (not from the source): a graph with the given
(name, label) nodes and (src, dst) edges, indices built the way
`gographviz.Edges.Add` builds them. -/
def fixtureGraph (ns : List (String × String)) (es : List (String × String)) : GoGraph :=
  let edges := es.map fun p => { src := p.1, dst := p.2 : GoEdge }
  { nodes := ns.map fun p => { name := p.1, attrs := [("label", "\"" ++ p.2 ++ "\"")] }
    edges := edges
    srcToDsts := edges.foldl (fun m e => addEdgeIdx m e.src e.dst e) []
    dstToSrcs := edges.foldl (fun m e => addEdgeIdx m e.dst e.src e) []
    subGraphs := []
    parentToChildren := []
    childToParents := []
    graphAttrs := [] }

/-- The cross-linked pair of expanded resources from the specification's
reconciliation scenario: instances `A[0], A[1]` of one resource and
`B[0], B[1]` of another, with all four cross edges present. -/
def reconExampleGraph : GoGraph :=
  fixtureGraph
    [("A0", "a.x[0]"), ("A1", "a.x[1]"), ("B0", "b.y[0]"), ("B1", "b.y[1]")]
    [("A0", "B0"), ("A0", "B1"), ("A1", "B0"), ("A1", "B1")]

/-- C1: for every edge (u, v) whose two labels both carry a (nonempty)
index/key marker — the content the code slices out between the first `[`
and the first `]` — `CleanUpEdges` keeps the edge exactly when the two
markers are textually equal, and a removed pair is emptied out of the
forward index, the reverse index and the flat edge list alike; an edge
where at most one endpoint carries a marker (so that `badPairB` is false)
is left untouched in all three stores, and no node or label changes. -/
theorem claim_C1_edge_reconciliation (g g' : GoGraph)
    (hwf : EdgesWF g) (hok : CleanUpEdges g = .ok g') :
    (∀ u v, badPairB g u v = true →
      flatCount g' u v = 0 ∧ s2dCount g' u v = 0 ∧ d2sCount g' u v = 0) ∧
    (∀ u v, badPairB g u v = false →
      flatCount g' u v = flatCount g u v ∧ s2dCount g' u v = s2dCount g u v ∧
        d2sCount g' u v = d2sCount g u v) ∧
    g'.nodes = g.nodes := by
  obtain ⟨hn, hf, hs, hd⟩ := cleanUpEdges_spec g g' hwf hok
  refine ⟨?_, ?_, hn⟩
  · intro u v hb
    rw [hf u v, hs u v, hd u v, hb]
    exact ⟨if_pos rfl, if_pos rfl, if_pos rfl⟩
  · intro u v hb
    rw [hf u v, hs u v, hd u v, hb]
    have hcond : ¬(false = true) := Bool.false_ne_true
    exact ⟨if_neg hcond, if_neg hcond, if_neg hcond⟩

/-- Witness for C1 on the specification's scenario: after reconciliation
only the index-matched edges `(A[0],B[0])`, `(A[1],B[1])` remain and the
cross edges are gone from the flat list and both indices. -/
theorem claim_C1_edge_reconciliation_witness :
    edgesWFb reconExampleGraph = true ∧
    ∃ g', CleanUpEdges reconExampleGraph = .ok g' ∧
      flatCount g' "A0" "B1" = 0 ∧ s2dCount g' "A0" "B1" = 0 ∧ d2sCount g' "A0" "B1" = 0 ∧
      flatCount g' "A1" "B0" = 0 ∧ flatCount g' "A0" "B0" = 1 ∧ flatCount g' "A1" "B1" = 1 := by
  refine ⟨by decide, ?_⟩
  cases hok : CleanUpEdges reconExampleGraph with
  | error s =>
    have hiso : (CleanUpEdges reconExampleGraph).isOk = true := by decide
    rw [hok] at hiso
    exact absurd hiso (by simp [Except.isOk, Except.toBool])
  | ok g' =>
    have h := claim_C1_edge_reconciliation reconExampleGraph g'
      (edgesWFb_sound _ (by decide)) hok
    obtain ⟨hb1, hb2, hb3⟩ := h.1 "A0" "B1" (by decide)
    obtain ⟨hc1, _, _⟩ := h.1 "A1" "B0" (by decide)
    obtain ⟨hk1, _, _⟩ := h.2.1 "A0" "B0" (by decide)
    obtain ⟨hk2, _, _⟩ := h.2.1 "A1" "B1" (by decide)
    refine ⟨g', rfl, hb1, hb2, hb3, hc1, ?_, ?_⟩
    · rw [hk1]
      decide
    · rw [hk2]
      decide

/-! ### C10: totality of `CleanUpEdges` -/

/-- Executable form of `LabelsOk`. -/
def labelsOkB (g : GoGraph) : Bool :=
  g.nodes.all fun nd => (extractIndexMarker (nodeLabelOf nd)).isOk

/-- Executable form of `DstsOk`. -/
def dstsOkB (g : GoGraph) : Bool :=
  g.srcToDsts.all fun p => p.2.all fun q => q.2.all fun e =>
    (g.nodes.map (·.name)).contains e.dst

theorem labelsOkB_sound (g : GoGraph) (h : labelsOkB g = true) : LabelsOk g.nodes := by
  rw [labelsOkB, List.all_eq_true] at h
  intro nd hnd
  have := h nd hnd
  cases hm : extractIndexMarker (nodeLabelOf nd) with
  | error s =>
    rw [hm] at this
    exact absurd this (by simp [Except.isOk, Except.toBool])
  | ok m => exact ⟨m, rfl⟩

theorem dstsOkB_sound (g : GoGraph) (h : dstsOkB g = true) : DstsOk g.nodes g.srcToDsts := by
  rw [dstsOkB, List.all_eq_true] at h
  intro p hp q hq e he
  have h1 := h p hp
  rw [List.all_eq_true] at h1
  have h2 := h1 q hq
  rw [List.all_eq_true] at h2
  exact List.mem_of_elem_eq_true (h2 e he)

/-- C10 (amended): `CleanUpEdges` terminates without a runtime panic on
every graph whose labels are extraction-safe (the first `]` does not come
before the first `[` in any label that has both brackets) and whose forward
index only mentions destinations that exist as nodes.  The label condition
is necessary: a label whose first `]` precedes its first `[` makes the Go
slice `label[Index("[")+1 : Index("]")]` have a lower bound above its upper
bound, and the function panics (see the counterexample). -/
theorem claim_C10_cleanup_totality (g : GoGraph)
    (hlab : labelsOkB g = true) (hdst : dstsOkB g = true) :
    ∃ g', CleanUpEdges g = .ok g' := by
  have hfuel : unvisited g.nodes [] < g.nodes.length + 2 := by
    have h1 : unvisited g.nodes [] ≤ (g.nodes.map (·.name)).length :=
      List.length_filter_le _ _
    rw [List.length_map] at h1
    omega
  obtain ⟨g', visited', hok, _, _, _⟩ :=
    cleanStepList_total (g.nodes.length + 2) (cleanDfsNode (g.nodes.length + 2))
      (fun g2 v2 n hl hd hn hf => cleanDfsNode_total (g.nodes.length + 2) g2 v2 n hl hd hn hf)
      (g.nodes.map (·.name)) g []
      (labelsOkB_sound g hlab) (dstsOkB_sound g hdst)
      (fun x hx => Or.inl hx) hfuel
  refine ⟨g', ?_⟩
  rw [CleanUpEdges, hok]

/-- Witness for C10 on the reconciliation fixture. -/
theorem claim_C10_cleanup_totality_witness :
    labelsOkB reconExampleGraph = true ∧ dstsOkB reconExampleGraph = true ∧
    ∃ g', CleanUpEdges reconExampleGraph = .ok g' :=
  ⟨by decide, by decide,
    claim_C10_cleanup_totality reconExampleGraph (by decide) (by decide)⟩

/-- A single node whose label has `]` before `[`: both bracket characters
are present, so `CleanUpEdges` slices with `Index("[")+1 > Index("]")`. -/
def panicLabelGraph : GoGraph :=
  fixtureGraph [("X", "a]b[")] []

/-- Counterexample to C10 as stated: `CleanUpEdges` is not total — on a
label that contains `]` before the first `[` the marker slice is out of
bounds and the function panics instead of terminating normally. -/
theorem claim_C10_counterexample :
    CleanUpEdges panicLabelGraph = .error "slice bounds out of range" := by
  rfl

/-! ## Relations, subgraph and node operations

`gographviz`'s `Relations` is a pair of maps `ParentToChildren` /
`ChildToParents` whose inner `map[string]bool` sets are modelled as
duplicate-free insertion-ordered lists. -/

/-- `m[k] = true` on a `map[string]bool` set. -/
def addToSet (l : List String) (x : String) : List String :=
  if l.contains x then l else l ++ [x]

/-- Go's `if _, exists := m[k]; !exists { m[k] = make(...) }`. -/
def ensureKey (m : List (String × List String)) (k : String) : List (String × List String) :=
  if (m.find? (fun p => p.1 = k)).isSome then m else m ++ [(k, [])]

/-- `SetChildOf`: record `nodeName` as a child of `graphName`, then delete
`nodeName` from every other parent's member set and delete every other
parent from `nodeName`'s parent set (the latter only when it has more than
one parent, as the Go code checks). -/
def SetChildOf (graphName nodeName : String) (g : GoGraph) : GoGraph :=
  let ptc0 := ensureKey g.parentToChildren graphName
  let ctp0 := ensureKey g.childToParents nodeName
  let ptc1 := setA ptc0 graphName (addToSet (lookupD ptc0 graphName []) nodeName)
  let ctp1 := setA ctp0 nodeName (addToSet (lookupD ctp0 nodeName []) graphName)
  let ptc2 := ptc1.map fun p =>
    if p.1 = graphName then p else (p.1, p.2.filter (fun c => c ≠ nodeName))
  let ctp2 := ctp1.map fun p =>
    if p.1 = nodeName && p.2.length > 1 then (p.1, p.2.filter (fun q => q = graphName)) else p
  { g with parentToChildren := ptc2, childToParents := ctp2 }

/-- `FindNodeParent`: iterate the node's parent set and return the last
parent seen ("" when there is none); deterministic whenever the set has at
most one element, which the single-parent invariant guarantees. -/
def FindNodeParent (nodeName : String) (g : GoGraph) : String :=
  (lookupD g.childToParents nodeName []).getLastD ""

/-- `gographviz.Relations.Add`: record the parent/child pair in both maps
(no removal of previous parents). -/
def relationsAdd (parent child : String) (g : GoGraph) : GoGraph :=
  { g with
    parentToChildren :=
      setA g.parentToChildren parent (addToSet (lookupD g.parentToChildren parent []) child)
    childToParents :=
      setA g.childToParents child (addToSet (lookupD g.childToParents child []) parent) }

/-- `graph.AddSubGraph(parent, name, attrs)`: create the subgraph entry if
missing and record the containment relation. -/
def AddSubGraph (parent name : String) (attrs : List (String × String)) (g : GoGraph) : GoGraph :=
  relationsAdd parent name
    { g with subGraphs :=
        if (g.subGraphs.find? (fun p => p.1 = name)).isSome then g.subGraphs
        else g.subGraphs ++ [(name, attrs)] }

/-- `graph.AddNode(parent, name, attrs)`: add (or re-attribute) the node
and record the containment relation. -/
def AddNode (parent name : String) (attrs : List (String × String)) (g : GoGraph) : GoGraph :=
  relationsAdd parent name
    { g with nodes :=
        if (g.nodes.find? (fun nd => nd.name = name)).isSome then
          g.nodes.map fun nd => if nd.name = name then { nd with attrs := attrs } else nd
        else g.nodes ++ [{ name := name, attrs := attrs }] }

/-- `graph.AddEdge(src, dst, true, attrs)`: append to the flat edge list
and to both nested indices. -/
def AddEdge (src dst : String) (g : GoGraph) : GoGraph :=
  let e : GoEdge := { src := src, dst := dst }
  { g with
    edges := g.edges ++ [e]
    srcToDsts := addEdgeIdx g.srcToDsts src dst e
    dstToSrcs := addEdgeIdx g.dstToSrcs dst src e }

/-- `graph.RemoveNode(parent, node)`.  Modelled from the spec: §4.1 of the
specification fixes the graph-model contract "removing a node removes all
edges incident to it" (the gographviz library itself is an external
dependency whose source is not part of this repository); the containment
relations drop the node as well. -/
def RemoveNode (node : String) (g : GoGraph) : GoGraph :=
  { g with
    nodes := g.nodes.filter fun nd => nd.name ≠ node
    edges := g.edges.filter fun e => !(e.src = node || e.dst = node)
    srcToDsts := (g.srcToDsts.filter fun p => p.1 ≠ node).map fun p =>
      (p.1, (p.2.filter fun q => q.1 ≠ node).map fun q =>
        (q.1, q.2.filter fun e => !(e.src = node || e.dst = node)))
    dstToSrcs := (g.dstToSrcs.filter fun p => p.1 ≠ node).map fun p =>
      (p.1, (p.2.filter fun q => q.1 ≠ node).map fun q =>
        (q.1, q.2.filter fun e => !(e.src = node || e.dst = node)))
    parentToChildren := g.parentToChildren.map fun p => (p.1, p.2.filter fun c => c ≠ node)
    childToParents := g.childToParents.filter fun p => p.1 ≠ node }

/-! ## Containment clustering: `findRootNode`, `BFS`,
`findAllReachingNodes`, `BetaCreateSubgraphsForGroupingNodes` -/

/-- The `outDegree` map `findRootNode` builds: every node initialized to 0,
then incremented per flat edge (sources missing from the node list are
inserted by the Go map increment, with nonzero degree). -/
def buildOutDegree (g : GoGraph) : List (String × Nat) :=
  g.edges.foldl (fun m e => setA m e.src (lookupD m e.src 0 + 1))
    (g.nodes.foldl (fun m nd => setA m nd.name 0) [])

/-- `findRootNode` with the Go map-iteration order made explicit: return
the first key in `order` whose out-degree is zero, or "" when none is.  Go
randomizes map iteration, so `order` ranges over the admissible
permutations of the `outDegree` key set. -/
def findRootNodeOrd (g : GoGraph) (order : List String) : String :=
  match order.find? (fun n => lookupD (buildOutDegree g) n 0 = 0) with
  | some n => n
  | none => ""

/-- `findRootNode` under one admissible iteration order (the insertion
order of the modelled map). -/
def findRootNode (g : GoGraph) : String :=
  findRootNodeOrd g ((buildOutDegree g).map (·.1))

/-- The queue loop of `BFS`; the visited list doubles as the in-order
result.  Iterations are bounded by total enqueues, which is at most
1 + (number of edges), so the fuel below never runs out. -/
def bfsLoop (g : GoGraph) : Nat → List String → List String → List String
  | 0, _, acc => acc
  | _+1, [], acc => acc
  | fuel+1, cur :: queue, acc =>
    if acc.contains cur then bfsLoop g fuel queue acc
    else
      let acc2 := acc ++ [cur]
      let adds := (lookupD g.dstToSrcs cur []).foldr
        (fun p l => ((p.2.filter fun e => !(acc2.contains e.src)).map (·.src)) ++ l) []
      bfsLoop g fuel (queue ++ adds) acc2

/-- `BFS(graph, startNode)`: breadth-first over reverse edges, returning
the visitation order. -/
def BFS (g : GoGraph) (startNode : String) : List String :=
  bfsLoop g (g.edges.length + 2) [startNode] []

/-- Worklist runner shared by the recursive closures (a `for` loop issuing
one recursive call per element, threading an accumulator). -/
def stringFold {α : Type} (step : α → String → α) : α → List String → α
  | a, [] => a
  | a, x :: rest => stringFold step (step a x) rest

/-- The `reverseDfs` closure of `findAllReachingNodes`: mark, append, then
recurse into the keys of `DstToSrcs[n]` (all sources that point at `n`,
including keys whose edge slice has been emptied by reconciliation). -/
def reachNode (g : GoGraph) : Nat → List String → String → List String
  | 0, acc, _ => acc
  | fuel+1, acc, n =>
    if acc.contains n then acc
    else stringFold (reachNode g fuel) (acc ++ [n]) ((lookupD g.dstToSrcs n []).map (·.1))

/-- `findAllReachingNodes(target, graph)`: every node that can reach
`target` along forward edges (collected by reverse depth-first search). -/
def findAllReachingNodes (targetNode : String) (g : GoGraph) : List String :=
  reachNode g (g.nodes.length + g.edges.length + 2) [] targetNode

/-- The grouping-type list `BetaCreateSubgraphsForGroupingNodes` uses.  The
Go code hardcodes it (with a `TODO: Use global config for this`) instead of
reading the loaded configuration. -/
def groupingLabels : List String :=
  ["azurerm_virtual_network", "azurerm_resource_group", "azurerm_subnet"]

/-- The per-visited-node body of `BetaCreateSubgraphsForGroupingNodes`. -/
def betaCreateStep (g : GoGraph) (node : String) : GoGraph :=
  let cleanNodeName := trimQuotes node
  if groupingLabels.contains ((splitDot cleanNodeName).headD "") then
    let clusterName := "\"cluster_" ++ cleanNodeName ++ "\""
    let parentGraph := FindNodeParent node g
    let g1 := AddSubGraph parentGraph clusterName [("label", clusterName)] g
    (findAllReachingNodes node g1).foldl (fun g2 rn => SetChildOf clusterName rn g2) g1
  else g

/-- `BetaCreateSubgraphsForGroupingNodes`: BFS from `findRootNode`'s pick,
then create a cluster for every visited grouping-type node and re-parent
all of its reaching nodes into it. -/
def BetaCreateSubgraphsForGroupingNodes (g : GoGraph) : GoGraph :=
  (BFS g (findRootNode g)).foldl betaCreateStep g

/-! ## Depth-scaled margins: `CalculateMaxDepth` / `SetSubgraphMargins` -/

/-- The `dfs` closure of `CalculateMaxDepth`: the largest depth reachable
from `node` (at depth `depth`) along `ParentToChildren`. -/
def nodeMaxDepth (ptc : List (String × List String)) : Nat → Nat → String → Nat
  | 0, depth, _ => depth
  | fuel+1, depth, node =>
    stringFold (fun m child => max m (nodeMaxDepth ptc fuel (depth+1) child)) depth
      (lookupD ptc node [])

/-- `CalculateMaxDepth`: run the depth recursion from every subgraph at
depth 1 and take the overall maximum. -/
def CalculateMaxDepth (g : GoGraph) : Nat :=
  g.subGraphs.foldl
    (fun m sg => max m
      (nodeMaxDepth g.parentToChildren (g.nodes.length + g.subGraphs.length + 2) 1 sg.1)) 0

/-- In-place update of every binding of a key in an association list (the
shape of a `graph.SubGraphs.SubGraphs[name].Attrs.Add` write). -/
def mapUpd {α : Type} (m : List (String × α)) (k : String) (f : α → α) : List (String × α) :=
  m.map fun p => if p.1 = k then (p.1, f p.2) else p

/-- The `setMargins` closure of `SetSubgraphMargins`: write
`(maxDepth − depth + 1) × baseMargin` when the name is a subgraph, then
recurse into its `ParentToChildren` children at `depth + 1`. -/
def setMarginNode (ptc : List (String × List String)) (maxDepth baseMargin : Int) :
    Nat → Int → GoGraph → String → GoGraph
  | 0, _, g, _ => g
  | fuel+1, depth, g, node =>
    let marginValue := (maxDepth - depth + 1) * baseMargin
    let upd := mapUpd g.subGraphs node
      (fun a => setA a "margin" ("\"" ++ toString marginValue ++ "\""))
    let g2 :=
      if (g.subGraphs.find? (fun p => p.1 = node)).isSome then
        { g with subGraphs := upd }
      else g
    stringFold (setMarginNode ptc maxDepth baseMargin fuel (depth+1)) g2 (lookupD ptc node [])

/-- `SetSubgraphMargins` with the subgraph-map iteration order explicit:
the recursion is started from **every** subgraph at depth 1, in `order`. -/
def SetSubgraphMarginsOrd (g : GoGraph) (order : List String) (maxDepth baseMargin : Int) :
    GoGraph :=
  order.foldl
    (fun gg name =>
      setMarginNode g.parentToChildren maxDepth baseMargin
        (g.nodes.length + g.subGraphs.length + 2) 1 gg name) g

/-- `SetSubgraphMargins` under one admissible iteration order. -/
def SetSubgraphMargins (g : GoGraph) (maxDepth baseMargin : Int) : GoGraph :=
  SetSubgraphMarginsOrd g (g.subGraphs.map (·.1)) maxDepth baseMargin

/-! ## Configuration (`internal/config`) and the state adapter
(`internal/tfstatereader`) -/

/-- `config.Resource`. -/
structure Resource where
  name : String
  attributes : List String
deriving DecidableEq, Repr

/-- `config.Config`. -/
structure Config where
  groupingElements : List String
  importantAttributes : List Resource
deriving DecidableEq, Repr

/-- The default `globalConfig` of `internal/config/config.go`. -/
def defaultConfig : Config :=
  { groupingElements := ["azurerm_subnet", "azurerm_virtual_network", "azurerm_resource_group"]
    importantAttributes :=
      [ { name := "azurerm_linux_virtual_machine", attributes := ["size"] }
      , { name := "azurerm_subnet", attributes := ["address_prefixes"] }
      , { name := "azurerm_virtual_network", attributes := ["address_space"] }
      , { name := "azurerm_resource_group", attributes := ["location"] } ] }

/-- `tfstatereader.TFStateHandler`, modelled at the interface of the
external `tfstate-lookup` library: `resources` is what `State.List()`
returns and `objects` maps a resource address to its attribute map (values
rendered as the strings Go's `%s` formatting would produce). -/
structure TFStateHandler where
  resources : List String
  objects : List (String × List (String × String))
deriving DecidableEq, Repr

/-- `TFStateHandler.IsCreatedWithList`: some listed resource address starts
with `resource + "["` (the second disjunct of the Go condition,
`resource + "[\""`, is subsumed but kept as written). -/
def IsCreatedWithList (h : TFStateHandler) (resource : String) : Bool :=
  h.resources.any fun res =>
    strStartsWith res (resource ++ "[") || strStartsWith res (resource ++ "[\"")

/-- `TFStateHandler.GetListOfNamesForResource`: all listed addresses with
that prefix; an error when there are none. -/
def GetListOfNamesForResource (h : TFStateHandler) (resource : String) :
    Except String (List String) :=
  let resourceNames := h.resources.filter fun res =>
    strStartsWith res (resource ++ "[") || strStartsWith res (resource ++ "[\"")
  if resourceNames.isEmpty then .error ("no resources found for " ++ resource)
  else .ok resourceNames

/-- `TFStateHandler.GetImportantAttributes`: look the resource up in the
state (error when absent), find the first configured entry for its type,
collect the present attributes as "name: value" lines (absent attributes
are logged and skipped), and error when nothing was collected. -/
def GetImportantAttributes (h : TFStateHandler) (cfg : Config) (resource : String) :
    Except String (List String) :=
  match h.objects.find? (fun p => p.1 = resource) with
  | none => .error ("resource " ++ resource ++ " not found in tfstate")
  | some obj =>
    let resourceType := (splitDot resource).headD ""
    let importantAttrs :=
      match cfg.importantAttributes.find? (fun rc => rc.name = resourceType) with
      | none => []
      | some rc => rc.attributes.filterMap fun attr =>
          (obj.2.find? (fun q => q.1 = attr)).map fun q => attr ++ ": " ++ q.2
    if importantAttrs.isEmpty then
      .error ("no important attributes found for resource " ++ resource)
    else .ok importantAttrs

/-! ## Presentation decoration -/

def GlobalImagePath : String := "internal/icons/azurerm"

def NODE_LABEL_LOCATION : String := "b"

def GRAPH_LABEL_LOCATION : String := "b"

def KnownProviders : List String := ["azurerm", "aws", "gcp"]

/-- `SetGraphGlobalImagePath`. -/
def SetGraphGlobalImagePath (g : GoGraph) (path : String) : GoGraph :=
  { g with graphAttrs := setA g.graphAttrs "imagepath" ("\"" ++ path ++ "\"") }

/-- `SetGraphAttrs`. -/
def SetGraphAttrs (g : GoGraph) : GoGraph :=
  let a1 := setA g.graphAttrs "compound" "\"true\""
  let a2 := setA a1 "rankdir" "\"BT\""
  let a3 := setA a2 "newrank" "\"true\""
  let a4 := setA a3 "nodesep" "\"4\""
  { g with graphAttrs := setA a4 "ranksep" "\"1.5\"" }

/-- `IsResourceNode`: the label starts with a known provider prefix. -/
def IsResourceNode (label : String) : Bool :=
  KnownProviders.any fun provider => strStartsWith label (provider ++ "_")

/-- The per-node body of `AddImageLabel`: for a resource node whose label
has a dot, set `image` to `<type>.png` and clear `shape` to `none`. -/
def imageNodeStep (node : GoNode) : GoNode :=
  let label := trimQuotes (lookupD node.attrs "label" "")
  if IsResourceNode label then
    let parts := splitDot label
    if parts.length < 2 then node
    else
      let a1 := setA node.attrs "image" ("\"" ++ (parts.headD "") ++ ".png\"")
      { node with attrs := setA a1 "shape" "\"none\"" }
  else node

/-- `AddImageLabel`. -/
def AddImageLabel (g : GoGraph) : GoGraph :=
  { g with nodes := g.nodes.map imageNodeStep }

/-- `PositionNodeLabelTo`. -/
def PositionNodeLabelTo (g : GoGraph) (position : String) : GoGraph :=
  if position ≠ "t" ∧ position ≠ "c" ∧ position ≠ "b" then g
  else { g with nodes := g.nodes.map fun node =>
    { node with attrs := setA node.attrs "labelloc" ("\"" ++ position ++ "\"") } }

/-- `PositionGraphLabelTo`. -/
def PositionGraphLabelTo (g : GoGraph) (position : String) : GoGraph :=
  if position ≠ "t" ∧ position ≠ "c" ∧ position ≠ "b" then g
  else { g with subGraphs := g.subGraphs.map fun p =>
    (p.1, setA p.2 "labelloc" ("\"" ++ position ++ "\"")) }

/-- `AddMarginToNodes`; the value is the `%.2f` rendering of the Go float
argument, precomputed for the constant the pipeline passes. -/
def AddMarginToNodes (g : GoGraph) (value : String) : GoGraph :=
  { g with nodes := g.nodes.map fun node =>
    { node with attrs := setA node.attrs "margin" ("\"" ++ value ++ "\"") } }

/-- `SetGraphFontsize`; values are the `%.1f` renderings of the Go float
arguments, precomputed for the constants the pipeline passes. -/
def SetGraphFontsize (g : GoGraph) (graphValue nodeValue : String) : GoGraph :=
  { g with
    nodes := g.nodes.map fun node =>
      { node with attrs := setA node.attrs "fontsize" ("\"" ++ nodeValue ++ "\"") }
    subGraphs := g.subGraphs.map fun p =>
      (p.1, setA p.2 "fontsize" ("\"" ++ graphValue ++ "\"")) }

/-- The node loop of `AddImportantAttributesToLabels`, returning the node
list as mutated so far together with the loop's outcome: the Go function
mutates labels in place and returns on the first lookup error, leaving
earlier nodes decorated and later ones untouched. -/
def addImportantNodes (cfg : Config) (st : TFStateHandler) :
    List GoNode → List GoNode × Except String Unit
  | [] => ([], .ok ())
  | nd :: rest =>
    let label := trimQuotes (lookupD nd.attrs "label" "")
    let parts := splitDot label
    if parts.length < 2 then
      let pr := addImportantNodes cfg st rest
      (nd :: pr.1, pr.2)
    else
      let resourceType := parts.headD ""
      let resourceName := parts.tail.headD ""
      match cfg.importantAttributes.find? (fun rc => rc.name = resourceType) with
      | none =>
        let pr := addImportantNodes cfg st rest
        (nd :: pr.1, pr.2)
      | some _ =>
        let resourceIdentifier := resourceType ++ "." ++ resourceName
        match GetImportantAttributes st cfg resourceIdentifier with
        | .error e => (nd :: rest, .error e)
        | .ok importantAttrs =>
          let attrString := strJoin "\\n" importantAttrs
          let newLabel := label ++ "\\n" ++ attrString
          let nd2 := { nd with attrs := setA nd.attrs "label" ("\"" ++ newLabel ++ "\"") }
          let pr := addImportantNodes cfg st rest
          (nd2 :: pr.1, pr.2)

/-- `AddImportantAttributesToLabels` (state plus outcome). -/
def AddImportantAttributesToLabels (g : GoGraph) (cfg : Config) (st : TFStateHandler) :
    GoGraph × Except String Unit :=
  let pr := addImportantNodes cfg st g.nodes
  ({ g with nodes := pr.1 }, pr.2)

/-! ## Instance expansion: `ExpandNodeCreatedWithList` -/

/-- One iteration of the instance loop: create the instance node (template
attributes copied, label overwritten with the concrete address), duplicate
the template's current outgoing edges from it and the template's current
incoming edges onto it. -/
def expandInstanceStep (node label parentGraph : String) (g : GoGraph) (resourceName : String) :
    GoGraph :=
  let tmplAttrs := match findNode? g node with
    | some nd => nd.attrs
    | none => []
  let newNodeName := replaceFirst node label resourceName
  let newAttrs := setA tmplAttrs "label" ("\"" ++ resourceName ++ "\"")
  let g1 := AddNode parentGraph newNodeName newAttrs g
  let g2 := (lookupD g1.srcToDsts node []).foldl
    (fun gg p => p.2.foldl (fun gg2 e => AddEdge newNodeName e.dst gg2) gg) g1
  (lookupD g2.dstToSrcs node []).foldl
    (fun gg p => p.2.foldl (fun gg2 e => AddEdge e.src newNodeName gg2) gg) g2

/-- The whole-template mutation the expansion traversal applies to one
multi-instance node: one `expandInstanceStep` per concrete instance
address, then removal of the template node. -/
def expandTemplate (node label parentGraph : String) (resourceNames : List String)
    (g : GoGraph) : GoGraph :=
  RemoveNode node
    (resourceNames.foldl (fun gg rn => expandInstanceStep node label parentGraph gg rn) g)

/-- The `dfs` closure of `ExpandNodeCreatedWithList`: on a multi-instance
node, create all instance nodes and their edges and remove the template;
when the instance list cannot be resolved the node is skipped with a
logged warning and (as the Go `return` does) its children are not
descended into. -/
def expandDfsNode (st : TFStateHandler) : Nat → GoGraph → List String → String →
    Except String (GoGraph × List String)
  | 0, _, _, _ => .error "out of fuel"
  | fuel+1, g, visited, node =>
    if visited.contains node then .ok (g, visited)
    else
      match findNode? g node with
      | none => .error "nil node lookup"
      | some nd =>
        let label := trimQuotes (lookupD nd.attrs "label" "")
        if IsCreatedWithList st label then
          match GetListOfNamesForResource st label with
          | .error _ => .ok (g, node :: visited)
          | .ok resourceNames =>
            let parentGraph := FindNodeParent node g
            let g2 := expandTemplate node label parentGraph resourceNames g
            cleanStepList (expandDfsNode st fuel) g2 (node :: visited)
              ((edgesAt g2 node).map (·.dst))
        else
          cleanStepList (expandDfsNode st fuel) g (node :: visited)
            ((edgesAt g node).map (·.dst))

/-- `ExpandNodeCreatedWithList`: run the expansion traversal from every
node of the initial node list.  The fuel bounds the recursion depth, which
never exceeds the number of node names the graph can ever hold (initial
nodes plus created instances, the latter bounded by the state's resource
list). -/
def ExpandNodeCreatedWithList (g : GoGraph) (st : TFStateHandler) : Except String GoGraph :=
  match cleanStepList (expandDfsNode st ((g.nodes.length + 1) * (st.resources.length + 1) + 2))
      g [] (g.nodes.map (·.name)) with
  | .error e => .error e
  | .ok (g', _) => .ok g'

/-! ## The graph-preparation pipeline (`PrepareGraphForPrinting`)

Modelled from the point where `ObtainGraph` has produced the parsed graph
(obtaining and parsing the DOT output of `terraform graph` is external
I/O); a runtime panic in a stage is an `.error`, which aborts the Go
program just as a returned error aborts the pipeline. -/

def pipelineStages (g : GoGraph) (st : TFStateHandler) : Except String GoGraph :=
  let ga := SetGraphAttrs (SetGraphGlobalImagePath g GlobalImagePath)
  match ExpandNodeCreatedWithList ga st with
  | .error e => .error e
  | .ok g1 =>
    match CleanUpEdges g1 with
    | .error e => .error e
    | .ok g2 =>
      let g3 := BetaCreateSubgraphsForGroupingNodes g2
      let g4 := AddImageLabel g3
      let g5 := PositionNodeLabelTo g4 NODE_LABEL_LOCATION
      let g6 := PositionGraphLabelTo g5 GRAPH_LABEL_LOCATION
      let g7 := SetGraphFontsize g6 "26.0" "20.0"
      let g8 := AddMarginToNodes g7 "1.50"
      .ok (SetSubgraphMargins g8 (Int.ofNat (CalculateMaxDepth g8)) 10)

/-- `PrepareGraphForPrinting` after `ObtainGraph`: the pure stages followed
by `AddImportantAttributesToLabels`, whose error makes the whole pipeline
return the error and no graph. -/
def PrepareGraphForPrintingPure (g : GoGraph) (cfg : Config) (st : TFStateHandler) :
    Except String GoGraph :=
  match pipelineStages g st with
  | .error e => .error e
  | .ok gp =>
    match AddImportantAttributesToLabels gp cfg st with
    | (_, .error e) => .error ("failed to add important attributes to labels: " ++ e)
    | (gd, .ok _) => .ok gd

/-! ## C3: per-node errors and the pipeline -/

/-- A fixture mirroring the spec's two-resource scenario: a virtual machine
depending on a subnet (node names and labels as `terraform graph` writes
them). -/
def c3Graph : GoGraph :=
  fixtureGraph
    [("\"azurerm_subnet.s1\"", "azurerm_subnet.s1"),
     ("\"azurerm_linux_virtual_machine.vm\"", "azurerm_linux_virtual_machine.vm")]
    [("\"azurerm_linux_virtual_machine.vm\"", "\"azurerm_subnet.s1\"")]

/-- A state store that does not contain the subnet resource. -/
def c3EmptyState : TFStateHandler := { resources := [], objects := [] }

/-- Counterexample to C3 as stated: a single node-local error — a resource
whose type is configured as important (`azurerm_subnet`) but which is
absent from the state store — makes `AddImportantAttributesToLabels` return
an error and `PrepareGraphForPrinting` abort the whole pipeline, returning
the error instead of the prepared graph. -/
theorem claim_C3_counterexample :
    PrepareGraphForPrintingPure c3Graph defaultConfig c3EmptyState =
      .error "failed to add important attributes to labels: resource azurerm_subnet.s1 not found in tfstate" := by
  rfl

/-- C3 (amended): a missing attribute is skipped per-attribute — the
lookup succeeds as long as at least one configured attribute is present —
but a configured-important resource that is absent from the state store
(or yields no attributes at all) makes `AddImportantAttributesToLabels`
return an error, and the pipeline propagates it: no graph is returned. -/
theorem claim_C3_local_errors (g : GoGraph) (cfg : Config) (st : TFStateHandler) :
    (∀ gp e, pipelineStages g st = .ok gp →
      (AddImportantAttributesToLabels gp cfg st).2 = .error e →
      PrepareGraphForPrintingPure g cfg st =
        .error ("failed to add important attributes to labels: " ++ e)) ∧
    (∀ resource obj rc, st.objects.find? (fun p => p.1 = resource) = some obj →
      cfg.importantAttributes.find?
        (fun rc2 => rc2.name = (splitDot resource).headD "") = some rc →
      rc.attributes.any (fun a => (obj.2.find? (fun q => q.1 = a)).isSome) = true →
      ∃ attrs, GetImportantAttributes st cfg resource = .ok attrs) := by
  constructor
  · intro gp e hst hadd
    rw [PrepareGraphForPrintingPure, hst]
    dsimp only
    cases hpair : AddImportantAttributesToLabels gp cfg st with
    | mk gd ex =>
      rw [hpair] at hadd
      simp only at hadd
      rw [hadd]
  · intro resource obj rc hobj hrc hany
    rw [GetImportantAttributes, hobj]
    simp only [hrc]
    rw [List.any_eq_true] at hany
    obtain ⟨a, ha, hsome⟩ := hany
    cases hfind : obj.2.find? (fun q => q.1 = a) with
    | none =>
      rw [hfind] at hsome
      exact absurd hsome (by simp)
    | some q =>
      have hne : ¬(rc.attributes.filterMap fun attr =>
          (obj.2.find? (fun q2 => q2.1 = attr)).map fun q2 => attr ++ ": " ++ q2.2).isEmpty = true := by
        intro hemp
        rw [List.isEmpty_iff] at hemp
        have hmem : (a ++ ": " ++ q.2) ∈ (rc.attributes.filterMap fun attr =>
            (obj.2.find? (fun q2 => q2.1 = attr)).map fun q2 => attr ++ ": " ++ q2.2) := by
          rw [List.mem_filterMap]
          exact ⟨a, ha, by rw [hfind]; rfl⟩
        rw [hemp] at hmem
        exact absurd hmem (List.not_mem_nil _)
      rw [if_neg hne]
      exact ⟨_, rfl⟩

/-- Witness for the amended C3 on the fixture: the stages succeed, the
attribute injection fails on the missing subnet, and the pipeline returns
exactly that error. -/
theorem claim_C3_local_errors_witness :
    ∃ gp e, pipelineStages c3Graph c3EmptyState = .ok gp ∧
      (AddImportantAttributesToLabels gp defaultConfig c3EmptyState).2 = .error e ∧
      PrepareGraphForPrintingPure c3Graph defaultConfig c3EmptyState =
        .error ("failed to add important attributes to labels: " ++ e) := by
  cases hst : pipelineStages c3Graph c3EmptyState with
  | error s =>
    have hiso : (pipelineStages c3Graph c3EmptyState).isOk = true := by decide
    rw [hst] at hiso
    exact absurd hiso (by simp [Except.isOk, Except.toBool])
  | ok gp =>
    cases hadd : (AddImportantAttributesToLabels gp defaultConfig c3EmptyState).2 with
    | ok u =>
      exfalso
      have hfull : (PrepareGraphForPrintingPure c3Graph defaultConfig c3EmptyState).isOk = false := by
        decide
      have hok : PrepareGraphForPrintingPure c3Graph defaultConfig c3EmptyState =
          .ok (AddImportantAttributesToLabels gp defaultConfig c3EmptyState).1 := by
        rw [PrepareGraphForPrintingPure, hst]
        dsimp only
        cases hpair : AddImportantAttributesToLabels gp defaultConfig c3EmptyState with
        | mk gd ex =>
          rw [hpair] at hadd
          simp only at hadd
          rw [hadd]
      rw [hok] at hfull
      simp [Except.isOk, Except.toBool] at hfull
    | error e =>
      exact ⟨gp, e, rfl, hadd,
        (claim_C3_local_errors c3Graph defaultConfig c3EmptyState).1 gp e hst hadd⟩

/-! ## C6 / C7: root selection and its map-order dependence -/

/-- Flat out-degree of a node name. -/
def outDeg (g : GoGraph) (n : String) : Nat :=
  (g.edges.filter (fun e => e.src = n)).length

theorem lookup_incr_fold (edges : List GoEdge) (m0 : List (String × Nat)) (n : String) :
    lookupD (edges.foldl (fun m e => setA m e.src (lookupD m e.src 0 + 1)) m0) n 0 =
      lookupD m0 n 0 + (edges.filter (fun e => e.src = n)).length := by
  induction edges generalizing m0 with
  | nil => simp
  | cons e t ih =>
    rw [List.foldl_cons, ih, List.filter_cons]
    by_cases h : e.src = n
    · rw [if_pos (by simp [h]), h, lookupD_setA_self]
      simp only [List.length_cons]
      omega
    · rw [if_neg (by simp [h]), lookupD_setA_ne _ _ _ _ _ (fun hh => h hh.symm)]

theorem lookup_zero_fold (nodes : List GoNode) (m0 : List (String × Nat)) (n : String)
    (h0 : lookupD m0 n 0 = 0) :
    lookupD (nodes.foldl (fun m nd => setA m nd.name 0) m0) n 0 = 0 := by
  induction nodes generalizing m0 with
  | nil => exact h0
  | cons nd t ih =>
    rw [List.foldl_cons]
    apply ih
    by_cases h : nd.name = n
    · rw [h, lookupD_setA_self]
    · rw [lookupD_setA_ne _ _ _ _ _ (fun hh => h hh.symm), h0]

/-- The degree map `findRootNode` builds agrees with the flat out-degree
for every name. -/
theorem buildOutDegree_lookup (g : GoGraph) (n : String) :
    lookupD (buildOutDegree g) n 0 = outDeg g n := by
  rw [buildOutDegree, lookup_incr_fold, lookup_zero_fold _ _ _ (lookupD_nil n 0), Nat.zero_add]
  rfl

theorem find?_congr {α : Type} (l : List α) (p q : α → Bool) (h : ∀ x ∈ l, p x = q x) :
    l.find? p = l.find? q := by
  induction l with
  | nil => rfl
  | cons a t ih =>
    rw [List.find?_cons, List.find?_cons, h a (List.mem_cons_self _ _)]
    cases q a
    · exact ih fun x hx => h x (List.mem_cons_of_mem _ hx)
    · rfl

theorem find?_unique {α : Type} [DecidableEq α] (l : List α) (p : α → Bool) (r : α)
    (hmem : r ∈ l) (hr : p r = true) (huniq : ∀ x ∈ l, p x = true → x = r) :
    l.find? p = some r := by
  induction l with
  | nil => exact absurd hmem (List.not_mem_nil r)
  | cons a t ih =>
    rw [List.find?_cons]
    by_cases hpa : p a = true
    · rw [hpa]
      rw [huniq a (List.mem_cons_self _ _) hpa]
    · rw [(Bool.not_eq_true _).mp hpa]
      rcases List.mem_cons.mp hmem with hm | hm
      · rw [hm] at hr
        exact absurd hr hpa
      · exact ih hm fun x hx hpx => huniq x (List.mem_cons_of_mem _ hx) hpx

/-- C7 (amended): `findRootNode` returns the **first** zero-out-degree
name in Go's (arbitrary) map-iteration order, and the **empty string**
when no zero-out-degree node exists.  A unique sink is therefore found
deterministically, but a multi-sink graph yields whichever sink the
randomized map order lists first, and a sink-less (cyclic) graph silently
proceeds with the empty root instead of reporting an error. -/
theorem claim_C7_root_selection (g : GoGraph) (order : List String) :
    findRootNodeOrd g order = (order.find? (fun n => outDeg g n = 0)).getD "" ∧
    ((∀ x ∈ order, outDeg g x ≠ 0) → findRootNodeOrd g order = "") := by
  have hchar : findRootNodeOrd g order = (order.find? (fun n => outDeg g n = 0)).getD "" := by
    rw [findRootNodeOrd,
      find?_congr order _ _ (fun x _ => by rw [buildOutDegree_lookup])]
    cases order.find? (fun n => outDeg g n = 0) with
    | none => rfl
    | some n => rfl
  refine ⟨hchar, fun hall => ?_⟩
  rw [hchar]
  have : order.find? (fun n => outDeg g n = 0) = none := by
    rw [List.find?_eq_none]
    intro x hx
    simp only [decide_eq_true_eq]
    exact hall x hx
  rw [this]
  rfl

/-- Witness for C7 on a two-node cycle: no zero-out-degree node exists, so
the chosen root is the empty string. -/
def c7CycleGraph : GoGraph :=
  fixtureGraph [("A", "a.a"), ("B", "b.b")] [("A", "B"), ("B", "A")]

theorem claim_C7_root_selection_witness :
    (∀ x ∈ ["A", "B"], outDeg c7CycleGraph x ≠ 0) ∧
    findRootNodeOrd c7CycleGraph ["A", "B"] = "" :=
  ⟨by decide, (claim_C7_root_selection c7CycleGraph ["A", "B"]).2 (by decide)⟩

/-- Counterexample to C7 as stated: on the cyclic two-node graph (no
unique sink) the implementation neither picks a deterministic fallback
root nor fails with a diagnosable error — `findRootNode` returns the empty
string and the clustering stage silently proceeds, leaving the graph
unchanged. -/
theorem claim_C7_counterexample :
    findRootNode c7CycleGraph = "" ∧
    BetaCreateSubgraphsForGroupingNodes c7CycleGraph = c7CycleGraph := by
  exact ⟨rfl, rfl⟩

/-- C6 (amended): the traversal root is the same in any two runs —
regardless of Go's randomized map-iteration order — whenever the graph has
exactly one zero-out-degree entry in the `outDegree` map; with several
zero-out-degree nodes, different admissible iteration orders select
different roots (see the counterexample), so repeated runs are not
guaranteed to produce identical cluster assignments. -/
theorem claim_C6_deterministic_root (g : GoGraph) (o1 o2 : List String) (r : String)
    (h1 : o1.Perm ((buildOutDegree g).map (·.1)))
    (h2 : o2.Perm ((buildOutDegree g).map (·.1)))
    (huniq : ((buildOutDegree g).filter (fun p => p.2 = 0)).map (·.1) = [r]) :
    findRootNodeOrd g o1 = r ∧ findRootNodeOrd g o2 = r := by
  have hkeysnd : ((buildOutDegree g).map (·.1)).Nodup := by
    rw [buildOutDegree]
    have base : ∀ (l : List GoEdge) (m0 : List (String × Nat)),
        (m0.map (·.1)).Nodup →
        (((l.foldl (fun m e => setA m e.src (lookupD m e.src 0 + 1)) m0)).map (·.1)).Nodup := by
      intro l
      induction l with
      | nil => intro m0 h; exact h
      | cons e t ih =>
        intro m0 h
        rw [List.foldl_cons]
        exact ih _ (setA_nodup_keys _ _ _ h)
    have base0 : ∀ (l : List GoNode) (m0 : List (String × Nat)),
        (m0.map (·.1)).Nodup →
        (((l.foldl (fun m nd => setA m nd.name 0) m0)).map (·.1)).Nodup := by
      intro l
      induction l with
      | nil => intro m0 h; exact h
      | cons nd t ih =>
        intro m0 h
        rw [List.foldl_cons]
        exact ih _ (setA_nodup_keys _ _ _ h)
    exact base _ _ (base0 g.nodes [] (by simp))
  have hrmem : (r, 0) ∈ buildOutDegree g := by
    have : r ∈ ((buildOutDegree g).filter (fun p => p.2 = 0)).map (·.1) := by
      rw [huniq]
      exact List.mem_cons_self _ _
    obtain ⟨p, hp, hpr⟩ := List.mem_map.mp this
    have hp2 := List.of_mem_filter hp
    simp only [decide_eq_true_eq] at hp2
    have : p = (r, 0) := by
      cases p
      simp only at hpr hp2
      rw [hpr, hp2]
    exact this ▸ List.mem_of_mem_filter hp
  have hrdeg : outDeg g r = 0 := by
    rw [← buildOutDegree_lookup]
    exact lookupD_of_mem_nodup _ _ _ _ hkeysnd hrmem
  have key : ∀ o : List String, o.Perm ((buildOutDegree g).map (·.1)) →
      findRootNodeOrd g o = r := by
    intro o hperm
    rw [(claim_C7_root_selection g o).1]
    have hfind : o.find? (fun n => outDeg g n = 0) = some r := by
      apply find?_unique
      · exact hperm.mem_iff.mpr (List.mem_map.mpr ⟨(r, 0), hrmem, rfl⟩)
      · simp [hrdeg]
      · intro x hx hpx
        simp only [decide_eq_true_eq] at hpx
        have hxkeys : x ∈ (buildOutDegree g).map (·.1) := hperm.mem_iff.mp hx
        obtain ⟨p, hpm, hpx1⟩ := List.mem_map.mp hxkeys
        have hval : lookupD (buildOutDegree g) x 0 = p.2 := by
          rw [← hpx1]
          exact lookupD_of_mem_nodup _ _ _ _ hkeysnd (by cases p; exact hpm)
        rw [buildOutDegree_lookup, hpx] at hval
        have hpz : p = (x, 0) := by
          cases p
          simp only at hpx1 hval
          rw [hpx1, ← hval]
        have : x ∈ ((buildOutDegree g).filter (fun p => p.2 = 0)).map (·.1) := by
          refine List.mem_map.mpr ⟨(x, 0), List.mem_filter.mpr ⟨hpz ▸ hpm, by simp⟩, rfl⟩
        rw [huniq] at this
        simpa using this
    rw [hfind]
    rfl
  exact ⟨key o1 h1, key o2 h2⟩

/-- Two isolated nodes: both have out-degree zero. -/
def c6TwoSinkGraph : GoGraph :=
  fixtureGraph [("A", "a.a"), ("B", "b.b")] []

/-- Witness for the amended C6: a graph with a unique sink gets the same
root under two different admissible iteration orders. -/
def c6UniqueSinkGraph : GoGraph :=
  fixtureGraph [("A", "a.a"), ("B", "b.b")] [("A", "B")]

theorem claim_C6_deterministic_root_witness :
    ["A", "B"].Perm ((buildOutDegree c6UniqueSinkGraph).map (·.1)) ∧
    findRootNodeOrd c6UniqueSinkGraph ["A", "B"] = "B" ∧
    findRootNodeOrd c6UniqueSinkGraph ["B", "A"] = "B" := by
  refine ⟨by decide, ?_, ?_⟩
  · exact (claim_C6_deterministic_root c6UniqueSinkGraph ["A", "B"] ["B", "A"] "B"
      (by decide) (by decide) (by decide)).1
  · exact (claim_C6_deterministic_root c6UniqueSinkGraph ["A", "B"] ["B", "A"] "B"
      (by decide) (by decide) (by decide)).2

/-- Counterexample to C6 as stated: with two sinks, two admissible Go
map-iteration orders of the same `outDegree` map select different
traversal roots, so two runs of the clustering stage on the same graph and
configuration need not choose the same root. -/
theorem claim_C6_counterexample :
    ["A", "B"].Perm ((buildOutDegree c6TwoSinkGraph).map (·.1)) ∧
    ["B", "A"].Perm ((buildOutDegree c6TwoSinkGraph).map (·.1)) ∧
    findRootNodeOrd c6TwoSinkGraph ["A", "B"] ≠ findRootNodeOrd c6TwoSinkGraph ["B", "A"] := by
  refine ⟨by decide, by decide, by decide⟩

/-! ## C8: depth-scaled cluster margins -/

theorem subGraphs_update_eq (gg : GoGraph) (u : List (String × List (String × String))) :
    ({ gg with subGraphs := u } : GoGraph).subGraphs = u := rfl

theorem mapUpd_keys {α : Type} (m : List (String × α)) (k : String) (f : α → α) :
    (mapUpd m k f).map (·.1) = m.map (·.1) := by
  induction m with
  | nil => rfl
  | cons p t ih =>
    by_cases h : p.1 = k
    · simp only [mapUpd, List.map_cons, if_pos h] at ih ⊢
      simp [ih]
    · simp only [mapUpd, List.map_cons, if_neg h] at ih ⊢
      simp [ih]

theorem find?_key_isSome {α : Type} (m : List (String × α)) (k : String) :
    (m.find? (fun p => p.1 = k)).isSome = true ↔ k ∈ m.map (·.1) := by
  rw [List.find?_isSome]
  constructor
  · rintro ⟨p, hp, hpk⟩
    simp only [decide_eq_true_eq] at hpk
    exact List.mem_map.mpr ⟨p, hp, hpk⟩
  · intro hk
    obtain ⟨p, hp, hpk⟩ := List.mem_map.mp hk
    exact ⟨p, hp, by simp [hpk]⟩

theorem mapUpd_lookup_self {α : Type} (m : List (String × α)) (k : String) (f : α → α) (d : α)
    (h : (m.find? (fun p => p.1 = k)).isSome = true) :
    lookupD (mapUpd m k f) k d = f (lookupD m k d) := by
  induction m with
  | nil => simp at h
  | cons p t ih =>
    by_cases hp : p.1 = k
    · simp only [mapUpd, List.map_cons, if_pos hp, lookupD_cons]
    · have h2 : (t.find? (fun q => q.1 = k)).isSome = true := by
        rw [List.find?_cons_of_neg _ (by simp [hp])] at h
        exact h
      have ih2 := ih h2
      simp only [mapUpd, List.map_cons, if_neg hp, lookupD_cons] at ih2 ⊢
      exact ih2

theorem mapUpd_lookup_ne {α : Type} (m : List (String × α)) (k k' : String) (f : α → α) (d : α)
    (h : k' ≠ k) : lookupD (mapUpd m k f) k' d = lookupD m k' d := by
  induction m with
  | nil => rfl
  | cons p t ih =>
    simp only [mapUpd, List.map_cons] at ih ⊢
    by_cases hp : p.1 = k
    · have hne : ¬ p.1 = k' := by rw [hp]; exact fun hh => h hh.symm
      rw [if_pos hp, lookupD_cons, lookupD_cons, if_neg hne, if_neg hne, ih]
    · rw [if_neg hp, lookupD_cons, lookupD_cons]
      by_cases hq : p.1 = k'
      · rw [if_pos hq, if_pos hq]
      · rw [if_neg hq, if_neg hq, ih]

theorem stringFold_id {α : Type} (step : α → String → α) (l : List String) (a : α)
    (h : ∀ x ∈ l, step a x = a) : stringFold step a l = a := by
  induction l with
  | nil => rfl
  | cons x t ih =>
    rw [stringFold, h x (List.mem_cons_self _ _)]
    exact ih fun y hy => h y (List.mem_cons_of_mem _ hy)

theorem stringFold_pres {α : Type} (step : α → String → α) (P : α → Prop)
    (hstep : ∀ a x, P a → P (step a x)) :
    ∀ (l : List String) (a : α), P a → P (stringFold step a l) := by
  intro l
  induction l with
  | nil => intro a h; exact h
  | cons x t ih => intro a h; exact ih _ (hstep a x h)

/-- A visit of a name that is no subgraph and has no `ParentToChildren`
children changes nothing. -/
theorem setMarginNode_leaf (ptc : List (String × List String)) (maxD base : Int)
    (fuel : Nat) (depth : Int) (gg : GoGraph) (x : String)
    (hx : ¬ ((gg.subGraphs.find? (fun p => p.1 = x)).isSome = true))
    (hch : lookupD ptc x [] = []) :
    setMarginNode ptc maxD base fuel depth gg x = gg := by
  cases fuel with
  | zero => rfl
  | succ f =>
    have hx' : (gg.subGraphs.find? (fun p => p.1 = x)).isSome = false := by
      cases hb : (gg.subGraphs.find? (fun p => p.1 = x)).isSome
      · rfl
      · exact absurd hb hx
    simp [setMarginNode, hch, hx', stringFold]

/-- The margin recursion never changes the set (or order) of subgraph
names. -/
theorem setMarginNode_keys (ptc : List (String × List String)) (maxD base : Int) :
    ∀ (fuel : Nat) (depth : Int) (gg : GoGraph) (node : String),
      (setMarginNode ptc maxD base fuel depth gg node).subGraphs.map (·.1) =
        gg.subGraphs.map (·.1) := by
  intro fuel
  induction fuel with
  | zero => intro depth gg node; rfl
  | succ f ih =>
    intro depth gg node
    simp only [setMarginNode]
    apply stringFold_pres _ (fun a : GoGraph => a.subGraphs.map (·.1) = gg.subGraphs.map (·.1))
    · intro a x ha
      rw [ih _ a x, ha]
    · by_cases hc : (gg.subGraphs.find? (fun p => p.1 = node)).isSome = true
      · rw [if_pos hc, subGraphs_update_eq, mapUpd_keys]
      · rw [if_neg hc]

/-- One start of the margin recursion at depth 1 from a subgraph `s` of a
flat clustering: it writes `(maxDepth − 1 + 1) × baseMargin` into `s`'s
margin attribute and leaves every other subgraph's attribute list
untouched. -/
theorem setMarginNode_start (g : GoGraph) (maxD base : Int) (fuel : Nat) (gg : GoGraph)
    (s : String)
    (hkeys : gg.subGraphs.map (·.1) = g.subGraphs.map (·.1))
    (hs : s ∈ g.subGraphs.map (·.1))
    (hflat : ∀ x ∈ lookupD g.parentToChildren s [],
      x ∉ g.subGraphs.map (·.1) ∧ lookupD g.parentToChildren x [] = []) :
    lookupD (setMarginNode g.parentToChildren maxD base (fuel+1) 1 gg s).subGraphs s [] =
      setA (lookupD gg.subGraphs s []) "margin"
        ("\"" ++ toString ((maxD - 1 + 1) * base) ++ "\"") ∧
    ∀ c', c' ≠ s →
      lookupD (setMarginNode g.parentToChildren maxD base (fuel+1) 1 gg s).subGraphs c' [] =
        lookupD gg.subGraphs c' [] := by
  have hsome : (gg.subGraphs.find? (fun p => p.1 = s)).isSome = true := by
    rw [find?_key_isSome, hkeys]
    exact hs
  have hstep : setMarginNode g.parentToChildren maxD base (fuel+1) 1 gg s =
      { gg with subGraphs := mapUpd gg.subGraphs s (fun a => setA a "margin" ("\"" ++ toString ((maxD - 1 + 1) * base) ++ "\"")) } := by
    simp only [setMarginNode, if_pos hsome]
    apply stringFold_id
    intro x hx
    obtain ⟨hxnot, hxch⟩ := hflat x hx
    apply setMarginNode_leaf
    · intro hcon
      rw [find?_key_isSome, subGraphs_update_eq, mapUpd_keys, hkeys] at hcon
      exact hxnot hcon
    · exact hxch
  rw [hstep, subGraphs_update_eq]
  constructor
  · exact mapUpd_lookup_self _ _ _ _ hsome
  · intro c' hc'
    exact mapUpd_lookup_ne _ _ _ _ _ hc'

/-- Folding the margin recursion over a worklist: once a subgraph has been
started (or already carries the depth-1 margin), its margin attribute is
the depth-1 value after the whole fold. -/
theorem margins_fold (g : GoGraph) (maxD base : Int) (c : String)
    (hflatAll : ∀ s ∈ g.subGraphs.map (·.1), ∀ x ∈ lookupD g.parentToChildren s [],
      x ∉ g.subGraphs.map (·.1) ∧ lookupD g.parentToChildren x [] = []) :
    ∀ (order : List String) (gg : GoGraph),
      gg.subGraphs.map (·.1) = g.subGraphs.map (·.1) →
      (∀ x ∈ order, x ∈ g.subGraphs.map (·.1)) →
      ((c ∈ order →
        lookupD (lookupD (order.foldl
          (fun gg2 name => setMarginNode g.parentToChildren maxD base
            (g.nodes.length + g.subGraphs.length + 2) 1 gg2 name) gg).subGraphs c []) "margin" ""
          = "\"" ++ toString ((maxD - 1 + 1) * base) ++ "\"") ∧
      (lookupD (lookupD gg.subGraphs c []) "margin" ""
          = "\"" ++ toString ((maxD - 1 + 1) * base) ++ "\"" →
        lookupD (lookupD (order.foldl
          (fun gg2 name => setMarginNode g.parentToChildren maxD base
            (g.nodes.length + g.subGraphs.length + 2) 1 gg2 name) gg).subGraphs c []) "margin" ""
          = "\"" ++ toString ((maxD - 1 + 1) * base) ++ "\"")) := by
  intro order
  induction order with
  | nil =>
    intro gg hkeys horder
    exact ⟨fun hmem => absurd hmem (List.not_mem_nil c), fun h => h⟩
  | cons s rest ih =>
    intro gg hkeys horder
    have hsmem : s ∈ g.subGraphs.map (·.1) := horder s (List.mem_cons_self _ _)
    have hfuel : g.nodes.length + g.subGraphs.length + 2 =
        (g.nodes.length + g.subGraphs.length + 1) + 1 := rfl
    have hstart := setMarginNode_start g maxD base
      (g.nodes.length + g.subGraphs.length + 1) gg s hkeys hsmem
      (hflatAll s hsmem)
    rw [← hfuel] at hstart
    have hkeys2 : (setMarginNode g.parentToChildren maxD base
        (g.nodes.length + g.subGraphs.length + 2) 1 gg s).subGraphs.map (·.1) =
        g.subGraphs.map (·.1) := by
      rw [setMarginNode_keys, hkeys]
    have ih2 := ih _ hkeys2 (fun x hx => horder x (List.mem_cons_of_mem _ hx))
    rw [List.foldl_cons]
    constructor
    · intro hmem
      rcases List.mem_cons.mp hmem with hm | hm
      · apply ih2.2
        rw [hm, hstart.1, lookupD_setA_self]
      · exact ih2.1 hm
    · intro hold
      apply ih2.2
      by_cases hcs : c = s
      · rw [hcs, hstart.1, lookupD_setA_self]
      · rw [hstart.2 c hcs]
        exact hold

/-- C8 (amended): the margin recursion is restarted from **every** subgraph
at depth 1, so each start writes `(maxDepth − 1 + 1) × baseMargin` into the
started cluster.  For a *flat* clustering — no subgraph is a
`ParentToChildren` child of another subgraph, and cluster members have no
children of their own — every cluster's final margin is therefore the
depth-1 value `(maxDepth − 1 + 1) × baseMargin = maxDepth × baseMargin`,
for every map-iteration order.  For *nested* clusters the claimed formula
`(maxDepth − ownDepth + 1) × baseMargin` fails: an inner cluster's margin
is overwritten by its own depth-1 restart (see the counterexample), so
outer clusters are not strictly larger. -/
theorem claim_C8_flat_margins (g : GoGraph) (order : List String) (maxD base : Int)
    (c : String)
    (hflat : ∀ s ∈ g.subGraphs.map (·.1), ∀ x ∈ lookupD g.parentToChildren s [],
      x ∉ g.subGraphs.map (·.1) ∧ lookupD g.parentToChildren x [] = [])
    (horder : ∀ x ∈ order, x ∈ g.subGraphs.map (·.1))
    (hc : c ∈ order) :
    lookupD (lookupD (SetSubgraphMarginsOrd g order maxD base).subGraphs c []) "margin" ""
      = "\"" ++ toString ((maxD - 1 + 1) * base) ++ "\"" := by
  exact (margins_fold g maxD base c hflat order g rfl horder).1 hc

/-- A flat two-cluster fixture: two clusters, each holding one plain node,
everything a child of the root graph `G`. -/
def c8FlatGraph : GoGraph :=
  { nodes := [{ name := "\"n1\"", attrs := [] }, { name := "\"n2\"", attrs := [] }]
    edges := []
    srcToDsts := []
    dstToSrcs := []
    subGraphs := [("\"cluster_a\"", []), ("\"cluster_b\"", [])]
    parentToChildren :=
      [("G", ["\"cluster_a\"", "\"cluster_b\""]),
       ("\"cluster_a\"", ["\"n1\""]), ("\"cluster_b\"", ["\"n2\""])]
    childToParents :=
      [("\"cluster_a\"", ["G"]), ("\"cluster_b\"", ["G"]),
       ("\"n1\"", ["\"cluster_a\""]), ("\"n2\"", ["\"cluster_b\""])]
    graphAttrs := [] }

theorem claim_C8_flat_margins_witness :
    (∀ s ∈ c8FlatGraph.subGraphs.map (·.1), ∀ x ∈ lookupD c8FlatGraph.parentToChildren s [],
      x ∉ c8FlatGraph.subGraphs.map (·.1) ∧ lookupD c8FlatGraph.parentToChildren x [] = []) ∧
    CalculateMaxDepth c8FlatGraph = 2 ∧
    lookupD (lookupD (SetSubgraphMarginsOrd c8FlatGraph ["\"cluster_a\"", "\"cluster_b\""]
        (Int.ofNat (CalculateMaxDepth c8FlatGraph)) 10).subGraphs "\"cluster_a\"" []) "margin" ""
      = "\"" ++ toString ((Int.ofNat (CalculateMaxDepth c8FlatGraph) - 1 + 1) * 10) ++ "\"" := by
  refine ⟨by decide, by decide, ?_⟩
  exact claim_C8_flat_margins c8FlatGraph ["\"cluster_a\"", "\"cluster_b\""]
    (Int.ofNat (CalculateMaxDepth c8FlatGraph)) 10 "\"cluster_a\""
    (by decide) (by decide) (by decide)

/-- Cluster `S` nested inside cluster `T`. -/
def c8NestedGraph : GoGraph :=
  { nodes := []
    edges := []
    srcToDsts := []
    dstToSrcs := []
    subGraphs := [("T", []), ("S", [])]
    parentToChildren := [("T", ["S"])]
    childToParents := [("S", ["T"])]
    graphAttrs := [] }

/-- Counterexample to C8 as stated: with `S` nested inside `T`
(maximum nesting depth 2, `S`'s own depth 2, base margin 10) an admissible
subgraph-map iteration order gives `S` the final margin 20 — the recursion
restarted at `S` at depth 1 overwrites the depth-2 value — though the
claimed formula `(maxDepth − depth + 1) × base` demands 10; and the outer
cluster's margin (20) is not strictly larger than the nested cluster's. -/
theorem claim_C8_counterexample :
    ["T", "S"] = c8NestedGraph.subGraphs.map (·.1) ∧
    CalculateMaxDepth c8NestedGraph = 2 ∧
    lookupD (lookupD (SetSubgraphMarginsOrd c8NestedGraph ["T", "S"] 2 10).subGraphs
      "S" []) "margin" "" = "\"20\"" ∧
    lookupD (lookupD (SetSubgraphMarginsOrd c8NestedGraph ["T", "S"] 2 10).subGraphs
      "T" []) "margin" "" = "\"20\"" ∧
    ("\"20\"" : String) ≠ "\"" ++ toString (((2 : Int) - 2 + 1) * 10) ++ "\"" := by
  refine ⟨by decide, by decide, by decide, by decide, by decide⟩

/-! ## C9: the grouping-type list is hardcoded, not read from the
configuration -/

/-- A single subnet node. -/
def c9Graph : GoGraph :=
  fixtureGraph [("\"azurerm_subnet.s1\"", "azurerm_subnet.s1")] []

/-- C9 fails on the code as written (code bug, acknowledged by the
source's `TODO: Use global config for this`):
`BetaCreateSubgraphsForGroupingNodes` never consults the loaded
configuration's `grouping_elements` — it matches node types against the
hardcoded list `groupingLabels` (its Lean model takes no `Config` argument
because the Go function reads none) — so for a configuration whose
`grouping_elements` does not contain `azurerm_subnet` (e.g. an empty list)
the subnet node still becomes a cluster, contradicting the claim. -/
theorem claim_C9_grouping_ignores_config :
    (BetaCreateSubgraphsForGroupingNodes c9Graph).subGraphs.map (·.1) =
      ["\"cluster_azurerm_subnet.s1\""] ∧
    groupingLabels = ["azurerm_virtual_network", "azurerm_resource_group", "azurerm_subnet"] := by
  refine ⟨by decide, rfl⟩

/-! ## C4: the decoration pass run twice

The decoration pass of the pipeline is icon/shape assignment
(`AddImageLabel`) followed by attribute-text injection
(`AddImportantAttributesToLabels`); the stages between them in
`PrepareGraphForPrinting` touch neither labels nor image/shape
attributes. -/

/-- The label/icon/shape decoration pass. -/
def decorationPass (g : GoGraph) (cfg : Config) (st : TFStateHandler) :
    GoGraph × Except String Unit :=
  AddImportantAttributesToLabels (AddImageLabel g) cfg st

/-- One node whose label holds a two-segment resource address with an
index-like third segment — `azurerm_subnet.a.b` — whose state entry is
keyed by the two-segment prefix. -/
def c4TwoDotGraph : GoGraph :=
  fixtureGraph [("\"azurerm_subnet.a.b\"", "azurerm_subnet.a.b")] []

def c4TwoDotState : TFStateHandler :=
  { resources := [], objects := [("azurerm_subnet.a", [("address_prefixes", "x")])] }

/-- Counterexample to C4 as stated: on an already-decorated graph the
second decoration run *duplicates* the injected attribute line.  The first
run decorates the label to `azurerm_subnet.a.b\naddress_prefixes: x`; in
the second run `strings.Split(label, ".")` yields
`["azurerm_subnet", "a", "b\naddress_prefixes: x"]`, so the rebuilt
resource identifier is again `azurerm_subnet.a`, the state lookup
*succeeds*, and the attribute text is appended a second time. -/
theorem claim_C4_counterexample :
    (decorationPass c4TwoDotGraph defaultConfig c4TwoDotState).2 = .ok () ∧
    ((decorationPass ((decorationPass c4TwoDotGraph defaultConfig c4TwoDotState).1)
        defaultConfig c4TwoDotState).1.nodes.map (fun nd => lookupD nd.attrs "label" "")) =
      ["\"azurerm_subnet.a.b\\naddress_prefixes: x\\naddress_prefixes: x\""] := by
  exact ⟨rfl, rfl⟩

/-! General association-list and string lemmas for the second-run
analysis. -/

theorem find?_setA_self {α : Type} (l : List (String × α)) (k : String) (v : α) :
    (setA l k v).find? (fun p => p.1 = k) = some (k, v) := by
  induction l with
  | nil => simp [setA]
  | cons p t ih =>
    rw [setA_cons]
    by_cases h : p.1 = k
    · rw [if_pos h]
      simp [List.find?]
    · rw [if_neg h, List.find?_cons_of_neg _ (by simp [h])]
      exact ih

theorem find?_setA_ne {α : Type} (l : List (String × α)) (k : String) (v : α) (k' : String)
    (h : k' ≠ k) :
    (setA l k v).find? (fun p => p.1 = k') = l.find? (fun p => p.1 = k') := by
  induction l with
  | nil =>
    rw [setA_nil, List.find?_cons_of_neg _ (by simp; exact fun hh => h hh.symm)]
  | cons p t ih =>
    rw [setA_cons]
    by_cases hp : p.1 = k
    · rw [if_pos hp]
      have hpk : ¬ p.1 = k' := by rw [hp]; exact fun hh => h hh.symm
      rw [List.find?_cons_of_neg _ (by simp; exact fun hh => h hh.symm),
        List.find?_cons_of_neg _ (by simp [hpk])]
    · rw [if_neg hp]
      by_cases hq : p.1 = k'
      · rw [List.find?_cons_of_pos _ (by simp [hq]), List.find?_cons_of_pos _ (by simp [hq])]
      · rw [List.find?_cons_of_neg _ (by simp [hq]), List.find?_cons_of_neg _ (by simp [hq])]
        exact ih

theorem setA_invariant {α : Type} (l : List (String × α)) (k : String) (v : α)
    (h : l.find? (fun p => p.1 = k) = some (k, v)) : setA l k v = l := by
  induction l with
  | nil => simp at h
  | cons p t ih =>
    rw [setA_cons]
    by_cases hp : p.1 = k
    · rw [if_pos hp]
      rw [List.find?_cons_of_pos _ (by simp [hp])] at h
      rw [← Option.some.inj h]
    · rw [if_neg hp]
      rw [List.find?_cons_of_neg _ (by simp [hp])] at h
      rw [ih h]

theorem toList_append (a b : String) : (a ++ b).toList = a.toList ++ b.toList := rfl

theorem mk_toList (s : String) : String.mk s.toList = s := rfl

theorem toList_mk (l : List Char) : (String.mk l).toList = l := rfl

theorem dropWhile_head?_false {α : Type} (p : α → Bool) :
    ∀ (l : List α) (a : α), (l.dropWhile p).head? = some a → p a = false := by
  intro l
  induction l with
  | nil => intro a h; simp at h
  | cons x t ih =>
    intro a h
    rw [List.dropWhile_cons] at h
    by_cases hx : p x = true
    · rw [if_pos hx] at h
      exact ih a h
    · rw [if_neg hx] at h
      rw [← Option.some.inj h]
      exact (Bool.not_eq_true _).mp hx

theorem getLast?_mem {α : Type} : ∀ (l : List α) (a : α), l.getLast? = some a → a ∈ l := by
  intro l
  induction l with
  | nil => intro a h; simp at h
  | cons x t ih =>
    intro a h
    cases t with
    | nil =>
      rw [List.getLast?_singleton] at h
      rw [← Option.some.inj h]
      exact List.mem_cons_self _ _
    | cons y u =>
      rw [List.getLast?_cons_cons] at h
      exact List.mem_cons_of_mem _ (ih a h)

theorem getLast?_append_right {α : Type} :
    ∀ (t d : List α), d ≠ [] → (t ++ d).getLast? = d.getLast? := by
  intro t
  induction t with
  | nil => intro d _; rfl
  | cons x xs ih =>
    intro d hd
    rw [List.cons_append]
    have h2 : xs ++ d ≠ [] := by
      intro hnil
      rcases List.append_eq_nil.mp hnil with ⟨h1, h2⟩
      exact hd h2
    cases hxd : xs ++ d with
    | nil => exact absurd hxd h2
    | cons z zs =>
      rw [List.getLast?_cons_cons, ← hxd, ih d hd]

theorem dropWhile_getLast?_of_ne_nil {α : Type} (p : α → Bool) (l : List α)
    (h : l.dropWhile p ≠ []) : (l.dropWhile p).getLast? = l.getLast? := by
  obtain ⟨t, ht⟩ := List.dropWhile_suffix p (l := l)
  conv_rhs => rw [← ht]
  exact (getLast?_append_right t _ h).symm

theorem trimQuotes_head_ne (s : String) (c : Char)
    (h : (trimQuotes s).toList.head? = some c) : c ≠ '"' := by
  rw [trimQuotes, toList_mk] at h
  have h2 : ((((s.toList.dropWhile (· = '"')).reverse.dropWhile (· = '"'))).getLast? = some c) := by
    rw [← List.head?_reverse]
    exact h
  have hne : ((s.toList.dropWhile (· = '"')).reverse.dropWhile (· = '"')) ≠ [] := by
    intro hnil
    rw [hnil] at h2
    simp at h2
  rw [dropWhile_getLast?_of_ne_nil _ _ hne, List.getLast?_reverse] at h2
  have := dropWhile_head?_false (fun x => x = '"') s.toList c h2
  simpa using this

theorem trimQuotes_getLast_ne (s : String) (c : Char)
    (h : (trimQuotes s).toList.getLast? = some c) : c ≠ '"' := by
  rw [trimQuotes, toList_mk] at h
  rw [List.getLast?_reverse] at h
  have := dropWhile_head?_false (fun x => x = '"') (s.toList.dropWhile (· = '"')).reverse c h
  simpa using this

theorem trimQuotes_quote_wrap (s : String)
    (hh : ∀ c, s.toList.head? = some c → c ≠ '"')
    (hl : ∀ c, s.toList.getLast? = some c → c ≠ '"') :
    trimQuotes ("\"" ++ s ++ "\"") = s := by
  have hlist : ("\"" ++ s ++ "\"").toList = '"' :: (s.toList ++ ['"']) := by
    rw [toList_append, toList_append]
    rfl
  rw [trimQuotes, hlist]
  cases hs : s.toList with
  | nil =>
    have hse : s = "" := by
      have := congrArg String.mk hs
      rw [mk_toList] at this
      exact this
    rw [hse]
    rfl
  | cons c cs =>
    have hc : ¬ (c = '"') := hh c (by rw [hs]; rfl)
    rw [List.dropWhile_cons, if_pos (by simp), List.cons_append, List.dropWhile_cons,
      if_neg (by simpa using hc), ← List.cons_append]
    have hrev : ((c :: cs) ++ ['"']).reverse = '"' :: (c :: cs).reverse := by
      rw [List.reverse_append]
      rfl
    rw [hrev, List.dropWhile_cons, if_pos (by simp)]
    cases hrv : (c :: cs).reverse with
    | nil => simp at hrv
    | cons d ds =>
      have hd : ¬ (d = '"') := by
        apply hl d
        rw [hs, ← List.head?_reverse, hrv]
        rfl
      rw [List.dropWhile_cons, if_neg (by simpa using hd), ← hrv, List.reverse_reverse, ← hs,
        mk_toList]

theorem isPrefixOf_append_cases :
    ∀ (p l : List Char) (c : Char) (suf : List Char),
      p.isPrefixOf (l ++ c :: suf) = true → p.isPrefixOf l = true ∨ c ∈ p := by
  intro p
  induction p with
  | nil => intro l c suf h; left; cases l <;> rfl
  | cons a p' ih =>
    intro l c suf h
    cases l with
    | nil =>
      right
      rw [List.nil_append] at h
      simp only [List.isPrefixOf, Bool.and_eq_true, beq_iff_eq] at h
      rw [h.1]
      exact List.mem_cons_self _ _
    | cons b l' =>
      rw [List.cons_append] at h
      simp only [List.isPrefixOf, Bool.and_eq_true, beq_iff_eq] at h ⊢
      rcases ih l' c suf h.2 with h1 | h1
      · exact Or.inl ⟨h.1, h1⟩
      · exact Or.inr (List.mem_cons_of_mem _ h1)

theorem isResourceNode_of_extend (l att : String)
    (h : IsResourceNode (l ++ "\\n" ++ att) = true) : IsResourceNode l = true := by
  rw [IsResourceNode, List.any_eq_true] at h ⊢
  obtain ⟨prov, hprov, hpre⟩ := h
  refine ⟨prov, hprov, ?_⟩
  rw [strStartsWith] at hpre ⊢
  have hn2 : ("\\n" : String).toList = ['\\', 'n'] := by decide
  have hform : (l ++ "\\n" ++ att).toList = l.toList ++ '\\' :: ('n' :: att.toList) := by
    rw [toList_append, toList_append, hn2, List.append_assoc]
    rfl
  rw [hform] at hpre
  rcases isPrefixOf_append_cases _ _ _ _ hpre with h1 | h1
  · exact h1
  · exfalso
    have hmem : prov ∈ KnownProviders := hprov
    rw [KnownProviders] at hmem
    simp only [List.mem_cons, List.not_mem_nil, or_false] at hmem
    rcases hmem with rfl | rfl | rfl
    · exact absurd h1 (by decide)
    · exact absurd h1 (by decide)
    · exact absurd h1 (by decide)

theorem splitDotChars_ne_nil : ∀ l : List Char, splitDotChars l ≠ [] := by
  intro l
  induction l with
  | nil => simp [splitDotChars]
  | cons c t ih =>
    rw [splitDotChars]
    by_cases h : c = '.'
    · simp [h]
    · rw [if_neg h]
      cases hs : splitDotChars t with
      | nil => simp
      | cons s ss => simp

theorem splitDotChars_no_dot (l : List Char) (h : '.' ∉ l) : splitDotChars l = [l] := by
  induction l with
  | nil => rfl
  | cons c t ih =>
    have hc : ¬ (c = '.') := fun hh => h (hh ▸ List.mem_cons_self _ _)
    rw [splitDotChars, if_neg hc, ih (fun hm => h (List.mem_cons_of_mem _ hm))]

theorem splitDotChars_append_dot (a rest : List Char) (h : '.' ∉ a) :
    splitDotChars (a ++ '.' :: rest) = a :: splitDotChars rest := by
  induction a with
  | nil =>
    rw [List.nil_append, splitDotChars, if_pos rfl]
  | cons c a' ih =>
    have hc : ¬ (c = '.') := fun hh => h (hh ▸ List.mem_cons_self _ _)
    rw [List.cons_append, splitDotChars, if_neg hc,
      ih (fun hm => h (List.mem_cons_of_mem _ hm))]

theorem splitDotChars_append_nodot (b m s : List Char) (ss : List (List Char))
    (h : '.' ∉ b) (hm : splitDotChars m = s :: ss) :
    splitDotChars (b ++ m) = (b ++ s) :: ss := by
  induction b with
  | nil => simpa using hm
  | cons c b' ih =>
    have hc : ¬ (c = '.') := fun hh => h (hh ▸ List.mem_cons_self _ _)
    rw [List.cons_append, splitDotChars, if_neg hc,
      ih (fun hmem => h (List.mem_cons_of_mem _ hmem))]
    rfl

theorem count_dot_decomp (l : List Char) (h : l.count '.' = 1) :
    ∃ a b, l = a ++ '.' :: b ∧ '.' ∉ a ∧ '.' ∉ b := by
  induction l with
  | nil => simp at h
  | cons c t ih =>
    by_cases hc : c = '.'
    · refine ⟨[], t, by rw [hc, List.nil_append], by simp, ?_⟩
      rw [hc, List.count_cons_self] at h
      exact List.count_eq_zero.mp (by omega)
    · rw [List.count_cons_of_ne (fun hh => hc hh.symm)] at h
      obtain ⟨a, b, hab, ha, hb⟩ := ih h
      exact ⟨c :: a, b, by rw [hab, List.cons_append],
        fun hm => (List.mem_cons.mp hm).elim (fun hh => hc hh.symm) ha, hb⟩

theorem head?_append_left {α : Type} (l l' : List α) (h : l ≠ []) :
    (l ++ l').head? = l.head? := by
  cases l with
  | nil => exact absurd rfl h
  | cons x xs => rfl

theorem strJoin_no_char (sep : String) (c : Char) (hsep : c ∉ sep.toList) :
    ∀ items : List String, (∀ x ∈ items, c ∉ x.toList) →
      c ∉ (strJoin sep items).toList := by
  intro items
  induction items with
  | nil => intro _; simp [strJoin]
  | cons x xs ih =>
    intro hall
    cases xs with
    | nil => simpa [strJoin] using hall x (List.mem_cons_self _ _)
    | cons y ys =>
      have hrec := ih fun z hz => hall z (List.mem_cons_of_mem _ hz)
      show c ∉ ((x ++ sep) ++ strJoin sep (y :: ys)).toList
      rw [toList_append, toList_append]
      intro hmem
      rcases List.mem_append.mp hmem with hm | hm
      · rcases List.mem_append.mp hm with hm2 | hm2
        · exact hall x (List.mem_cons_self _ _) hm2
        · exact hsep hm2
      · exact hrec hm

/-- A node that already carries the image and shape attributes
`AddImageLabel` would assign (their current values match what its own label
dictates) is a fixed point of the per-node image step. -/
theorem imageNodeStep_of_stable (nd : GoNode)
    (himg : nd.attrs.find? (fun p => p.1 = "image") =
      some ("image",
        "\"" ++ ((splitDot (trimQuotes (lookupD nd.attrs "label" ""))).headD "") ++ ".png\""))
    (hshape : nd.attrs.find? (fun p => p.1 = "shape") = some ("shape", "\"none\"")) :
    imageNodeStep nd = nd := by
  simp only [imageNodeStep]
  by_cases hres : IsResourceNode (trimQuotes (lookupD nd.attrs "label" "")) = true
  · rw [if_pos hres]
    by_cases hlen : (splitDot (trimQuotes (lookupD nd.attrs "label" ""))).length < 2
    · rw [if_pos hlen]
    · rw [if_neg hlen, setA_invariant _ _ _ himg, setA_invariant _ _ _ hshape]
  · rw [if_neg hres]

/-- The per-node image step never touches the label binding. -/
theorem imageNodeStep_label (nd : GoNode) :
    lookupD (imageNodeStep nd).attrs "label" "" = lookupD nd.attrs "label" "" := by
  simp only [imageNodeStep]
  by_cases hres : IsResourceNode (trimQuotes (lookupD nd.attrs "label" "")) = true
  · rw [if_pos hres]
    by_cases hlen : (splitDot (trimQuotes (lookupD nd.attrs "label" ""))).length < 2
    · rw [if_pos hlen]
    · rw [if_neg hlen]
      show lookupD (setA (setA nd.attrs "image" _) "shape" _) "label" "" = _
      rw [lookupD_setA_ne _ _ _ _ _ (by decide), lookupD_setA_ne _ _ _ _ _ (by decide)]
  · rw [if_neg hres]

/-- The per-node image step is idempotent. -/
theorem imageNodeStep_idem (nd : GoNode) : imageNodeStep (imageNodeStep nd) = imageNodeStep nd := by
  by_cases hres : IsResourceNode (trimQuotes (lookupD nd.attrs "label" "")) = true
  · by_cases hlen : (splitDot (trimQuotes (lookupD nd.attrs "label" ""))).length < 2
    · have hid : imageNodeStep nd = nd := by
        simp only [imageNodeStep]
        rw [if_pos hres, if_pos hlen]
      rw [hid, hid]
    · have hstep : imageNodeStep nd =
          { nd with attrs := setA (setA nd.attrs "image" ("\"" ++ ((splitDot (trimQuotes (lookupD nd.attrs "label" ""))).headD "") ++ ".png\"")) "shape" "\"none\"" } := by
        simp only [imageNodeStep]
        rw [if_pos hres, if_neg hlen]
      apply imageNodeStep_of_stable
      · rw [imageNodeStep_label, hstep]
        show (setA (setA nd.attrs "image" _) "shape" _).find? (fun p => p.1 = "image") = _
        rw [find?_setA_ne _ _ _ _ (by decide), find?_setA_self]
      · rw [hstep]
        show (setA (setA nd.attrs "image" _) "shape" _).find? (fun p => p.1 = "shape") = _
        rw [find?_setA_self]
  · have hid : imageNodeStep nd = nd := by
      simp only [imageNodeStep]
      rw [if_neg hres]
    rw [hid, hid]

/-- The core of the second-run analysis: if one run of the attribute
injection over an image-stable node list succeeded and every input label
has at most one dot (and the state's addresses are backslash-free, its
values and the configured attribute names quote-free), then the output
list is again image-stable and a second injection run leaves it exactly as
it is — each node decorated in the first run now makes the rebuilt
identifier contain the literal `\n` separator, so its state lookup fails
and the run stops without mutating anything. -/
theorem addImportant_second_run (cfg : Config) (st : TFStateHandler)
    (hobj : ∀ p ∈ st.objects, '\\' ∉ p.1.toList)
    (hvals : ∀ p ∈ st.objects, ∀ q ∈ p.2, '"' ∉ q.2.toList)
    (hattrs : ∀ rc ∈ cfg.importantAttributes, ∀ a ∈ rc.attributes, '"' ∉ a.toList) :
    ∀ (M R : List GoNode),
      addImportantNodes cfg st M = (R, .ok ()) →
      (∀ m ∈ M, imageNodeStep m = m) →
      (∀ m ∈ M, (trimQuotes (lookupD m.attrs "label" "")).toList.count '.' ≤ 1) →
      R.map imageNodeStep = R ∧ (addImportantNodes cfg st (R.map imageNodeStep)).1 = R := by
  intro M
  induction M with
  | nil =>
    intro R hrun hst hdot
    simp only [addImportantNodes] at hrun
    rw [Prod.mk.injEq] at hrun
    obtain ⟨hR, _⟩ := hrun
    subst hR
    exact ⟨rfl, rfl⟩
  | cons m rest ih =>
    intro R hrun hst hdot
    simp only [addImportantNodes] at hrun
    by_cases hlen : (splitDot (trimQuotes (lookupD m.attrs "label" ""))).length < 2
    · rw [if_pos hlen, Prod.mk.injEq] at hrun
      obtain ⟨h1, h2⟩ := hrun
      cases hrest : addImportantNodes cfg st rest with
      | mk R' e' =>
        rw [hrest] at h1 h2
        simp only at h1 h2
        subst h2
        have IH := ih R' hrest (fun x hx => hst x (List.mem_cons_of_mem _ hx))
          (fun x hx => hdot x (List.mem_cons_of_mem _ hx))
        subst h1
        constructor
        · rw [List.map_cons, hst m (List.mem_cons_self _ _), IH.1]
        · rw [List.map_cons, hst m (List.mem_cons_self _ _)]
          simp only [addImportantNodes]
          rw [if_pos hlen, IH.2]
    · rw [if_neg hlen] at hrun
      have hone : (trimQuotes (lookupD m.attrs "label" "")).toList.count '.' = 1 := by
        have hle := hdot m (List.mem_cons_self _ _)
        rcases Nat.lt_or_ge ((trimQuotes (lookupD m.attrs "label" "")).toList.count '.') 1 with
          hlt | hge
        · exfalso
          have h0 : (trimQuotes (lookupD m.attrs "label" "")).toList.count '.' = 0 := by omega
          have hnod := List.count_eq_zero.mp h0
          have hspl : splitDot (trimQuotes (lookupD m.attrs "label" "")) =
              [String.mk (trimQuotes (lookupD m.attrs "label" "")).toList] := by
            rw [splitDot, splitDotChars_no_dot _ hnod]
            rfl
          rw [hspl] at hlen
          exact hlen (by simp)
        · omega
      obtain ⟨a, b, hab, ha, hb⟩ := count_dot_decomp _ hone
      have hsplit : splitDot (trimQuotes (lookupD m.attrs "label" "")) =
          [String.mk a, String.mk b] := by
        rw [splitDot, hab, splitDotChars_append_dot _ _ ha, splitDotChars_no_dot _ hb]
        rfl
      rw [hsplit] at hrun
      simp only [List.headD_cons, List.tail_cons] at hrun
      cases hfind : cfg.importantAttributes.find? (fun rc => rc.name = String.mk a) with
      | none =>
        simp only [hfind] at hrun
        rw [Prod.mk.injEq] at hrun
        obtain ⟨h1, h2⟩ := hrun
        cases hrest : addImportantNodes cfg st rest with
        | mk R' e' =>
          rw [hrest] at h1 h2
          simp only at h1 h2
          subst h2
          have IH := ih R' hrest (fun x hx => hst x (List.mem_cons_of_mem _ hx))
            (fun x hx => hdot x (List.mem_cons_of_mem _ hx))
          subst h1
          constructor
          · rw [List.map_cons, hst m (List.mem_cons_self _ _), IH.1]
          · rw [List.map_cons, hst m (List.mem_cons_self _ _)]
            simp only [addImportantNodes]
            rw [if_neg hlen, hsplit]
            simp only [List.headD_cons, List.tail_cons, hfind]
            rw [IH.2]
      | some rc =>
        simp only [hfind] at hrun
        cases hga : GetImportantAttributes st cfg (String.mk a ++ "." ++ String.mk b) with
        | error e =>
          simp only [hga] at hrun
          rw [Prod.mk.injEq] at hrun
          exact absurd hrun.2 (by simp)
        | ok attrs =>
          simp only [hga] at hrun
          rw [Prod.mk.injEq] at hrun
          obtain ⟨h1, h2⟩ := hrun
          cases hrest : addImportantNodes cfg st rest with
          | mk R' e' =>
            rw [hrest] at h1 h2
            simp only at h1 h2
            subst h2
            have IH := ih R' hrest (fun x hx => hst x (List.mem_cons_of_mem _ hx))
              (fun x hx => hdot x (List.mem_cons_of_mem _ hx))
            subst h1
            -- every collected attribute line is quote-free
            have hattrsOk : ∀ x ∈ attrs, '"' ∉ x.toList := by
              simp only [GetImportantAttributes] at hga
              cases hobjf : st.objects.find?
                  (fun p => p.1 = String.mk a ++ "." ++ String.mk b) with
              | none =>
                rw [hobjf] at hga
                exact absurd hga (by simp)
              | some obj =>
                rw [hobjf] at hga
                simp only at hga
                cases hfind2 : cfg.importantAttributes.find?
                    (fun rc2 => rc2.name =
                      (splitDot (String.mk a ++ "." ++ String.mk b)).headD "") with
                | none =>
                  rw [hfind2] at hga
                  simp at hga
                | some rc2 =>
                  rw [hfind2] at hga
                  simp only at hga
                  by_cases hemp : (rc2.attributes.filterMap fun attr =>
                      (obj.2.find? (fun q => q.1 = attr)).map
                        fun q => attr ++ ": " ++ q.2).isEmpty = true
                  · rw [if_pos hemp] at hga
                    exact absurd hga (by simp)
                  · rw [if_neg hemp] at hga
                    have hattrsEq := (Except.ok.inj hga).symm
                    intro x hx
                    rw [hattrsEq] at hx
                    obtain ⟨attr, hattr, hmap⟩ := List.mem_filterMap.mp hx
                    obtain ⟨q, hfq, hxEq⟩ := Option.map_eq_some'.mp hmap
                    subst hxEq
                    intro hql
                    rw [toList_append, toList_append] at hql
                    rcases List.mem_append.mp hql with hm1 | hm1
                    · rcases List.mem_append.mp hm1 with hm2 | hm2
                      · exact hattrs rc2 (List.mem_of_find?_eq_some hfind2) attr hattr hm2
                      · revert hm2
                        decide
                    · exact hvals obj (List.mem_of_find?_eq_some hobjf) q
                        (List.mem_of_find?_eq_some hfq) hm1
            have hjoin : '"' ∉ (strJoin "\\n" attrs).toList :=
              strJoin_no_char _ _ (by decide) attrs hattrsOk
            have hnl : ("\\n" : String).toList = ['\\', 'n'] := by decide
            have hlne : (trimQuotes (lookupD m.attrs "label" "")).toList ≠ [] := by
              rw [hab]
              simp
            -- the doubled label's text is the raw concatenation
            have hhd : ∀ c, (trimQuotes (lookupD m.attrs "label" "") ++ "\\n" ++
                strJoin "\\n" attrs).toList.head? = some c → c ≠ '"' := by
              intro c hc
              rw [toList_append, toList_append,
                head?_append_left _ _ (by
                  intro hnil
                  rcases List.append_eq_nil.mp hnil with ⟨hq1, hq2⟩
                  exact hlne hq1),
                head?_append_left _ _ hlne] at hc
              exact trimQuotes_head_ne _ c hc
            have hlast : ∀ c, (trimQuotes (lookupD m.attrs "label" "") ++ "\\n" ++
                strJoin "\\n" attrs).toList.getLast? = some c → c ≠ '"' := by
              intro c hc
              rw [toList_append, toList_append, hnl, List.append_assoc] at hc
              rw [getLast?_append_right _ _ (by simp)] at hc
              rw [List.cons_append, List.cons_append, List.nil_append] at hc
              cases hatt : (strJoin "\\n" attrs).toList with
              | nil =>
                rw [hatt] at hc
                rw [← Option.some.inj hc]
                decide
              | cons y ys =>
                rw [hatt, List.getLast?_cons_cons, List.getLast?_cons_cons] at hc
                intro hcq
                apply hjoin
                rw [hatt, ← hcq]
                exact getLast?_mem _ _ hc
            have htrim : trimQuotes ("\"" ++ (trimQuotes (lookupD m.attrs "label" "") ++
                "\\n" ++ strJoin "\\n" attrs) ++ "\"") =
                trimQuotes (lookupD m.attrs "label" "") ++ "\\n" ++ strJoin "\\n" attrs :=
              trimQuotes_quote_wrap _ hhd hlast
            have hform : (trimQuotes (lookupD m.attrs "label" "") ++ "\\n" ++
                strJoin "\\n" attrs).toList =
                a ++ '.' :: (b ++ '\\' :: 'n' :: (strJoin "\\n" attrs).toList) := by
              rw [toList_append, toList_append, hnl, hab]
              simp [List.append_assoc]
            cases hs1 : splitDotChars ('n' :: (strJoin "\\n" attrs).toList) with
            | nil => exact absurd hs1 (splitDotChars_ne_nil _)
            | cons s1 ss1 =>
              have hsl : splitDotChars ('\\' :: 'n' :: (strJoin "\\n" attrs).toList) =
                  ('\\' :: s1) :: ss1 := by
                rw [splitDotChars, if_neg (by decide), hs1]
              have hsfull : splitDotChars (trimQuotes (lookupD m.attrs "label" "") ++ "\\n" ++
                  strJoin "\\n" attrs).toList = a :: (b ++ '\\' :: s1) :: ss1 := by
                rw [hform, splitDotChars_append_dot _ _ ha,
                  splitDotChars_append_nodot _ _ _ _ hb hsl]
              have hsplit2 : splitDot (trimQuotes (lookupD m.attrs "label" "") ++ "\\n" ++
                  strJoin "\\n" attrs) =
                  String.mk a :: String.mk (b ++ '\\' :: s1) :: ss1.map String.mk := by
                rw [splitDot, hsfull]
                rfl
              have hid2mem : '\\' ∈ (String.mk a ++ "." ++
                  String.mk (b ++ '\\' :: s1)).toList := by
                rw [toList_append]
                refine List.mem_append.mpr (Or.inr ?_)
                rw [toList_mk]
                exact List.mem_append.mpr (Or.inr (List.mem_cons_self _ _))
              have hga2 : GetImportantAttributes st cfg (String.mk a ++ "." ++
                  String.mk (b ++ '\\' :: s1)) = .error ("resource " ++
                  (String.mk a ++ "." ++ String.mk (b ++ '\\' :: s1)) ++
                  " not found in tfstate") := by
                have hnone : st.objects.find? (fun p => p.1 = String.mk a ++ "." ++
                    String.mk (b ++ '\\' :: s1)) = none := by
                  rw [List.find?_eq_none]
                  intro p hp
                  simp only [decide_eq_true_eq]
                  intro heq
                  apply hobj p hp
                  rw [heq]
                  exact hid2mem
                simp only [GetImportantAttributes, hnone]
              have hlab2 : lookupD (setA m.attrs "label" ("\"" ++
                  (trimQuotes (lookupD m.attrs "label" "") ++ "\\n" ++ strJoin "\\n" attrs) ++
                  "\"")) "label" "" = "\"" ++ (trimQuotes (lookupD m.attrs "label" "") ++
                  "\\n" ++ strJoin "\\n" attrs) ++ "\"" := lookupD_setA_self _ _ _ _
              have hstab2 : imageNodeStep { m with attrs := setA m.attrs "label" ("\"" ++ (trimQuotes (lookupD m.attrs "label" "") ++ "\\n" ++ strJoin "\\n" attrs) ++ "\"") } = { m with attrs := setA m.attrs "label" ("\"" ++ (trimQuotes (lookupD m.attrs "label" "") ++ "\\n" ++ strJoin "\\n" attrs) ++ "\"") } := by
                by_cases hres1 : IsResourceNode (trimQuotes (lookupD m.attrs "label" "") ++
                    "\\n" ++ strJoin "\\n" attrs) = true
                · have hres0 : IsResourceNode (trimQuotes (lookupD m.attrs "label" "")) = true :=
                    isResourceNode_of_extend _ _ hres1
                  have hstm := hst m (List.mem_cons_self _ _)
                  simp only [imageNodeStep] at hstm
                  rw [if_pos hres0, if_neg hlen] at hstm
                  have hstA : setA (setA m.attrs "image" ("\"" ++
                      ((splitDot (trimQuotes (lookupD m.attrs "label" ""))).headD "") ++
                      ".png\"")) "shape" "\"none\"" = m.attrs := congrArg GoNode.attrs hstm
                  rw [hsplit] at hstA
                  simp only [List.headD_cons] at hstA
                  have himgM : m.attrs.find? (fun p => p.1 = "image") =
                      some ("image", "\"" ++ String.mk a ++ ".png\"") := by
                    rw [← hstA, find?_setA_ne _ _ _ _ (by decide), find?_setA_self]
                  have hshapeM : m.attrs.find? (fun p => p.1 = "shape") =
                      some ("shape", "\"none\"") := by
                    rw [← hstA, find?_setA_self]
                  apply imageNodeStep_of_stable
                  · show (setA m.attrs "label" _).find? (fun p => p.1 = "image") =
                      some ("image", "\"" ++ ((splitDot (trimQuotes (lookupD (setA m.attrs "label" ("\"" ++ (trimQuotes (lookupD m.attrs "label" "") ++ "\\n" ++ strJoin "\\n" attrs) ++ "\"")) "label" ""))).headD "") ++ ".png\"")
                    rw [hlab2, htrim, hsplit2]
                    simp only [List.headD_cons]
                    rw [find?_setA_ne _ _ _ _ (by decide), himgM]
                  · show (setA m.attrs "label" _).find? (fun p => p.1 = "shape") =
                      some ("shape", "\"none\"")
                    rw [find?_setA_ne _ _ _ _ (by decide), hshapeM]
                · simp only [imageNodeStep]
                  rw [hlab2, htrim, if_neg hres1]
              constructor
              · rw [List.map_cons, hstab2, IH.1]
              · rw [List.map_cons, hstab2]
                simp only [addImportantNodes]
                rw [hlab2, htrim, hsplit2]
                simp only [List.headD_cons, List.tail_cons]
                rw [if_neg (by simp), hfind]
                simp only [hga2]
                rw [IH.1]

/-- C4 (amended): once-decorated graphs are *not* left intact by a second
decoration pass in general (see the counterexample, where a label holding
more than one dot gets its attribute line duplicated); but when every
pre-decoration label has at most one dot, the state's addresses contain no
backslash, and its values and the configured attribute names contain no
quote character, a second run of the decoration pass changes nothing: the
image/shape attributes are re-assigned their existing values, and the
attribute injection — rather than skipping cleanly — errors out at the
first decorated node *before* mutating any label, because the identifier
it rebuilds from the decorated label contains the literal `\n`. -/
theorem claim_C4_second_decoration (g : GoGraph) (cfg : Config) (st : TFStateHandler)
    (g1 : GoGraph)
    (h1 : decorationPass g cfg st = (g1, .ok ()))
    (hdots : ∀ nd ∈ g.nodes, (trimQuotes (lookupD nd.attrs "label" "")).toList.count '.' ≤ 1)
    (hobj : ∀ p ∈ st.objects, '\\' ∉ p.1.toList)
    (hvals : ∀ p ∈ st.objects, ∀ q ∈ p.2, '"' ∉ q.2.toList)
    (hattrs : ∀ rc ∈ cfg.importantAttributes, ∀ a ∈ rc.attributes, '"' ∉ a.toList) :
    (decorationPass g1 cfg st).1 = g1 := by
  have hM : ∀ m ∈ g.nodes.map imageNodeStep, imageNodeStep m = m := by
    intro m hm
    obtain ⟨nd, hnd, hnd2⟩ := List.mem_map.mp hm
    rw [← hnd2]
    exact imageNodeStep_idem nd
  have hMdot : ∀ m ∈ g.nodes.map imageNodeStep,
      (trimQuotes (lookupD m.attrs "label" "")).toList.count '.' ≤ 1 := by
    intro m hm
    obtain ⟨nd, hnd, hnd2⟩ := List.mem_map.mp hm
    rw [← hnd2, imageNodeStep_label]
    exact hdots nd hnd
  simp only [decorationPass, AddImportantAttributesToLabels, AddImageLabel] at h1
  rw [Prod.mk.injEq] at h1
  obtain ⟨hg1, hok⟩ := h1
  cases hrun : addImportantNodes cfg st (g.nodes.map imageNodeStep) with
  | mk R e =>
    rw [hrun] at hg1 hok
    simp only at hg1 hok
    subst hok
    have main := addImportant_second_run cfg st hobj hvals hattrs
      (g.nodes.map imageNodeStep) R hrun hM hMdot
    simp only [decorationPass, AddImportantAttributesToLabels, AddImageLabel]
    rw [← hg1]
    show ({ g with nodes := (addImportantNodes cfg st (R.map imageNodeStep)).1 } : GoGraph) =
      { g with nodes := R }
    rw [main.2]

/-- A one-dot label whose address is present in the state with one
configured attribute: the first decoration run succeeds. -/
def c4OneDotGraph : GoGraph :=
  fixtureGraph [("\"azurerm_subnet.s1\"", "azurerm_subnet.s1")] []

def c4OneDotState : TFStateHandler :=
  { resources := [], objects := [("azurerm_subnet.s1", [("address_prefixes", "10.0.1.0/24")])] }

theorem claim_C4_second_decoration_witness :
    decorationPass c4OneDotGraph defaultConfig c4OneDotState =
      ((decorationPass c4OneDotGraph defaultConfig c4OneDotState).1, .ok ()) ∧
    (decorationPass (decorationPass c4OneDotGraph defaultConfig c4OneDotState).1
        defaultConfig c4OneDotState).1 =
      (decorationPass c4OneDotGraph defaultConfig c4OneDotState).1 := by
  refine ⟨rfl, ?_⟩
  exact claim_C4_second_decoration c4OneDotGraph defaultConfig c4OneDotState
    (decorationPass c4OneDotGraph defaultConfig c4OneDotState).1 rfl
    (by decide) (by decide) (by decide) (by decide)

/-! ## C5: the single-parent invariant of containment clustering -/

/-- The member set a parent's `ParentToChildren` entry reports. -/
def membersOf (g : GoGraph) (p : String) : List String :=
  lookupD g.parentToChildren p []

/-- The parent set a node's `ChildToParents` entry reports. -/
def parentsOf (g : GoGraph) (c : String) : List String :=
  lookupD g.childToParents c []

/-- No entity is a member of two different parents' member sets. -/
def SingleParent (g : GoGraph) : Prop :=
  ∀ c p q, p ≠ q → c ∈ membersOf g p → c ∈ membersOf g q → False

/-- Every entity has at most one recorded parent. -/
def ParentsAtMostOne (g : GoGraph) : Prop :=
  ∀ c, (parentsOf g c).length ≤ 1

/-- Decidable check for `SingleParent` (it suffices to scan the keys). -/
def singleParentB (g : GoGraph) : Bool :=
  g.parentToChildren.all fun p =>
    g.parentToChildren.all fun q =>
      p.1 = q.1 ||
        (lookupD g.parentToChildren p.1 []).all fun c =>
          !((lookupD g.parentToChildren q.1 []).contains c)

/-- Decidable check for `ParentsAtMostOne`. -/
def parentsAtMostOneB (g : GoGraph) : Bool :=
  g.childToParents.all fun p => (lookupD g.childToParents p.1 []).length ≤ 1

/-- Decidable check that `c` appears in no member set. -/
def notMemberAnywhereB (g : GoGraph) (c : String) : Bool :=
  g.parentToChildren.all fun p => !(p.2.contains c)

theorem lookupD_cases {α : Type} (l : List (String × α)) (k : String) (d : α) :
    lookupD l k d = d ∨ ∃ p ∈ l, p.1 = k ∧ lookupD l k d = p.2 := by
  rw [lookupD]
  cases hf : l.find? (fun p => p.1 = k) with
  | none => exact Or.inl rfl
  | some p =>
    refine Or.inr ⟨p, List.mem_of_find?_eq_some hf, ?_, rfl⟩
    have hp := List.find?_some hf
    simpa using hp

theorem singleParentB_sound (g : GoGraph) (h : singleParentB g = true) : SingleParent g := by
  intro c p q hne hcp hcq
  rw [membersOf] at hcp hcq
  rcases lookupD_cases g.parentToChildren p [] with hp | ⟨bp, hbp, hbpk, hbpv⟩
  · rw [hp] at hcp
    exact absurd hcp (List.not_mem_nil c)
  rcases lookupD_cases g.parentToChildren q [] with hq | ⟨bq, hbq, hbqk, hbqv⟩
  · rw [hq] at hcq
    exact absurd hcq (List.not_mem_nil c)
  rw [singleParentB, List.all_eq_true] at h
  have h2 := h bp hbp
  rw [List.all_eq_true] at h2
  have h3 := h2 bq hbq
  rw [Bool.or_eq_true] at h3
  rcases h3 with h3 | h3
  · simp only [decide_eq_true_eq] at h3
    rw [hbpk, hbqk] at h3
    exact hne h3
  · rw [List.all_eq_true] at h3
    have h4 := h3 c (by rw [hbpk]; exact hcp)
    rw [hbqk] at h4
    simp at h4
    exact h4 hcq

theorem parentsAtMostOneB_sound (g : GoGraph) (h : parentsAtMostOneB g = true) :
    ParentsAtMostOne g := by
  intro c
  rw [parentsOf]
  rcases lookupD_cases g.childToParents c [] with hc | ⟨b, hb, hbk, hbv⟩
  · rw [hc]
    simp
  · rw [parentsAtMostOneB, List.all_eq_true] at h
    have h2 := h b hb
    rw [hbk] at h2
    simpa using h2

theorem notMemberAnywhereB_sound (g : GoGraph) (c : String)
    (h : notMemberAnywhereB g c = true) : ∀ q, c ∉ membersOf g q := by
  intro q hq
  rw [membersOf] at hq
  rcases lookupD_cases g.parentToChildren q [] with h0 | ⟨b, hb, hbk, hbv⟩
  · rw [h0] at hq
    exact absurd hq (List.not_mem_nil c)
  · rw [notMemberAnywhereB, List.all_eq_true] at h
    have h2 := h b hb
    simp at h2
    exact h2 (by rw [← hbv]; exact hq)

theorem addToSet_mem (l : List String) (y x : String) (h : x ∈ addToSet l y) :
    x ∈ l ∨ x = y := by
  rw [addToSet] at h
  by_cases hc : l.contains y = true
  · rw [if_pos hc] at h
    exact Or.inl h
  · rw [if_neg hc] at h
    rcases List.mem_append.mp h with h1 | h1
    · exact Or.inl h1
    · exact Or.inr (by simpa using h1)

theorem addToSet_trunc (l : List String) (p : String) (hl : l.length ≤ 1) :
    (if (addToSet l p).length > 1 then (addToSet l p).filter (fun q => q = p)
      else addToSet l p) = [p] := by
  cases l with
  | nil => simp [addToSet]
  | cons x t =>
    cases t with
    | cons y u => simp at hl
    | nil =>
      by_cases hxp : x = p
      · subst hxp
        simp [addToSet]
      · have hcon : ([x].contains p) = false := by
          simp
          exact fun hh => hxp hh.symm
        rw [addToSet, hcon]
        simp [hxp]

theorem ensureKey_lookupD (m : List (String × List String)) (k k' : String) :
    lookupD (ensureKey m k) k' [] = lookupD m k' [] := by
  rw [ensureKey]
  by_cases hp : (m.find? (fun p => p.1 = k)).isSome = true
  · rw [if_pos hp]
  · rw [if_neg hp]
    induction m with
    | nil =>
      rw [List.nil_append, lookupD_cons, lookupD_nil]
      by_cases hk : k = k'
      · rw [if_pos hk]
      · rw [if_neg hk]
    | cons x t ih =>
      rw [List.cons_append, lookupD_cons, lookupD_cons]
      by_cases hx : x.1 = k'
      · rw [if_pos hx, if_pos hx]
      · rw [if_neg hx, if_neg hx]
        apply ih
        intro hsome
        apply hp
        rw [List.find?_cons]
        cases hxk : decide (x.1 = k) with
        | true => simp
        | false =>
          simp only [hxk]
          exact hsome

/-- Key-wise description of the member-set cleanup map of `SetChildOf`. -/
theorem lookupD_setChild_map (l : List (String × List String)) (p n q : String) :
    lookupD (l.map fun x => if x.1 = p then x else (x.1, x.2.filter (fun c => c ≠ n))) q [] =
      if q = p then lookupD l p []
      else (lookupD l q []).filter (fun c => c ≠ n) := by
  induction l with
  | nil =>
    simp only [List.map_nil, lookupD_nil]
    by_cases hq : q = p
    · rw [if_pos hq]
    · rw [if_neg hq]
      rfl
  | cons x t ih =>
    simp only [List.map_cons]
    by_cases hx : x.1 = p
    · by_cases hq : q = p
      · simp [lookupD_cons, hx, hq]
      · have hxq : ¬ (x.1 = q) := fun hh => hq (by rw [← hh, hx])
        have hq2 : ¬ (p = q) := fun hh => hq hh.symm
        simp [lookupD_cons, hx, hq, hq2, hxq] at ih ⊢
        exact ih
    · by_cases hxq : x.1 = q
      · have hq : ¬ (q = p) := fun hh => hx (by rw [hxq, hh])
        simp [lookupD_cons, hx, hq, hxq]
      · simp [lookupD_cons, hx, hxq] at ih ⊢
        exact ih

/-- Key-wise description of the parent-set cleanup map of `SetChildOf`. -/
theorem lookupD_ctp_map (l : List (String × List String)) (n p y : String) :
    lookupD (l.map fun x =>
        if x.1 = n && decide (x.2.length > 1) then (x.1, x.2.filter (fun q => q = p)) else x)
      y [] =
      if y = n then
        (if (lookupD l n []).length > 1 then (lookupD l n []).filter (fun q => q = p)
          else lookupD l n [])
      else lookupD l y [] := by
  induction l with
  | nil =>
    simp only [List.map_nil, lookupD_nil]
    by_cases hy : y = n
    · rw [if_pos hy]
      simp
    · rw [if_neg hy]
  | cons x t ih =>
    simp only [List.map_cons]
    by_cases hx : x.1 = n
    · by_cases hlen2 : x.2.length > 1
      · by_cases hy : y = n
        · simp [lookupD_cons, hx, hy, hlen2]
        · have hxy : ¬ (x.1 = y) := by rw [hx]; exact fun hh => hy hh.symm
          have hy2 : ¬ (n = y) := fun hh => hy hh.symm
          simp [lookupD_cons, hx, hy, hy2, hxy, hlen2] at ih ⊢
          exact ih
      · by_cases hy : y = n
        · simp [lookupD_cons, hx, hy, hlen2]
        · have hxy : ¬ (x.1 = y) := by rw [hx]; exact fun hh => hy hh.symm
          have hy2 : ¬ (n = y) := fun hh => hy hh.symm
          simp [lookupD_cons, hx, hy, hy2, hxy, hlen2] at ih ⊢
          exact ih
    · by_cases hxy : x.1 = y
      · have hy : ¬ (y = n) := by rw [← hxy]; exact hx
        simp [lookupD_cons, hx, hy, hxy]
      · simp [lookupD_cons, hx, hxy] at ih ⊢
        exact ih

/-- What `SetChildOf` does to every member set: the new parent's set gains
the node, every other set loses it. -/
theorem setChildOf_members (g : GoGraph) (p n q : String) :
    membersOf (SetChildOf p n g) q =
      if q = p then addToSet (membersOf g p) n
      else (membersOf g q).filter (fun c => c ≠ n) := by
  show lookupD ((setA (ensureKey g.parentToChildren p) p
      (addToSet (lookupD (ensureKey g.parentToChildren p) p []) n)).map fun x =>
        if x.1 = p then x else (x.1, x.2.filter (fun c => c ≠ n))) q [] = _
  rw [lookupD_setChild_map]
  by_cases hq : q = p
  · rw [if_pos hq, if_pos hq, lookupD_setA_self, ensureKey_lookupD]
    rfl
  · rw [if_neg hq, if_neg hq, lookupD_setA_ne _ _ _ _ _ hq, ensureKey_lookupD]
    rfl

/-- What `SetChildOf` does to every parent set: the node's set collapses to
its new parent (given it had at most one before), all others are kept. -/
theorem setChildOf_parents (g : GoGraph) (p n y : String) :
    parentsOf (SetChildOf p n g) y =
      if y = n then
        (if (addToSet (parentsOf g n) p).length > 1 then
          (addToSet (parentsOf g n) p).filter (fun q => q = p)
        else addToSet (parentsOf g n) p)
      else parentsOf g y := by
  show lookupD ((setA (ensureKey g.childToParents n) n
      (addToSet (lookupD (ensureKey g.childToParents n) n []) p)).map fun x =>
        if x.1 = n && decide (x.2.length > 1) then (x.1, x.2.filter (fun q => q = p)) else x)
      y [] = _
  rw [lookupD_ctp_map, lookupD_setA_self, ensureKey_lookupD]
  by_cases hy : y = n
  · rw [if_pos hy, if_pos hy]
    rfl
  · rw [if_neg hy, if_neg hy, lookupD_setA_ne _ _ _ _ _ hy, ensureKey_lookupD]
    rfl

/-- What `gographviz.Relations.Add` (via `AddSubGraph`) does to member and
parent sets. -/
theorem addSubGraph_members (g : GoGraph) (par nm : String)
    (attrs : List (String × String)) (q : String) :
    membersOf (AddSubGraph par nm attrs g) q =
      if q = par then addToSet (membersOf g par) nm else membersOf g q := by
  show lookupD (setA g.parentToChildren par (addToSet (lookupD g.parentToChildren par []) nm))
      q [] = _
  by_cases hq : q = par
  · rw [if_pos hq, hq, lookupD_setA_self]
    rfl
  · rw [if_neg hq, lookupD_setA_ne _ _ _ _ _ hq]
    rfl

theorem addSubGraph_parents (g : GoGraph) (par nm : String)
    (attrs : List (String × String)) (y : String) :
    parentsOf (AddSubGraph par nm attrs g) y =
      if y = nm then addToSet (parentsOf g nm) par else parentsOf g y := by
  show lookupD (setA g.childToParents nm (addToSet (lookupD g.childToParents nm []) par))
      y [] = _
  by_cases hy : y = nm
  · rw [if_pos hy, hy, lookupD_setA_self]
    rfl
  · rw [if_neg hy, lookupD_setA_ne _ _ _ _ _ hy]
    rfl

theorem isPrefixOf_append_self : ∀ (p t : List Char), p.isPrefixOf (p ++ t) = true := by
  intro p
  induction p with
  | nil =>
    intro t
    cases t <;> rfl
  | cons a p' ih =>
    intro t
    rw [List.cons_append]
    simp [List.isPrefixOf, ih t]

theorem clusterName_pfx (s : String) :
    strStartsWith ("\"cluster_" ++ s ++ "\"") "\"cluster_" = true := by
  rw [strStartsWith, toList_append, toList_append, List.append_assoc]
  exact isPrefixOf_append_self _ _

theorem clusterName_inj (u v : String)
    (h : ("\"cluster_" ++ u ++ "\"" : String) = "\"cluster_" ++ v ++ "\"") : u = v := by
  have h2 : ("\"cluster_" ++ u ++ "\"" : String).toList =
      ("\"cluster_" ++ v ++ "\"" : String).toList := congrArg String.toList h
  rw [toList_append, toList_append, toList_append, toList_append, List.append_assoc,
    List.append_assoc] at h2
  have h3 := List.append_cancel_left h2
  have h4 := List.append_cancel_right h3
  have h5 := congrArg String.mk h4
  rw [mk_toList, mk_toList] at h5
  exact h5

theorem plain_ne_cluster (x c : String) (hx : strStartsWith x "\"cluster_" = false)
    (hc : strStartsWith c "\"cluster_" = true) : x ≠ c := by
  intro h
  rw [← h] at hc
  rw [hx] at hc
  exact Bool.false_ne_true hc

theorem setChildOf_d2s (g : GoGraph) (p n : String) :
    (SetChildOf p n g).dstToSrcs = g.dstToSrcs := rfl

theorem addSubGraph_d2s (g : GoGraph) (par nm : String) (attrs : List (String × String)) :
    (AddSubGraph par nm attrs g).dstToSrcs = g.dstToSrcs := rfl

theorem setChildOf_singleParent (g : GoGraph) (p n : String) (hsp : SingleParent g) :
    SingleParent (SetChildOf p n g) := by
  intro c q1 q2 hne h1 h2
  rw [setChildOf_members] at h1 h2
  by_cases hq1 : q1 = p
  · rw [if_pos hq1] at h1
    by_cases hq2 : q2 = p
    · exact hne (hq1.trans hq2.symm)
    · rw [if_neg hq2] at h2
      have h2' := List.mem_filter.mp h2
      have hcn : ¬ (c = n) := by simpa using h2'.2
      rcases addToSet_mem _ _ _ h1 with h1' | h1'
      · exact hsp c p q2 (fun hh => hq2 hh.symm) h1' h2'.1
      · exact hcn h1'
  · rw [if_neg hq1] at h1
    have h1' := List.mem_filter.mp h1
    have hcn : ¬ (c = n) := by simpa using h1'.2
    by_cases hq2 : q2 = p
    · rw [if_pos hq2] at h2
      rcases addToSet_mem _ _ _ h2 with h2' | h2'
      · exact hsp c q1 p hq1 h1'.1 h2'
      · exact hcn h2'
    · rw [if_neg hq2] at h2
      have h2' := List.mem_filter.mp h2
      exact hsp c q1 q2 hne h1'.1 h2'.1

theorem setChildOf_parentsAtMostOne (g : GoGraph) (p n : String)
    (hp1 : ParentsAtMostOne g) : ParentsAtMostOne (SetChildOf p n g) := by
  intro c
  rw [setChildOf_parents]
  by_cases hc : c = n
  · rw [if_pos hc, addToSet_trunc _ _ (hp1 n)]
    simp
  · rw [if_neg hc]
    exact hp1 c

theorem setChildOf_fresh (g : GoGraph) (p n s : String) (hsn : s ≠ n)
    (hmem : ∀ q, s ∉ membersOf g q) (hpar : parentsOf g s = []) :
    (∀ q, s ∉ membersOf (SetChildOf p n g) q) ∧ parentsOf (SetChildOf p n g) s = [] := by
  constructor
  · intro q hq
    rw [setChildOf_members] at hq
    by_cases hqp : q = p
    · rw [if_pos hqp] at hq
      rcases addToSet_mem _ _ _ hq with h | h
      · exact hmem p h
      · exact hsn h
    · rw [if_neg hqp] at hq
      exact hmem q (List.mem_filter.mp hq).1
  · rw [setChildOf_parents, if_neg hsn]
    exact hpar

theorem addSubGraph_singleParent (g : GoGraph) (par nm : String)
    (attrs : List (String × String)) (hsp : SingleParent g)
    (hfresh : ∀ q, nm ∉ membersOf g q) : SingleParent (AddSubGraph par nm attrs g) := by
  intro c q1 q2 hne h1 h2
  rw [addSubGraph_members] at h1 h2
  by_cases hq1 : q1 = par
  · rw [if_pos hq1] at h1
    by_cases hq2 : q2 = par
    · exact hne (hq1.trans hq2.symm)
    · rw [if_neg hq2] at h2
      rcases addToSet_mem _ _ _ h1 with h1' | h1'
      · exact hsp c par q2 (fun hh => hq2 hh.symm) h1' h2
      · rw [h1'] at h2
        exact hfresh q2 h2
  · rw [if_neg hq1] at h1
    by_cases hq2 : q2 = par
    · rw [if_pos hq2] at h2
      rcases addToSet_mem _ _ _ h2 with h2' | h2'
      · exact hsp c q1 par hq1 h1 h2'
      · rw [h2'] at h1
        exact hfresh q1 h1
    · rw [if_neg hq2] at h2
      exact hsp c q1 q2 hne h1 h2

theorem addSubGraph_parentsAtMostOne (g : GoGraph) (par nm : String)
    (attrs : List (String × String)) (hp1 : ParentsAtMostOne g)
    (hpar : parentsOf g nm = []) : ParentsAtMostOne (AddSubGraph par nm attrs g) := by
  intro c
  rw [addSubGraph_parents]
  by_cases hc : c = nm
  · rw [if_pos hc, hpar]
    simp [addToSet]
  · rw [if_neg hc]
    exact hp1 c

theorem addSubGraph_fresh (g : GoGraph) (par nm : String) (attrs : List (String × String))
    (s : String) (hsnm : s ≠ nm)
    (hmem : ∀ q, s ∉ membersOf g q) (hpar : parentsOf g s = []) :
    (∀ q, s ∉ membersOf (AddSubGraph par nm attrs g) q) ∧
      parentsOf (AddSubGraph par nm attrs g) s = [] := by
  constructor
  · intro q hq
    rw [addSubGraph_members] at hq
    by_cases hqp : q = par
    · rw [if_pos hqp] at hq
      rcases addToSet_mem _ _ _ hq with h | h
      · exact hmem par h
      · exact hsnm h
    · rw [if_neg hqp] at hq
      exact hmem q hq
  · rw [addSubGraph_parents, if_neg hsnm]
    exact hpar

/-- Every name the reverse reachability closure returns is an accumulator
entry, the start node, or an inner key of `DstToSrcs`. -/
theorem reachNode_mem (g : GoGraph) :
    ∀ (fuel : Nat) (acc : List String) (n x : String), x ∈ reachNode g fuel acc n →
      x ∈ acc ∨ x = n ∨ ∃ p ∈ g.dstToSrcs, ∃ q ∈ p.2, x = q.1 := by
  intro fuel
  induction fuel with
  | zero => intro acc n x hx; exact Or.inl hx
  | succ f ih =>
    intro acc n x hx
    rw [reachNode] at hx
    by_cases hc : acc.contains n = true
    · rw [if_pos hc] at hx
      exact Or.inl hx
    · rw [if_neg hc] at hx
      have hsub : ∀ (l : List String) (a : List String),
          (∀ y ∈ l, ∃ p ∈ g.dstToSrcs, ∃ q ∈ p.2, y = q.1) →
          ∀ z, z ∈ stringFold (reachNode g f) a l →
            z ∈ a ∨ ∃ p ∈ g.dstToSrcs, ∃ q ∈ p.2, z = q.1 := by
        intro l
        induction l with
        | nil => intro a _ z hz; exact Or.inl hz
        | cons y t iht =>
          intro a hl z hz
          rw [stringFold] at hz
          rcases iht (reachNode g f a y) (fun w hw => hl w (List.mem_cons_of_mem _ hw)) z hz
            with hz1 | hz1
          · rcases ih a y z hz1 with h | h | h
            · exact Or.inl h
            · exact Or.inr (h ▸ hl y (List.mem_cons_self _ _))
            · exact Or.inr h
          · exact Or.inr hz1
      rcases hsub ((lookupD g.dstToSrcs n []).map (·.1)) (acc ++ [n]) (by
          intro y hy
          obtain ⟨q, hq, hyq⟩ := List.mem_map.mp hy
          rcases lookupD_cases g.dstToSrcs n [] with h0 | ⟨p, hp, hpk, hpv⟩
          · rw [h0] at hq
            exact absurd hq (List.not_mem_nil q)
          · exact ⟨p, hp, q, by rw [← hpv]; exact hq, hyq.symm⟩) x hx with h | h
      · rcases List.mem_append.mp h with h1 | h1
        · exact Or.inl h1
        · exact Or.inr (Or.inl (by simpa using h1))
      · exact Or.inr (Or.inr h)

/-- Folding `SetChildOf` over a worklist of plain (non-cluster) names keeps
both invariants and the freshness of every untouched cluster name, and
never changes the reverse edge index. -/
theorem setChildFold_inv (c : String) :
    ∀ (RL : List String), (∀ rn ∈ RL, strStartsWith rn "\"cluster_" = false) →
    ∀ (S : List String), (∀ s ∈ S, strStartsWith s "\"cluster_" = true) →
    ∀ (G : GoGraph),
      SingleParent G → ParentsAtMostOne G →
      (∀ s ∈ S, (∀ q, s ∉ membersOf G q) ∧ parentsOf G s = []) →
      SingleParent (RL.foldl (fun g2 rn => SetChildOf c rn g2) G) ∧
      ParentsAtMostOne (RL.foldl (fun g2 rn => SetChildOf c rn g2) G) ∧
      (∀ s ∈ S, (∀ q, s ∉ membersOf (RL.foldl (fun g2 rn => SetChildOf c rn g2) G) q) ∧
        parentsOf (RL.foldl (fun g2 rn => SetChildOf c rn g2) G) s = []) ∧
      (RL.foldl (fun g2 rn => SetChildOf c rn g2) G).dstToSrcs = G.dstToSrcs := by
  intro RL
  induction RL with
  | nil =>
    intro _ S hS G hsp hp1 hfr
    exact ⟨hsp, hp1, hfr, rfl⟩
  | cons rn rest ih =>
    intro hplain S hS G hsp hp1 hfr
    rw [List.foldl_cons]
    have hrec := ih (fun z hz => hplain z (List.mem_cons_of_mem _ hz)) S hS
      (SetChildOf c rn G)
      (setChildOf_singleParent G c rn hsp)
      (setChildOf_parentsAtMostOne G c rn hp1)
      (fun s hs => setChildOf_fresh G c rn s
        ((plain_ne_cluster rn s (hplain rn (List.mem_cons_self _ _)) (hS s hs)).symm)
        (hfr s hs).1 (hfr s hs).2)
    exact ⟨hrec.1, hrec.2.1, hrec.2.2.1, by rw [hrec.2.2.2]; rfl⟩

/-- Folding `betaCreateStep` over a worklist of plain names with pairwise
distinct cleaned names keeps both invariants. -/
theorem betaFold_inv (g0 : GoGraph)
    (hplain0 : ∀ p ∈ g0.dstToSrcs, ∀ q ∈ p.2, strStartsWith q.1 "\"cluster_" = false) :
    ∀ (L : List String) (gg : GoGraph),
      gg.dstToSrcs = g0.dstToSrcs →
      (∀ x ∈ L, strStartsWith x "\"cluster_" = false) →
      List.Pairwise (fun u v => trimQuotes u ≠ trimQuotes v) L →
      SingleParent gg → ParentsAtMostOne gg →
      (∀ x ∈ L, (∀ q, ("\"cluster_" ++ trimQuotes x ++ "\"") ∉ membersOf gg q) ∧
        parentsOf gg ("\"cluster_" ++ trimQuotes x ++ "\"") = []) →
      SingleParent (L.foldl betaCreateStep gg) ∧
        ParentsAtMostOne (L.foldl betaCreateStep gg) := by
  intro L
  induction L with
  | nil =>
    intro gg _ _ _ hsp hp1 _
    exact ⟨hsp, hp1⟩
  | cons x rest ih =>
    intro gg hd2s hplain hpair hsp hp1 hfr
    rw [List.foldl_cons]
    obtain ⟨hpairx, hpairrest⟩ := List.pairwise_cons.mp hpair
    by_cases hgl : groupingLabels.contains ((splitDot (trimQuotes x)).headD "") = true
    · have hstep : betaCreateStep gg x =
          (findAllReachingNodes x (AddSubGraph (FindNodeParent x gg)
              ("\"cluster_" ++ trimQuotes x ++ "\"")
              [("label", "\"cluster_" ++ trimQuotes x ++ "\"")] gg)).foldl
            (fun g2 rn => SetChildOf ("\"cluster_" ++ trimQuotes x ++ "\"") rn g2)
            (AddSubGraph (FindNodeParent x gg) ("\"cluster_" ++ trimQuotes x ++ "\"")
              [("label", "\"cluster_" ++ trimQuotes x ++ "\"")] gg) := by
        simp only [betaCreateStep]
        rw [if_pos hgl]
      have hfrx := hfr x (List.mem_cons_self _ _)
      have hG1sp := addSubGraph_singleParent gg (FindNodeParent x gg)
        ("\"cluster_" ++ trimQuotes x ++ "\"")
        [("label", "\"cluster_" ++ trimQuotes x ++ "\"")] hsp hfrx.1
      have hG1p1 := addSubGraph_parentsAtMostOne gg (FindNodeParent x gg)
        ("\"cluster_" ++ trimQuotes x ++ "\"")
        [("label", "\"cluster_" ++ trimQuotes x ++ "\"")] hp1 hfrx.2
      have hG1d2s : (AddSubGraph (FindNodeParent x gg) ("\"cluster_" ++ trimQuotes x ++ "\"")
          [("label", "\"cluster_" ++ trimQuotes x ++ "\"")] gg).dstToSrcs = g0.dstToSrcs := by
        rw [addSubGraph_d2s, hd2s]
      have hreachPlain : ∀ rn ∈ findAllReachingNodes x
          (AddSubGraph (FindNodeParent x gg) ("\"cluster_" ++ trimQuotes x ++ "\"")
            [("label", "\"cluster_" ++ trimQuotes x ++ "\"")] gg),
          strStartsWith rn "\"cluster_" = false := by
        intro rn hrn
        rw [findAllReachingNodes] at hrn
        rcases reachNode_mem _ _ _ _ _ hrn with h | h | h
        · exact absurd h (List.not_mem_nil rn)
        · rw [h]
          exact hplain x (List.mem_cons_self _ _)
        · obtain ⟨p, hp, q, hq, hrq⟩ := h
          rw [hG1d2s] at hp
          rw [hrq]
          exact hplain0 p hp q hq
      have hSfresh : ∀ s ∈ rest.map (fun y => "\"cluster_" ++ trimQuotes y ++ "\""),
          (∀ q, s ∉ membersOf (AddSubGraph (FindNodeParent x gg)
            ("\"cluster_" ++ trimQuotes x ++ "\"")
            [("label", "\"cluster_" ++ trimQuotes x ++ "\"")] gg) q) ∧
          parentsOf (AddSubGraph (FindNodeParent x gg)
            ("\"cluster_" ++ trimQuotes x ++ "\"")
            [("label", "\"cluster_" ++ trimQuotes x ++ "\"")] gg) s = [] := by
        intro s hs
        obtain ⟨y, hy, hys⟩ := List.mem_map.mp hs
        have hyne : s ≠ "\"cluster_" ++ trimQuotes x ++ "\"" := by
          rw [← hys]
          intro heq
          exact hpairx y hy (clusterName_inj _ _ heq).symm
        exact addSubGraph_fresh gg _ _ _ s hyne
          (by rw [← hys]; exact (hfr y (List.mem_cons_of_mem _ hy)).1)
          (by rw [← hys]; exact (hfr y (List.mem_cons_of_mem _ hy)).2)
      have hin := setChildFold_inv ("\"cluster_" ++ trimQuotes x ++ "\"") _ hreachPlain
        (rest.map (fun y => "\"cluster_" ++ trimQuotes y ++ "\""))
        (by
          intro s hs
          obtain ⟨y, hy, hys⟩ := List.mem_map.mp hs
          rw [← hys]
          exact clusterName_pfx _)
        _ hG1sp hG1p1 hSfresh
      rw [hstep]
      apply ih
      · rw [hin.2.2.2]
        exact hG1d2s
      · exact fun z hz => hplain z (List.mem_cons_of_mem _ hz)
      · exact hpairrest
      · exact hin.1
      · exact hin.2.1
      · intro y hy
        exact hin.2.2.1 _ (List.mem_map.mpr ⟨y, hy, rfl⟩)
    · have hstep : betaCreateStep gg x = gg := by
        simp only [betaCreateStep]
        rw [if_neg hgl]
      rw [hstep]
      exact ih gg hd2s (fun z hz => hplain z (List.mem_cons_of_mem _ hz)) hpairrest hsp hp1
        (fun y hy => hfr y (List.mem_cons_of_mem _ hy))

/-- C5: after containment clustering, no entity is reported as a member by
two different parents and every entity has at most one recorded parent
(provided the input graph already satisfies both, its node/edge names are
not cluster-named, and the visited nodes have pairwise distinct cleaned
names); and `SetChildOf` removes the re-parented entity from every other
parent's member set. -/
theorem claim_C5_single_parent (g : GoGraph)
    (h1 : singleParentB g = true)
    (h2 : parentsAtMostOneB g = true)
    (h3 : ∀ p ∈ g.dstToSrcs, ∀ q ∈ p.2, strStartsWith q.1 "\"cluster_" = false)
    (h4 : ∀ x ∈ BFS g (findRootNode g), strStartsWith x "\"cluster_" = false)
    (h5 : List.Pairwise (fun u v => trimQuotes u ≠ trimQuotes v) (BFS g (findRootNode g)))
    (h6 : ∀ x ∈ BFS g (findRootNode g),
      notMemberAnywhereB g ("\"cluster_" ++ trimQuotes x ++ "\"") = true ∧
      lookupD g.childToParents ("\"cluster_" ++ trimQuotes x ++ "\"") [] = []) :
    (SingleParent (BetaCreateSubgraphsForGroupingNodes g) ∧
      ParentsAtMostOne (BetaCreateSubgraphsForGroupingNodes g)) ∧
    ∀ (g2 : GoGraph) (p n q : String), q ≠ p → n ∉ membersOf (SetChildOf p n g2) q := by
  constructor
  · rw [BetaCreateSubgraphsForGroupingNodes]
    exact betaFold_inv g h3 (BFS g (findRootNode g)) g rfl h4 h5
      (singleParentB_sound g h1) (parentsAtMostOneB_sound g h2)
      (fun x hx => ⟨notMemberAnywhereB_sound g _ (h6 x hx).1, (h6 x hx).2⟩)
  · intro g2 p n q hqp hn
    rw [setChildOf_members, if_neg hqp] at hn
    have hn2 := (List.mem_filter.mp hn).2
    simp at hn2

/-- A virtual machine depending on a subnet: the subnet is a grouping-type
node, so clustering creates a cluster and re-parents the machine into
it. -/
def c5Graph : GoGraph :=
  fixtureGraph
    [("\"azurerm_subnet.s1\"", "azurerm_subnet.s1"),
     ("\"azurerm_linux_virtual_machine.vm\"", "azurerm_linux_virtual_machine.vm")]
    [("\"azurerm_linux_virtual_machine.vm\"", "\"azurerm_subnet.s1\"")]

theorem claim_C5_single_parent_witness :
    singleParentB c5Graph = true ∧
    (SingleParent (BetaCreateSubgraphsForGroupingNodes c5Graph) ∧
      ParentsAtMostOne (BetaCreateSubgraphsForGroupingNodes c5Graph)) ∧
    (∀ (g2 : GoGraph) (p n q : String), q ≠ p → n ∉ membersOf (SetChildOf p n g2) q) := by
  have h := claim_C5_single_parent c5Graph (by decide) (by decide) (by decide) (by decide)
    (by decide) (by decide)
  exact ⟨by decide, h.1, h.2⟩

/-! ## C2: conservation of instance expansion -/

/-- The edge records the instance loops append for a list of instance
addresses: for each address, one copy of every current outgoing edge of
the template (from the instance) followed by one copy of every current
incoming edge (to the instance). -/
def expandBlocks (node label : String) (Lout Lin : List GoEdge) : List String → List GoEdge
  | [] => []
  | rn :: rest =>
    Lout.map (fun e => { src := replaceFirst node label rn, dst := e.dst }) ++
      (Lin.map (fun e => { src := e.src, dst := replaceFirst node label rn }) ++
        expandBlocks node label Lout Lin rest)

/-- The specification's expansion-conservation property, stated over the
graph `expandTemplate` produces: (1) the node list keeps every non-template
node and appends exactly one node per instance address, carrying the
template's attributes with the label overwritten; (2) the edge list keeps
every edge not incident to the template and appends exactly the per-instance
copies of the template's outgoing and incoming edge slices; (3) each
instance's out-degree (resp. in-degree) in the flat edge list equals the
template's indexed out-degree d (resp. in-degree i) — so the instance set
carries n·d outgoing and n·i incoming edges; (4) the template node is gone;
(5) no edge incident to the template remains. -/
def ExpansionConserves (g : GoGraph) (node label parentGraph : String) (nd : GoNode)
    (resourceNames : List String) : Prop :=
  (expandTemplate node label parentGraph resourceNames g).nodes =
      g.nodes.filter (fun nd2 => nd2.name ≠ node) ++
        resourceNames.map (fun rn =>
          { name := replaceFirst node label rn,
            attrs := setA nd.attrs "label" ("\"" ++ rn ++ "\"") }) ∧
  (expandTemplate node label parentGraph resourceNames g).edges =
      g.edges.filter (fun e => !(e.src = node || e.dst = node)) ++
        expandBlocks node label (edgesAt g node) (edgesInAt g node) resourceNames ∧
  (∀ rn ∈ resourceNames,
    ((expandTemplate node label parentGraph resourceNames g).edges.filter
        (fun e => e.src = replaceFirst node label rn)).length = (edgesAt g node).length ∧
    ((expandTemplate node label parentGraph resourceNames g).edges.filter
        (fun e => e.dst = replaceFirst node label rn)).length = (edgesInAt g node).length) ∧
  findNode? (expandTemplate node label parentGraph resourceNames g) node = none ∧
  ((expandTemplate node label parentGraph resourceNames g).edges.filter
      (fun e => e.src = node || e.dst = node)).length = 0

theorem find?_append_some {α : Type} (l1 l2 : List α) (p : α → Bool) (a : α)
    (h : l1.find? p = some a) : (l1 ++ l2).find? p = some a := by
  induction l1 with
  | nil => simp at h
  | cons x t ih =>
    cases hx : p x with
    | true =>
      rw [List.find?_cons_of_pos _ hx] at h
      rw [List.cons_append, List.find?_cons_of_pos _ hx]
      exact h
    | false =>
      rw [List.find?_cons_of_neg _ (by rw [hx]; exact Bool.false_ne_true)] at h
      rw [List.cons_append, List.find?_cons_of_neg _ (by rw [hx]; exact Bool.false_ne_true)]
      exact ih h

theorem find?_append_none {α : Type} (l1 l2 : List α) (p : α → Bool)
    (h : l1.find? p = none) : (l1 ++ l2).find? p = l2.find? p := by
  induction l1 with
  | nil => rfl
  | cons x t ih =>
    cases hx : p x with
    | true =>
      rw [List.find?_cons_of_pos _ hx] at h
      exact absurd h (by simp)
    | false =>
      rw [List.find?_cons_of_neg _ (by rw [hx]; exact Bool.false_ne_true)] at h
      rw [List.cons_append, List.find?_cons_of_neg _ (by rw [hx]; exact Bool.false_ne_true)]
      exact ih h

theorem addNode_edges (g : GoGraph) (par nm : String) (attrs : List (String × String)) :
    (AddNode par nm attrs g).edges = g.edges := rfl

theorem addNode_s2d (g : GoGraph) (par nm : String) (attrs : List (String × String)) :
    (AddNode par nm attrs g).srcToDsts = g.srcToDsts := rfl

theorem addNode_d2s (g : GoGraph) (par nm : String) (attrs : List (String × String)) :
    (AddNode par nm attrs g).dstToSrcs = g.dstToSrcs := rfl

theorem addNode_nodes_fresh (g : GoGraph) (par nm : String) (attrs : List (String × String))
    (h : (g.nodes.find? (fun nd => nd.name = nm)).isSome = false) :
    (AddNode par nm attrs g).nodes = g.nodes ++ [{ name := nm, attrs := attrs }] := by
  have heq : (AddNode par nm attrs g).nodes =
      if (g.nodes.find? (fun nd => nd.name = nm)).isSome = true then
        g.nodes.map fun nd => if nd.name = nm then { nd with attrs := attrs } else nd
      else g.nodes ++ [{ name := nm, attrs := attrs }] := rfl
  rw [heq, if_neg (by rw [h]; exact Bool.false_ne_true)]

theorem addEdge_edges (a b : String) (g : GoGraph) :
    (AddEdge a b g).edges = g.edges ++ [{ src := a, dst := b }] := rfl

theorem addEdge_nodes (a b : String) (g : GoGraph) : (AddEdge a b g).nodes = g.nodes := rfl

theorem addEdge_s2d_ne (a b : String) (g : GoGraph) (k : String) (h : k ≠ a) :
    lookupD (AddEdge a b g).srcToDsts k [] = lookupD g.srcToDsts k [] := by
  show lookupD (addEdgeIdx g.srcToDsts a b _) k [] = _
  rw [addEdgeIdx, lookupD_setA_ne _ _ _ _ _ h]

theorem addEdge_d2s_ne (a b : String) (g : GoGraph) (k : String) (h : k ≠ b) :
    lookupD (AddEdge a b g).dstToSrcs k [] = lookupD g.dstToSrcs k [] := by
  show lookupD (addEdgeIdx g.dstToSrcs b a _) k [] = _
  rw [addEdgeIdx, lookupD_setA_ne _ _ _ _ _ h]

/-- The inner loop duplicating the template's outgoing slice onto one
instance: appended edges, untouched nodes, and untouched index rows. -/
theorem addEdgesOut_inner (a : String) (es : List GoEdge) :
    ∀ gg : GoGraph,
      (es.foldl (fun gg2 e => AddEdge a e.dst gg2) gg).nodes = gg.nodes ∧
      (es.foldl (fun gg2 e => AddEdge a e.dst gg2) gg).edges =
        gg.edges ++ es.map (fun e => { src := a, dst := e.dst }) ∧
      (∀ k, k ≠ a →
        lookupD (es.foldl (fun gg2 e => AddEdge a e.dst gg2) gg).srcToDsts k [] =
          lookupD gg.srcToDsts k []) ∧
      (∀ k, (∀ e ∈ es, e.dst ≠ k) →
        lookupD (es.foldl (fun gg2 e => AddEdge a e.dst gg2) gg).dstToSrcs k [] =
          lookupD gg.dstToSrcs k []) := by
  induction es with
  | nil => intro gg; exact ⟨rfl, by simp, fun k _ => rfl, fun k _ => rfl⟩
  | cons e t ih =>
    intro gg
    rw [List.foldl_cons]
    obtain ⟨h1, h2, h3, h4⟩ := ih (AddEdge a e.dst gg)
    refine ⟨?_, ?_, ?_, ?_⟩
    · rw [h1, addEdge_nodes]
    · rw [h2, addEdge_edges, List.map_cons]
      simp [List.append_assoc]
    · intro k hk
      rw [h3 k hk, addEdge_s2d_ne _ _ _ _ hk]
    · intro k hk
      rw [h4 k (fun e2 he2 => hk e2 (List.mem_cons_of_mem _ he2)),
        addEdge_d2s_ne _ _ _ _ (Ne.symm (hk e (List.mem_cons_self _ _)))]

/-- The inner loop duplicating the template's incoming slice onto one
instance. -/
theorem addEdgesIn_inner (a : String) (es : List GoEdge) :
    ∀ gg : GoGraph,
      (es.foldl (fun gg2 e => AddEdge e.src a gg2) gg).nodes = gg.nodes ∧
      (es.foldl (fun gg2 e => AddEdge e.src a gg2) gg).edges =
        gg.edges ++ es.map (fun e => { src := e.src, dst := a }) ∧
      (∀ k, (∀ e ∈ es, e.src ≠ k) →
        lookupD (es.foldl (fun gg2 e => AddEdge e.src a gg2) gg).srcToDsts k [] =
          lookupD gg.srcToDsts k []) ∧
      (∀ k, k ≠ a →
        lookupD (es.foldl (fun gg2 e => AddEdge e.src a gg2) gg).dstToSrcs k [] =
          lookupD gg.dstToSrcs k []) := by
  induction es with
  | nil => intro gg; exact ⟨rfl, by simp, fun k _ => rfl, fun k _ => rfl⟩
  | cons e t ih =>
    intro gg
    rw [List.foldl_cons]
    obtain ⟨h1, h2, h3, h4⟩ := ih (AddEdge e.src a gg)
    refine ⟨?_, ?_, ?_, ?_⟩
    · rw [h1, addEdge_nodes]
    · rw [h2, addEdge_edges, List.map_cons]
      simp [List.append_assoc]
    · intro k hk
      rw [h3 k (fun e2 he2 => hk e2 (List.mem_cons_of_mem _ he2)),
        addEdge_s2d_ne _ _ _ _ (Ne.symm (hk e (List.mem_cons_self _ _)))]
    · intro k hk
      rw [h4 k hk, addEdge_d2s_ne _ _ _ _ hk]

/-- The outgoing-edge loop over the nested `SrcToDsts[node]` rows. -/
theorem addEdgesOut_outer (a : String) (entries : List (String × List GoEdge)) :
    ∀ gg : GoGraph,
      (entries.foldl (fun gg p => p.2.foldl (fun gg2 e => AddEdge a e.dst gg2) gg) gg).nodes =
        gg.nodes ∧
      (entries.foldl (fun gg p => p.2.foldl (fun gg2 e => AddEdge a e.dst gg2) gg) gg).edges =
        gg.edges ++ (entries.foldr (fun p acc => p.2 ++ acc) []).map
          (fun e => { src := a, dst := e.dst }) ∧
      (∀ k, k ≠ a →
        lookupD (entries.foldl (fun gg p => p.2.foldl (fun gg2 e => AddEdge a e.dst gg2) gg)
          gg).srcToDsts k [] = lookupD gg.srcToDsts k []) ∧
      (∀ k, (∀ e ∈ entries.foldr (fun p acc => p.2 ++ acc) [], e.dst ≠ k) →
        lookupD (entries.foldl (fun gg p => p.2.foldl (fun gg2 e => AddEdge a e.dst gg2) gg)
          gg).dstToSrcs k [] = lookupD gg.dstToSrcs k []) := by
  induction entries with
  | nil => intro gg; exact ⟨rfl, by simp, fun k _ => rfl, fun k _ => rfl⟩
  | cons p t ih =>
    intro gg
    rw [List.foldl_cons]
    obtain ⟨h1, h2, h3, h4⟩ := ih (p.2.foldl (fun gg2 e => AddEdge a e.dst gg2) gg)
    obtain ⟨g1, g2, g3, g4⟩ := addEdgesOut_inner a p.2 gg
    refine ⟨?_, ?_, ?_, ?_⟩
    · rw [h1, g1]
    · rw [h2, g2, List.foldr_cons, List.map_append]
      simp [List.append_assoc]
    · intro k hk
      rw [h3 k hk, g3 k hk]
    · intro k hk
      rw [h4 k (fun e2 he2 => hk e2 (by
          rw [List.foldr_cons]
          exact List.mem_append.mpr (Or.inr he2))),
        g4 k (fun e2 he2 => hk e2 (by
          rw [List.foldr_cons]
          exact List.mem_append.mpr (Or.inl he2)))]

/-- The incoming-edge loop over the nested `DstToSrcs[node]` rows. -/
theorem addEdgesIn_outer (a : String) (entries : List (String × List GoEdge)) :
    ∀ gg : GoGraph,
      (entries.foldl (fun gg p => p.2.foldl (fun gg2 e => AddEdge e.src a gg2) gg) gg).nodes =
        gg.nodes ∧
      (entries.foldl (fun gg p => p.2.foldl (fun gg2 e => AddEdge e.src a gg2) gg) gg).edges =
        gg.edges ++ (entries.foldr (fun p acc => p.2 ++ acc) []).map
          (fun e => { src := e.src, dst := a }) ∧
      (∀ k, (∀ e ∈ entries.foldr (fun p acc => p.2 ++ acc) [], e.src ≠ k) →
        lookupD (entries.foldl (fun gg p => p.2.foldl (fun gg2 e => AddEdge e.src a gg2) gg)
          gg).srcToDsts k [] = lookupD gg.srcToDsts k []) ∧
      (∀ k, k ≠ a →
        lookupD (entries.foldl (fun gg p => p.2.foldl (fun gg2 e => AddEdge e.src a gg2) gg)
          gg).dstToSrcs k [] = lookupD gg.dstToSrcs k []) := by
  induction entries with
  | nil => intro gg; exact ⟨rfl, by simp, fun k _ => rfl, fun k _ => rfl⟩
  | cons p t ih =>
    intro gg
    rw [List.foldl_cons]
    obtain ⟨h1, h2, h3, h4⟩ := ih (p.2.foldl (fun gg2 e => AddEdge e.src a gg2) gg)
    obtain ⟨g1, g2, g3, g4⟩ := addEdgesIn_inner a p.2 gg
    refine ⟨?_, ?_, ?_, ?_⟩
    · rw [h1, g1]
    · rw [h2, g2, List.foldr_cons, List.map_append]
      simp [List.append_assoc]
    · intro k hk
      rw [h3 k (fun e2 he2 => hk e2 (by
          rw [List.foldr_cons]
          exact List.mem_append.mpr (Or.inr he2))),
        g3 k (fun e2 he2 => hk e2 (by
          rw [List.foldr_cons]
          exact List.mem_append.mpr (Or.inl he2)))]
    · intro k hk
      rw [h4 k hk, g4 k hk]

theorem filter_none {α : Type} (l : List α) (p : α → Bool) (h : ∀ x ∈ l, p x = false) :
    l.filter p = [] := by
  induction l with
  | nil => rfl
  | cons x t ih =>
    rw [List.filter_cons, h x (List.mem_cons_self _ _)]
    exact ih fun y hy => h y (List.mem_cons_of_mem _ hy)

theorem filter_all {α : Type} (l : List α) (p : α → Bool) (h : ∀ x ∈ l, p x = true) :
    l.filter p = l := by
  induction l with
  | nil => rfl
  | cons x t ih =>
    rw [List.filter_cons, h x (List.mem_cons_self _ _)]
    simp [ih fun y hy => h y (List.mem_cons_of_mem _ hy)]

theorem removeNode_nodes (n : String) (g : GoGraph) :
    (RemoveNode n g).nodes = g.nodes.filter (fun nd => nd.name ≠ n) := rfl

theorem removeNode_edges (n : String) (g : GoGraph) :
    (RemoveNode n g).edges = g.edges.filter (fun e => !(e.src = n || e.dst = n)) := rfl

theorem expandBlocks_append (node label : String) (Lout Lin : List GoEdge) :
    ∀ (L1 L2 : List String),
      expandBlocks node label Lout Lin (L1 ++ L2) =
        expandBlocks node label Lout Lin L1 ++ expandBlocks node label Lout Lin L2 := by
  intro L1
  induction L1 with
  | nil => intro L2; rfl
  | cons rn t ih =>
    intro L2
    rw [List.cons_append, expandBlocks, expandBlocks, ih]
    simp [List.append_assoc]

theorem expandBlocks_mem (node label : String) (Lout Lin : List GoEdge) :
    ∀ (L : List String) (x : GoEdge), x ∈ expandBlocks node label Lout Lin L →
      ∃ rn ∈ L, (∃ e ∈ Lout, x = { src := replaceFirst node label rn, dst := e.dst }) ∨
        (∃ e ∈ Lin, x = { src := e.src, dst := replaceFirst node label rn }) := by
  intro L
  induction L with
  | nil => intro x hx; exact absurd hx (List.not_mem_nil x)
  | cons rn t ih =>
    intro x hx
    rw [expandBlocks] at hx
    rcases List.mem_append.mp hx with h | h
    · obtain ⟨e, he, hxe⟩ := List.mem_map.mp h
      exact ⟨rn, List.mem_cons_self _ _, Or.inl ⟨e, he, hxe.symm⟩⟩
    · rcases List.mem_append.mp h with h2 | h2
      · obtain ⟨e, he, hxe⟩ := List.mem_map.mp h2
        exact ⟨rn, List.mem_cons_self _ _, Or.inr ⟨e, he, hxe.symm⟩⟩
      · obtain ⟨rn2, hrn2, hh⟩ := ih x h2
        exact ⟨rn2, List.mem_cons_of_mem _ hrn2, hh⟩

theorem expandBlocks_filter_src (node label : String) (Lout Lin : List GoEdge) (rn : String)
    (hin : ∀ e ∈ Lin, e.src ≠ replaceFirst node label rn) :
    ∀ L : List String,
      List.Pairwise (fun u v => replaceFirst node label u ≠ replaceFirst node label v) L →
      rn ∈ L →
      ((expandBlocks node label Lout Lin L).filter
        (fun e => e.src = replaceFirst node label rn)).length = Lout.length := by
  intro L
  induction L with
  | nil => intro _ h; exact absurd h (List.not_mem_nil rn)
  | cons rn2 t ih =>
    intro hpair hmem
    obtain ⟨hhead, htail⟩ := List.pairwise_cons.mp hpair
    rw [expandBlocks, List.filter_append, List.filter_append, List.length_append,
      List.length_append]
    have hInFail : ((Lin.map fun e => ({ src := e.src, dst := replaceFirst node label rn2 } :
        GoEdge)).filter (fun e => e.src = replaceFirst node label rn)).length = 0 := by
      rw [filter_none]
      · rfl
      · intro x hx
        obtain ⟨e, he, hxe⟩ := List.mem_map.mp hx
        rw [← hxe]
        simp [hin e he]
    rcases List.mem_cons.mp hmem with hEq | hIn
    · have hOutAll : ((Lout.map fun e => ({ src := replaceFirst node label rn2, dst := e.dst } :
          GoEdge)).filter (fun e => e.src = replaceFirst node label rn)).length =
          Lout.length := by
        rw [filter_all]
        · rw [List.length_map]
        · intro x hx
          obtain ⟨e, he, hxe⟩ := List.mem_map.mp hx
          rw [← hxe, ← hEq]
          simp
      have hTail : ((expandBlocks node label Lout Lin t).filter
          (fun e => e.src = replaceFirst node label rn)).length = 0 := by
        rw [filter_none]
        · rfl
        · intro x hx
          obtain ⟨rn3, hrn3, hcase⟩ := expandBlocks_mem node label Lout Lin t x hx
          rcases hcase with ⟨e, he, hxe⟩ | ⟨e, he, hxe⟩
          · rw [hxe]
            have : replaceFirst node label rn3 ≠ replaceFirst node label rn := by
              intro heq
              exact hhead rn3 hrn3 (by rw [← hEq, heq])
            simp [this]
          · rw [hxe]
            simp [hin e he]
      rw [hOutAll, hInFail, hTail]
      omega
    · have hOutFail : ((Lout.map fun e => ({ src := replaceFirst node label rn2, dst := e.dst } :
          GoEdge)).filter (fun e => e.src = replaceFirst node label rn)).length = 0 := by
        rw [filter_none]
        · rfl
        · intro x hx
          obtain ⟨e, he, hxe⟩ := List.mem_map.mp hx
          rw [← hxe]
          simp [hhead rn hIn]
      rw [hOutFail, hInFail, ih htail hIn]
      omega

theorem expandBlocks_filter_dst (node label : String) (Lout Lin : List GoEdge) (rn : String)
    (hout : ∀ e ∈ Lout, e.dst ≠ replaceFirst node label rn) :
    ∀ L : List String,
      List.Pairwise (fun u v => replaceFirst node label u ≠ replaceFirst node label v) L →
      rn ∈ L →
      ((expandBlocks node label Lout Lin L).filter
        (fun e => e.dst = replaceFirst node label rn)).length = Lin.length := by
  intro L
  induction L with
  | nil => intro _ h; exact absurd h (List.not_mem_nil rn)
  | cons rn2 t ih =>
    intro hpair hmem
    obtain ⟨hhead, htail⟩ := List.pairwise_cons.mp hpair
    rw [expandBlocks, List.filter_append, List.filter_append, List.length_append,
      List.length_append]
    have hOutFail : ((Lout.map fun e => ({ src := replaceFirst node label rn2, dst := e.dst } :
        GoEdge)).filter (fun e => e.dst = replaceFirst node label rn)).length = 0 := by
      rw [filter_none]
      · rfl
      · intro x hx
        obtain ⟨e, he, hxe⟩ := List.mem_map.mp hx
        rw [← hxe]
        simp [hout e he]
    rcases List.mem_cons.mp hmem with hEq | hIn
    · have hInAll : ((Lin.map fun e => ({ src := e.src, dst := replaceFirst node label rn2 } :
          GoEdge)).filter (fun e => e.dst = replaceFirst node label rn)).length =
          Lin.length := by
        rw [filter_all]
        · rw [List.length_map]
        · intro x hx
          obtain ⟨e, he, hxe⟩ := List.mem_map.mp hx
          rw [← hxe, ← hEq]
          simp
      have hTail : ((expandBlocks node label Lout Lin t).filter
          (fun e => e.dst = replaceFirst node label rn)).length = 0 := by
        rw [filter_none]
        · rfl
        · intro x hx
          obtain ⟨rn3, hrn3, hcase⟩ := expandBlocks_mem node label Lout Lin t x hx
          rcases hcase with ⟨e, he, hxe⟩ | ⟨e, he, hxe⟩
          · rw [hxe]
            simp [hout e he]
          · rw [hxe]
            have : replaceFirst node label rn3 ≠ replaceFirst node label rn := by
              intro heq
              exact hhead rn3 hrn3 (by rw [← hEq, heq])
            simp [this]
      rw [hOutFail, hInAll, hTail]
      omega
    · have hInFail : ((Lin.map fun e => ({ src := e.src, dst := replaceFirst node label rn2 } :
          GoEdge)).filter (fun e => e.dst = replaceFirst node label rn)).length = 0 := by
        rw [filter_none]
        · rfl
        · intro x hx
          obtain ⟨e, he, hxe⟩ := List.mem_map.mp hx
          rw [← hxe]
          simp [hhead rn hIn]
      rw [hOutFail, hInFail, ih htail hIn]
      omega

/-- Invariant of the per-instance loop of `ExpandNodeCreatedWithList`: after
processing any prefix `done` of the instance list, the node list is the
original plus one instance node per processed address, the edge list is the
original plus the per-instance out/in blocks, and the template's rows in
both nested indices are untouched (so every later instance still copies the
template's original slices). -/
theorem expandFold_inv (g : GoGraph) (node label parentGraph : String) (nd : GoNode)
    (hnd : findNode? g node = some nd)
    (hnoOut : ∀ e ∈ edgesAt g node, e.dst ≠ node)
    (hnoIn : ∀ e ∈ edgesInAt g node, e.src ≠ node) :
    ∀ (S done : List String) (gg : GoGraph),
      (∀ rn ∈ S,
        (replaceFirst node label rn ∉ g.nodes.map (fun x => x.name)) ∧
        (∀ p ∈ done, replaceFirst node label p ≠ replaceFirst node label rn)) →
      List.Pairwise (fun u v => replaceFirst node label u ≠ replaceFirst node label v) S →
      gg.nodes = g.nodes ++ done.map (fun rn =>
        { name := replaceFirst node label rn,
          attrs := setA nd.attrs "label" ("\"" ++ rn ++ "\"") }) →
      gg.edges = g.edges ++ expandBlocks node label (edgesAt g node) (edgesInAt g node) done →
      lookupD gg.srcToDsts node [] = lookupD g.srcToDsts node [] →
      lookupD gg.dstToSrcs node [] = lookupD g.dstToSrcs node [] →
      (S.foldl (fun gg2 rn => expandInstanceStep node label parentGraph gg2 rn) gg).nodes =
        g.nodes ++ (done ++ S).map (fun rn =>
          { name := replaceFirst node label rn,
            attrs := setA nd.attrs "label" ("\"" ++ rn ++ "\"") }) ∧
      (S.foldl (fun gg2 rn => expandInstanceStep node label parentGraph gg2 rn) gg).edges =
        g.edges ++ expandBlocks node label (edgesAt g node) (edgesInAt g node) (done ++ S) ∧
      lookupD (S.foldl (fun gg2 rn => expandInstanceStep node label parentGraph gg2 rn)
        gg).srcToDsts node [] = lookupD g.srcToDsts node [] ∧
      lookupD (S.foldl (fun gg2 rn => expandInstanceStep node label parentGraph gg2 rn)
        gg).dstToSrcs node [] = lookupD g.dstToSrcs node [] := by
  intro S
  induction S with
  | nil =>
    intro done gg _ _ h1 h2 h3 h4
    simp only [List.foldl_nil, List.append_nil]
    exact ⟨h1, h2, h3, h4⟩
  | cons rn T ih =>
    intro done gg hS hpair hnodes hedges hs2d hd2s
    rw [List.foldl_cons]
    obtain ⟨hSfresh, hSdone⟩ := hS rn (List.mem_cons_self _ _)
    have hndmem : nd ∈ g.nodes := List.mem_of_find?_eq_some hnd
    have hndname : nd.name = node := by
      have hp := List.find?_some hnd
      simpa using hp
    have hnode_names : node ∈ g.nodes.map (fun x => x.name) :=
      List.mem_map.mpr ⟨nd, hndmem, hndname⟩
    have hInstNode : replaceFirst node label rn ≠ node := by
      intro heq
      rw [heq] at hSfresh
      exact hSfresh hnode_names
    have hfindgg : findNode? gg node = some nd := by
      show gg.nodes.find? (fun x => x.name = node) = some nd
      rw [hnodes]
      exact find?_append_some _ _ _ _ hnd
    have hnone : gg.nodes.find? (fun x => x.name = replaceFirst node label rn) = none := by
      rw [hnodes]
      rw [find?_append_none _ _ _ (by
        rw [List.find?_eq_none]
        intro x hx
        simp only [decide_eq_true_eq]
        intro heq
        exact hSfresh (List.mem_map.mpr ⟨x, hx, heq⟩))]
      rw [List.find?_eq_none]
      intro x hx
      obtain ⟨p, hp, hpx⟩ := List.mem_map.mp hx
      rw [← hpx]
      simp only [decide_eq_true_eq]
      exact hSdone p hp
    have hfresh2 : (gg.nodes.find? (fun x => x.name = replaceFirst node label rn)).isSome =
        false := by
      rw [hnone]
      rfl
    have hg1nodes := addNode_nodes_fresh gg parentGraph (replaceFirst node label rn)
      (setA nd.attrs "label" ("\"" ++ rn ++ "\"")) hfresh2
    have hkey : expandInstanceStep node label parentGraph gg rn =
        (lookupD g.dstToSrcs node []).foldl
          (fun gg2 p => p.2.foldl (fun gg3 e =>
            AddEdge e.src (replaceFirst node label rn) gg3) gg2)
          ((lookupD g.srcToDsts node []).foldl
            (fun gg2 p => p.2.foldl (fun gg3 e =>
              AddEdge (replaceFirst node label rn) e.dst gg3) gg2)
            (AddNode parentGraph (replaceFirst node label rn)
              (setA nd.attrs "label" ("\"" ++ rn ++ "\"")) gg)) := by
      simp only [expandInstanceStep, hfindgg]
      rw [addNode_s2d, hs2d]
      have hd2spres := (addEdgesOut_outer (replaceFirst node label rn)
        (lookupD g.srcToDsts node [])
        (AddNode parentGraph (replaceFirst node label rn)
          (setA nd.attrs "label" ("\"" ++ rn ++ "\"")) gg)).2.2.2 node
        (fun e he => hnoOut e he)
      rw [hd2spres, addNode_d2s, hd2s]
    obtain ⟨o1, o2, o3, o4⟩ := addEdgesOut_outer (replaceFirst node label rn)
      (lookupD g.srcToDsts node [])
      (AddNode parentGraph (replaceFirst node label rn)
        (setA nd.attrs "label" ("\"" ++ rn ++ "\"")) gg)
    obtain ⟨i1, i2, i3, i4⟩ := addEdgesIn_outer (replaceFirst node label rn)
      (lookupD g.dstToSrcs node [])
      ((lookupD g.srcToDsts node []).foldl
        (fun gg2 p => p.2.foldl (fun gg3 e =>
          AddEdge (replaceFirst node label rn) e.dst gg3) gg2)
        (AddNode parentGraph (replaceFirst node label rn)
          (setA nd.attrs "label" ("\"" ++ rn ++ "\"")) gg))
    have hnodes' : (expandInstanceStep node label parentGraph gg rn).nodes =
        g.nodes ++ (done ++ [rn]).map (fun rn2 =>
          { name := replaceFirst node label rn2,
            attrs := setA nd.attrs "label" ("\"" ++ rn2 ++ "\"") }) := by
      rw [hkey, i1, o1, hg1nodes, hnodes]
      simp [List.append_assoc]
    have hedges' : (expandInstanceStep node label parentGraph gg rn).edges =
        g.edges ++ expandBlocks node label (edgesAt g node) (edgesInAt g node)
          (done ++ [rn]) := by
      rw [hkey, i2, o2, addNode_edges, hedges, expandBlocks_append]
      simp [expandBlocks, edgesAt, edgesInAt, List.append_assoc]
    have hs2d' : lookupD (expandInstanceStep node label parentGraph gg rn).srcToDsts node [] =
        lookupD g.srcToDsts node [] := by
      rw [hkey, i3 node (fun e he => hnoIn e he), o3 node (Ne.symm hInstNode),
        addNode_s2d, hs2d]
    have hd2s' : lookupD (expandInstanceStep node label parentGraph gg rn).dstToSrcs node [] =
        lookupD g.dstToSrcs node [] := by
      rw [hkey, i4 node (Ne.symm hInstNode), o4 node (fun e he => hnoOut e he),
        addNode_d2s, hd2s]
    have hres := ih (done ++ [rn]) (expandInstanceStep node label parentGraph gg rn)
      (fun rn2 hrn2 => ⟨(hS rn2 (List.mem_cons_of_mem _ hrn2)).1, fun p hp => by
        rcases List.mem_append.mp hp with h | h
        · exact (hS rn2 (List.mem_cons_of_mem _ hrn2)).2 p h
        · have hpeq : p = rn := by simpa using h
          rw [hpeq]
          exact (List.pairwise_cons.mp hpair).1 rn2 hrn2⟩)
      (List.pairwise_cons.mp hpair).2 hnodes' hedges' hs2d' hd2s'
    rw [List.append_assoc, List.singleton_append] at hres
    exact hres

/-- C2 fixture: a vm template with one outgoing edge (to a nic) and one
incoming edge (from a resource group), with the state store listing three
concrete vm instances. -/
def c2Graph : GoGraph :=
  fixtureGraph
    [("\"azurerm_network_interface.nic\"", "azurerm_network_interface.nic"),
     ("\"azurerm_linux_virtual_machine.vm\"", "azurerm_linux_virtual_machine.vm"),
     ("\"azurerm_resource_group.rg\"", "azurerm_resource_group.rg")]
    [("\"azurerm_linux_virtual_machine.vm\"", "\"azurerm_network_interface.nic\""),
     ("\"azurerm_resource_group.rg\"", "\"azurerm_linux_virtual_machine.vm\"")]

/-- The state store for the C2 fixture: the vm resource is multi-instance
with three concrete instance addresses. -/
def c2State : TFStateHandler :=
  { resources := ["azurerm_linux_virtual_machine.vm[0]",
      "azurerm_linux_virtual_machine.vm[1]", "azurerm_linux_virtual_machine.vm[2]",
      "azurerm_network_interface.nic", "azurerm_resource_group.rg"],
    objects := [] }

/-- The template node of the C2 fixture as it sits in `c2Graph`. -/
def c2TemplateNode : GoNode :=
  { name := "\"azurerm_linux_virtual_machine.vm\"",
    attrs := [("label", "\"azurerm_linux_virtual_machine.vm\"")] }

/-- C2: for a template node with out-degree d and in-degree i that the
state handler reports as multi-instance with n concrete instance addresses,
the expansion mutation of `ExpandNodeCreatedWithList` produces exactly n
new nodes — one per instance address, each carrying the template's
attributes with the label overwritten by the concrete address — and
exactly n·d outgoing plus n·i incoming edges for the instance set (d per
instance to the template's original destinations, i per instance from the
template's original sources), while the template node and every edge
incident to it are removed. Side conditions: the template is in the graph,
has no self-loop in either index row, and the instance names are fresh
(absent from the graph) and mutually distinct. -/
theorem claim_C2_expansion (g : GoGraph) (node label parentGraph : String) (nd : GoNode)
    (st : TFStateHandler) (resourceNames : List String)
    (hcwl : IsCreatedWithList st label = true)
    (hlist : GetListOfNamesForResource st label = .ok resourceNames)
    (hnd : findNode? g node = some nd)
    (hnoOut : ∀ e ∈ edgesAt g node, e.dst ≠ node)
    (hnoIn : ∀ e ∈ edgesInAt g node, e.src ≠ node)
    (hfresh : ∀ rn ∈ resourceNames,
      (replaceFirst node label rn ∉ g.nodes.map (fun x => x.name)) ∧
      (∀ e ∈ g.edges, e.src ≠ replaceFirst node label rn ∧
        e.dst ≠ replaceFirst node label rn) ∧
      (∀ e ∈ edgesAt g node, e.dst ≠ replaceFirst node label rn) ∧
      (∀ e ∈ edgesInAt g node, e.src ≠ replaceFirst node label rn))
    (hpair : List.Pairwise
      (fun u v => replaceFirst node label u ≠ replaceFirst node label v) resourceNames) :
    ExpansionConserves g node label parentGraph nd resourceNames := by
  have hfold := expandFold_inv g node label parentGraph nd hnd hnoOut hnoIn resourceNames [] g
    (fun rn hrn => ⟨(hfresh rn hrn).1, fun p hp => absurd hp (List.not_mem_nil p)⟩)
    hpair (by simp) (by simp [expandBlocks]) rfl rfl
  rw [List.nil_append] at hfold
  obtain ⟨hN, hE, _, _⟩ := hfold
  have hndname : nd.name = node := by
    have hp := List.find?_some hnd
    simpa using hp
  have hnode_names : node ∈ g.nodes.map (fun x => x.name) :=
    List.mem_map.mpr ⟨nd, List.mem_of_find?_eq_some hnd, hndname⟩
  have hInstNe : ∀ rn ∈ resourceNames, replaceFirst node label rn ≠ node := by
    intro rn hrn heq
    apply (hfresh rn hrn).1
    rw [heq]
    exact hnode_names
  have hBlocksAll : (expandBlocks node label (edgesAt g node) (edgesInAt g node)
      resourceNames).filter (fun e => !(e.src = node || e.dst = node)) =
      expandBlocks node label (edgesAt g node) (edgesInAt g node) resourceNames := by
    apply filter_all
    intro x hx
    obtain ⟨rn, hrn, hcase⟩ := expandBlocks_mem node label (edgesAt g node)
      (edgesInAt g node) resourceNames x hx
    rcases hcase with ⟨e, he, hxe⟩ | ⟨e, he, hxe⟩
    · rw [hxe]
      simp [hInstNe rn hrn, hnoOut e he]
    · rw [hxe]
      simp [hInstNe rn hrn, hnoIn e he]
  refine ⟨?_, ?_, ?_, ?_, ?_⟩
  · simp only [expandTemplate, removeNode_nodes]
    rw [hN, List.filter_append]
    congr 1
    apply filter_all
    intro x hx
    obtain ⟨rn, hrn, hxeq⟩ := List.mem_map.mp hx
    rw [← hxeq]
    simp [hInstNe rn hrn]
  · simp only [expandTemplate, removeNode_edges]
    rw [hE, List.filter_append, hBlocksAll]
  · intro rn hrn
    constructor
    · have hA : ((g.edges.filter (fun e => !(e.src = node || e.dst = node))).filter
          (fun e => e.src = replaceFirst node label rn)) = [] := by
        apply filter_none
        intro x hx
        have hxg : x ∈ g.edges := (List.mem_filter.mp hx).1
        simp [((hfresh rn hrn).2.1 x hxg).1]
      simp only [expandTemplate, removeNode_edges]
      rw [hE, List.filter_append, hBlocksAll, List.filter_append, List.length_append, hA,
        expandBlocks_filter_src node label (edgesAt g node) (edgesInAt g node) rn
          ((hfresh rn hrn).2.2.2) resourceNames hpair hrn]
      simp
    · have hA : ((g.edges.filter (fun e => !(e.src = node || e.dst = node))).filter
          (fun e => e.dst = replaceFirst node label rn)) = [] := by
        apply filter_none
        intro x hx
        have hxg : x ∈ g.edges := (List.mem_filter.mp hx).1
        simp [((hfresh rn hrn).2.1 x hxg).2]
      simp only [expandTemplate, removeNode_edges]
      rw [hE, List.filter_append, hBlocksAll, List.filter_append, List.length_append, hA,
        expandBlocks_filter_dst node label (edgesAt g node) (edgesInAt g node) rn
          ((hfresh rn hrn).2.2.1) resourceNames hpair hrn]
      simp
  · show (RemoveNode node (resourceNames.foldl (fun gg2 rn =>
        expandInstanceStep node label parentGraph gg2 rn) g)).nodes.find?
      (fun x => x.name = node) = none
    rw [removeNode_nodes, List.find?_eq_none]
    intro x hx
    simp only [decide_eq_true_eq]
    have h2 := (List.mem_filter.mp hx).2
    simpa using h2
  · simp only [expandTemplate, removeNode_edges]
    rw [hE, List.filter_append, hBlocksAll, List.filter_append, List.length_append]
    have hA : (g.edges.filter (fun e => !(e.src = node || e.dst = node))).filter
        (fun e => e.src = node || e.dst = node) = [] := by
      apply filter_none
      intro x hx
      have h2 := (List.mem_filter.mp hx).2
      simp at h2
      simp [h2.1, h2.2]
    have hB : (expandBlocks node label (edgesAt g node) (edgesInAt g node)
        resourceNames).filter (fun e => e.src = node || e.dst = node) = [] := by
      apply filter_none
      intro x hx
      obtain ⟨rn, hrn, hcase⟩ := expandBlocks_mem node label (edgesAt g node)
        (edgesInAt g node) resourceNames x hx
      rcases hcase with ⟨e, he, hxe⟩ | ⟨e, he, hxe⟩
      · rw [hxe]
        simp [hInstNe rn hrn, hnoOut e he]
      · rw [hxe]
        simp [hInstNe rn hrn, hnoIn e he]
    rw [hA, hB]
    simp

/-- C2 witness: on the vm/nic/rg fixture with three reported instance
addresses, expansion conservation holds concretely. -/
theorem claim_C2_expansion_witness :
    ExpansionConserves c2Graph "\"azurerm_linux_virtual_machine.vm\""
      "azurerm_linux_virtual_machine.vm" "G" c2TemplateNode
      ["azurerm_linux_virtual_machine.vm[0]", "azurerm_linux_virtual_machine.vm[1]",
       "azurerm_linux_virtual_machine.vm[2]"] :=
  claim_C2_expansion c2Graph "\"azurerm_linux_virtual_machine.vm\""
    "azurerm_linux_virtual_machine.vm" "G" c2TemplateNode c2State
    ["azurerm_linux_virtual_machine.vm[0]", "azurerm_linux_virtual_machine.vm[1]",
     "azurerm_linux_virtual_machine.vm[2]"]
    (by decide) (by rfl) (by decide) (by decide) (by decide) (by decide) (by decide)

end Terraview
